import Mathlib

/-!
# Export reconciliation of elf2e32 (`ElfFileSupplied`)

A shallow embedding of `source/elffilesupplied.cpp`.

* Symbols live in a heap and the C++ lists `Symbols` (`std::list<Symbol*>`)
  are lists of addresses, so that a mutation through one list is seen
  through every other list holding the same pointer.
* `PLUINT32` values are natural numbers; the increment of a `PLUINT32`
  is taken modulo `2^32`. A value stored in a `PLUINT32`, a `PLUINT16` or a
  `PLUINT8` is taken modulo `2^32`, `2^16` or `2^8`. The `int` and `size_t`
  values of `CreateExportBitMap` and `AllocateE32ImageHeader` are integers
  without bound: signed overflow is undefined, and where a bound matters the
  theorems say that the number of exports is the value of the `int` `nexp`.
* Arrays of bytes (`iExportBitMap`, `iExportDesc`) are lists of natural
  numbers.
* Symbol names are C strings: the list of characters before the
  terminating NUL.
* The diagnostic lines written to `cout` are not part of the model.
-/

namespace Elf2e32

/-! ## C strings -/

/-- The sign of `strcmp(a, b)`: characters are compared by code, the end of a
string counts as smaller than any character. -/
def strcmp : List Char → List Char → Int
  | [], [] => 0
  | [], _ :: _ => -1
  | _ :: _, [] => 1
  | a :: as, b :: bs =>
    if a = b then strcmp as bs else if a < b then -1 else 1

/-- The sign of `strncmp(a, b, n)`: as `strcmp`, over at most `n` characters. -/
def strncmp : List Char → List Char → Nat → Int
  | _, _, 0 => 0
  | [], [], _ + 1 => 0
  | [], _ :: _, _ + 1 => -1
  | _ :: _, [], _ + 1 => 1
  | a :: as, b :: bs, n + 1 =>
    if a = b then strncmp as bs n else if a < b then -1 else 1

/-- The result of `strlen`. -/
def strlen (s : List Char) : Nat := s.length

/-- The result of `strstr(hay, needle)`: the tail of `hay` that starts with the
first occurrence of `needle`, or `none` for a null pointer. -/
def strstr : List Char → List Char → Option (List Char)
  | [], needle => if needle.isEmpty then some [] else none
  | c :: hay, needle =>
    if needle.isPrefixOf (c :: hay) then some (c :: hay) else strstr hay needle

/-! ## Symbols -/

/-- The two kinds of symbol, `SymbolTypeCode` and `SymbolTypeData`. -/
inductive SymbolType where
  | SymbolTypeCode
  | SymbolTypeData
  deriving DecidableEq, Repr

/-- The status of a symbol after reconciliation. -/
inductive SymbolStatus where
  | Matching
  | Missing
  | New
  | Filtered
  deriving DecidableEq, Repr

/-- Modelled from the spec: the class `Symbol` (`pl_symbol.h` is not among the
sources). The record of section 3 of the specification: name, ordinal, kind,
absent flag, status and comment, with the size that the DEF grammar attaches to
a data symbol. -/
structure Symbol where
  name : List Char
  ordinal : Nat
  kind : SymbolType
  absent : Bool
  status : SymbolStatus
  size : Nat
  comment : List Char
  deriving DecidableEq, Repr

instance : Inhabited Symbol :=
  ⟨⟨[], 0, SymbolType.SymbolTypeCode, false, SymbolStatus.Matching, 0, []⟩⟩

/-- The objects of type `Symbol`, by address; an address is a natural number. -/
abbrev Heap := Nat → Symbol

/-- A store through a pointer: `*p = s`. -/
def Heap.set (h : Heap) (p : Nat) (s : Symbol) : Heap :=
  fun q => if q = p then s else h q

/-- The type of the list `Symbols` (`std::list<Symbol*>`) of `deffile.h`. -/
abbrev Symbols := List Nat

/-- A comparator object called on two pointers: it answers and may update the
objects it was given. -/
abbrev Comparator := Heap → Nat → Nat → Bool × Heap

/-! ## Standard library algorithms -/

/-- One step of the stable insertion used by `listSort`: `a` goes before the
first element that is not smaller than it. -/
def sortInsert (lt : Nat → Nat → Bool) (a : Nat) : List Nat → List Nat
  | [] => [a]
  | b :: l => if lt b a then b :: sortInsert lt a l else a :: b :: l

/-- The result of `std::list::sort(comp)`, a stable sort. -/
def listSort (lt : Nat → Nat → Bool) (l : List Nat) : List Nat :=
  l.foldr (sortInsert lt) []

/-- The algorithm `std::set_difference(first1, last1, first2, last2, out, comp)`;
the first argument bounds the number of loop iterations. -/
def set_difference (comp : Comparator) : Nat → Heap → List Nat → List Nat → List Nat × Heap
  | _, h, [], _ => ([], h)
  | _, h, a :: as, [] => (a :: as, h)
  | 0, h, _ :: _, _ :: _ => ([], h)
  | n + 1, h, a :: as, b :: bs =>
    if (comp h a b).1 then
      ((a :: (set_difference comp n (comp h a b).2 as (b :: bs)).1),
        (set_difference comp n (comp h a b).2 as (b :: bs)).2)
    else if (comp (comp h a b).2 b a).1 then
      set_difference comp n (comp (comp h a b).2 b a).2 (a :: as) bs
    else
      set_difference comp n (comp (comp h a b).2 b a).2 as bs

/-- The algorithm `std::set_intersection(first1, last1, first2, last2, out, comp)`;
the first argument bounds the number of loop iterations. -/
def set_intersection (comp : Comparator) : Nat → Heap → List Nat → List Nat → List Nat × Heap
  | _, h, [], _ => ([], h)
  | _, h, _ :: _, [] => ([], h)
  | 0, h, _ :: _, _ :: _ => ([], h)
  | n + 1, h, a :: as, b :: bs =>
    if (comp h a b).1 then
      set_intersection comp n (comp h a b).2 as (b :: bs)
    else if (comp (comp h a b).2 b a).1 then
      set_intersection comp n (comp (comp h a b).2 b a).2 (a :: as) bs
    else
      ((a :: (set_intersection comp n (comp (comp h a b).2 b a).2 as bs).1),
        (set_intersection comp n (comp (comp h a b).2 b a).2 as bs).2)

/-! ## Comparators of `ElfExports` -/

/-- Modelled from the spec: the comparator `ElfExports::PtrELFExportNameCompare`
(`pl_elfexports.h` is not among the sources). Section 4.4: the set operations
are defined by name equality and iterate in ascending name order. -/
def PtrELFExportNameCompare : Comparator :=
  fun h aLeft aRight => (decide (strcmp (h aLeft).name (h aRight).name < 0), h)

/-- Modelled from the spec: the comparator
`ElfExports::PtrELFExportNameCompareUpdateAttributes` (`pl_elfexports.h` is not
among the sources). It orders by name as `PtrELFExportNameCompare` does. Where
the two names are equal it updates the attributes of the two symbols.

* The right symbol takes the ordinal and the absent flag of the left symbol.
  Case 3 of `ValidateDefExports` tests `Absent()` on the ELF symbols, section 4.4
  has it skip an ELF symbol whose absent flag is set, a flag that comes from the
  annotations of the ELF side, and the comment before the cases has the ELF
  symbol of an absent DEF symbol retain the ordinal of the absent symbol.
* An absent left symbol takes kind and size of the right symbol. Section 4.4
  says of a DEF-absent symbol met in the ELF (Phase 2) that the ELF-side kind
  and size are carried over while its ordinal and absent flag are preserved.

The set algorithms call the comparator on a DEF symbol and an ELF symbol, in
this order, and in the other order when the answer was false: the second call
finds the ordinals and the absent flags equal already. -/
def PtrELFExportNameCompareUpdateAttributes : Comparator :=
  fun h aLeft aRight =>
    if strcmp (h aLeft).name (h aRight).name = 0 then
      (false,
        if (h aLeft).absent then
          (h.set aRight
            { h aRight with ordinal := (h aLeft).ordinal, absent := (h aLeft).absent }).set aLeft
            { h aLeft with kind := (h aRight).kind, size := (h aRight).size }
        else
          h.set aRight
            { h aRight with ordinal := (h aLeft).ordinal, absent := (h aLeft).absent })
    else
      (decide (strcmp (h aLeft).name (h aRight).name < 0), h)

/-- Modelled from the spec: the comparator `ElfExports::PtrELFExportOrdinalCompare`
(`pl_elfexports.h` is not among the sources). Section 4.4, finalization: the
list is sorted by ordinal ascending. -/
def PtrELFExportOrdinalCompare : Comparator :=
  fun h aLeft aRight => (decide ((h aLeft).ordinal < (h aRight).ordinal), h)

/-! ## The object -/

/-- Modelled from the spec: the class `ElfExports` behind `iReader->iExports`
(`pl_elfexports.h` is not among the sources), section 4.3: the list of dynamic
exports and the mutable filtered-out set with its flag. -/
structure ElfExports where
  iElfExports : Symbols
  iFilteredExports : Symbols
  iExportsFilteredP : Bool
  deriving DecidableEq, Repr

/-- Modelled from the spec: `ElfReader::GetElfSymbols` (`pl_elfreader.h` is not
among the sources), section 4.3 (a): it yields the list of dynamic exports. -/
def ElfExports.GetElfSymbols (e : ElfExports) : Symbols := e.iElfExports

/-- Modelled from the spec: `ElfExports::Add` (`pl_elfexports.h` is not among the
sources), section 4.4, Phase 4: the symbol is registered in the export view. -/
def ElfExports.Add (e : ElfExports) (aSymbol : Nat) : ElfExports :=
  { e with iElfExports := e.iElfExports ++ [aSymbol] }

/-- Modelled from the spec: `ElfExports::FilterExports` (`pl_elfexports.h` is not
among the sources), section 4.4, finalization: the filtered-out symbols are
erased from the authoritative export list. -/
def ElfExports.FilterExports (e : ElfExports) : ElfExports :=
  { e with iElfExports := e.iElfExports.filter (fun p => !(e.iFilteredExports.contains p)) }

/-- The option accessors that `ValidateDefExports` reads (`Unfrozen()`,
`GetIgnoreNonCallable()`, `IsCustomDllTarget()`, `ExcludeUnwantedExports()`) and
the table `Unwantedruntimesymbols` of `staticlibsymbols.h`. -/
structure Options where
  Unfrozen : Bool
  IgnoreNonCallable : Bool
  IsCustomDllTarget : Bool
  ExcludeUnwantedExports : Bool
  Unwantedruntimesymbols : List (List Char)
  deriving DecidableEq, Repr

/-- The members of `ElfFileSupplied` (and of its reader) that export
reconciliation uses, with the heap of symbols and the next free address. -/
structure ElfFileSupplied where
  heap : Heap
  brk : Nat
  iSymbols : Symbols
  iExports : Option ElfExports

/-- The ways `ValidateDefExports` ends: it returns, it throws
`SymbolMissingFromElfError` with the list of names, or it calls a member of the
null pointer `iReader->iExports`. The object is given as it is then. -/
inductive Outcome where
  | ok (self : ElfFileSupplied)
  | SymbolMissingFromElfError (aMissingSymNameList : List (List Char)) (self : ElfFileSupplied)
  | nullExports

/-! ## `ElfFileSupplied` -/

/-- The function `ElfFileSupplied::SymbolTypeF`. -/
def SymbolTypeF (aName : List Char) : SymbolType :=
  let prefixLength := strlen "_ZTV".toList
  let classImpedimenta :=
    (strncmp aName "_ZTV".toList prefixLength == 0) ||
    (strncmp aName "_ZTI".toList prefixLength == 0) ||
    (strncmp aName "_ZTS".toList prefixLength == 0)
  if classImpedimenta then SymbolType.SymbolTypeData else SymbolType.SymbolTypeCode

/-- The function `ElfFileSupplied::UnWantedSymbol`, over the table
`Unwantedruntimesymbols`. -/
def UnWantedSymbol (table : List (List Char)) (aSymbol : List Char) : Bool :=
  match table with
  | [] => false
  | entry :: rest =>
    if (strstr entry aSymbol).isSome then true else UnWantedSymbol rest aSymbol

/-- The loop of `ValidateDefExports` over `*aDefExports`: the absent symbols,
the others, and the greatest ordinal. -/
def splitDefExports (h : Heap) :
    List Nat → Symbols × Symbols × Nat → Symbols × Symbols × Nat
  | [], acc => acc
  | x :: xs, (aDefValidExports, aDefAbsentExports, aMaxOrdinal) =>
    splitDefExports h xs
      (if (h x).absent then aDefValidExports else aDefValidExports ++ [x],
       if (h x).absent then aDefAbsentExports ++ [x] else aDefAbsentExports,
       if aMaxOrdinal < (h x).ordinal then (h x).ordinal else aMaxOrdinal)

/-- The loop of case 1: every symbol of the difference gets the status
`Missing`. -/
def markMissing (h : Heap) : List Nat → Heap
  | [] => h
  | p :: ps => markMissing (h.set p { h p with status := SymbolStatus.Missing }) ps

/-- The loop of case 3 over the difference `{ELF_Symbols - Valid_DEF}`, with
the running value of `aMaxOrdinal`; `none` when `iReader->iExports` is null
where it is used. -/
def newExports (o : Options) :
    List Nat → ElfFileSupplied → Nat → Option (ElfFileSupplied × Nat)
  | [], self, aMaxOrdinal => some (self, aMaxOrdinal)
  | p :: ps, self, aMaxOrdinal =>
    if !(self.heap p).absent then
      if (o.IsCustomDllTarget || o.ExcludeUnwantedExports) &&
          UnWantedSymbol o.Unwantedruntimesymbols (self.heap p).name then
        match self.iExports with
        | none => none
        | some e =>
          newExports o ps
            { self with iExports := some { e with
                iExportsFilteredP := true
                iFilteredExports := e.iFilteredExports ++ [p] } } aMaxOrdinal
      else if o.IgnoreNonCallable &&
          ((strncmp "_ZTI".toList (self.heap p).name (strlen "_ZTI".toList) == 0) ||
           (strncmp "_ZTV".toList (self.heap p).name (strlen "_ZTI".toList) == 0)) then
        match self.iExports with
        | none => none
        | some e =>
          newExports o ps
            { self with iExports := some { e with
                iExportsFilteredP := true
                iFilteredExports := e.iFilteredExports ++ [p] } } aMaxOrdinal
      else
        newExports o ps
          { self with
            heap := self.heap.set p { self.heap p with
              ordinal := (aMaxOrdinal + 1) % 2 ^ 32
              status := SymbolStatus.New }
            iSymbols := self.iSymbols ++ [p] }
          ((aMaxOrdinal + 1) % 2 ^ 32)
    else
      newExports o ps self aMaxOrdinal

/-- Modelled from the spec: the constructor `Symbol(Symbol&, SymbolType, bool)`
(`pl_symbol.h` is not among the sources), section 4.4, Phase 4: a copy with the
given kind and absent flag, the ordinal being the original one. -/
def Symbol.copyWith (aSymbol : Symbol) (aSymbolType : SymbolType) (aAbsent : Bool) : Symbol :=
  { aSymbol with kind := aSymbolType, absent := aAbsent }

/-- The loop of case 4 over the difference `{Absent - ELF_Symbols}`; `none`
when `iReader->iExports` is null. -/
def absentExports : List Nat → ElfFileSupplied → Option ElfFileSupplied
  | [], self => some self
  | p :: ps, self =>
    match self.iExports with
    | none => none
    | some e =>
      absentExports ps
        { heap := self.heap.set self.brk
            ((self.heap p).copyWith SymbolType.SymbolTypeCode true)
          brk := self.brk + 1
          iSymbols := self.iSymbols ++ [self.brk]
          iExports := some (e.Add self.brk) }

/-- The tail of `ValidateDefExports` after case 4: the filtered exports are
erased when the flag is set. -/
def finishExports (self : ElfFileSupplied) : ElfFileSupplied :=
  match self.iExports with
  | some e => if e.iExportsFilteredP then { self with iExports := some e.FilterExports } else self
  | none => self

/-- Cases 3 and 4 and the tail of `ValidateDefExports`. -/
def ValidateDefExports_new (o : Options) (self : ElfFileSupplied)
    (aDefValidExports aDefAbsentExports aElfExports : Symbols) (aMaxOrdinal : Nat) : Outcome :=
  -- Do 3
  let aResult := set_difference PtrELFExportNameCompare
    (aElfExports.length + aDefValidExports.length) self.heap aElfExports aDefValidExports
  match newExports o aResult.1 { self with heap := aResult.2 } aMaxOrdinal with
  | none => Outcome.nullExports
  | some (self, _) =>
    -- Do 4 (the sort of the local list `aElfExports` by ordinal, at the end of the
    -- block, is left out: the list is cleared without being read again)
    if aDefAbsentExports.length ≠ 0 then
      let aResult := set_difference PtrELFExportNameCompareUpdateAttributes
        (aDefAbsentExports.length + aElfExports.length) self.heap aDefAbsentExports aElfExports
      match absentExports aResult.1 { self with heap := aResult.2 } with
      | none => Outcome.nullExports
      | some self =>
        Outcome.ok (finishExports { self with
          iSymbols := listSort (fun l r => (PtrELFExportOrdinalCompare self.heap l r).1)
            self.iSymbols })
    else
      Outcome.ok (finishExports self)

/-- Case 2 of `ValidateDefExports`, the intersection set `{Absent, ELF_Symbols}`,
followed by the rest of the function. -/
def ValidateDefExports_absent (o : Options) (self : ElfFileSupplied)
    (aDefValidExports aDefAbsentExports aElfExports : Symbols) (aMaxOrdinal : Nat) : Outcome :=
  -- Check for Case 2... intersection set {Absent,ELF_Symbols}
  if aDefAbsentExports.length ≠ 0 then
    let aResult := set_intersection PtrELFExportNameCompareUpdateAttributes
      (aDefAbsentExports.length + aElfExports.length) self.heap aDefAbsentExports aElfExports
    ValidateDefExports_new o { self with heap := aResult.2, iSymbols := self.iSymbols ++ aResult.1 }
      aDefValidExports aDefAbsentExports aElfExports aMaxOrdinal
  else
    ValidateDefExports_new o self aDefValidExports aDefAbsentExports aElfExports aMaxOrdinal

/-- Case 1 of `ValidateDefExports`, the set `{Valid_DEF - ELF_Symbols}`, followed
by the rest of the function. -/
def ValidateDefExports_missing (o : Options) (self : ElfFileSupplied)
    (aDefValidExports aDefAbsentExports aElfExports : Symbols) (aMaxOrdinal : Nat) : Outcome :=
  -- Check for Case 1... {Valid_DEF - ELF_Symbols}
  let aResult := set_difference PtrELFExportNameCompareUpdateAttributes
    (aDefValidExports.length + aElfExports.length) self.heap aDefValidExports aElfExports
  let self := { self with heap := markMissing aResult.2 aResult.1 }
  let aMissingSymNameList := aResult.1.map (fun p => (self.heap p).name)
  if aMissingSymNameList.length ≠ 0 && !o.Unfrozen then
    Outcome.SymbolMissingFromElfError aMissingSymNameList self
  else
    ValidateDefExports_absent o self aDefValidExports aDefAbsentExports aElfExports aMaxOrdinal

/-- The list `aElfExports` that `ValidateDefExports` takes from the reader: the
ELF symbols when `iReader->iExports` is not null, the empty list otherwise. -/
def ElfFileSupplied.GetElfSymbols (self : ElfFileSupplied) : Symbols :=
  match self.iExports with
  | some e => e.GetElfSymbols
  | none => []

/-- The function `ElfFileSupplied::ValidateDefExports`; `aDefExports` is `none`
for a null pointer. -/
def ValidateDefExports (o : Options) (self : ElfFileSupplied) (aDefExports : Option Symbols) :
    Outcome :=
  let split := splitDefExports self.heap (aDefExports.getD []) ([], [], 0)
  let self := { self with iSymbols := split.1 }
  if self.iExports.isNone && aDefExports.isNone then Outcome.ok self else
  let aElfExports := self.GetElfSymbols
  ValidateDefExports_missing o self
    (listSort (fun l r => (PtrELFExportNameCompare self.heap l r).1) split.1)
    (listSort (fun l r => (PtrELFExportNameCompare self.heap l r).1) split.2.1)
    (listSort (fun l r => (PtrELFExportNameCompare self.heap l r).1) aElfExports)
    split.2.2

/-! ## The export description -/

/-- Modelled from the spec: the tag `KImageHdr_ExpD_FullBitmap` (`e32imagedefs.h`
is not among the sources), section 6: type 1 is the full bitmap. -/
def KImageHdr_ExpD_FullBitmap : Nat := 1

/-- Modelled from the spec: the tag `KImageHdr_ExpD_SparseBitmap8`
(`e32imagedefs.h` is not among the sources), section 6: type 2 is sparse-8. -/
def KImageHdr_ExpD_SparseBitmap8 : Nat := 2

/-- Modelled from the spec: the class `E32ExportTable` behind `iExportTable`
(`e32exporttable.h` is not among the sources), section 6: one header word,
followed by a 32-bit address for every export slot. -/
structure E32ExportTable where
  header : Nat
  slots : List Nat
  deriving DecidableEq, Repr

/-- Modelled from the spec: `E32ExportTable::GetNumExports`, the number of
export slots (section 4.6). -/
def E32ExportTable.GetNumExports (t : E32ExportTable) : Nat := t.slots.length

/-- Modelled from the spec: `E32ExportTable::GetExportTable`, the words of the
table, the header word first (section 6). -/
def E32ExportTable.GetExportTable (t : E32ExportTable) : List Nat := t.header :: t.slots

/-- Modelled from the spec: the table `iExportTable` before `CreateExportTable`
is called, a table without slot (section 8: without exports `N = 0`). -/
def E32ExportTable.empty : E32ExportTable := ⟨0, []⟩

/-- The members of `ElfFileSupplied` behind the export description of the image
header. `iExportBitMap` is `none` for a null pointer, and a byte is a natural
number below 256. -/
structure ExportMembers where
  iExportTable : E32ExportTable
  iNumAbsentExports : Int
  iExportBitMap : Option (List Nat)
  iExportDescSize : Nat
  iExportDescType : Nat
  deriving DecidableEq, Repr

/-- The members as the constructor `ElfFileSupplied::ElfFileSupplied` leaves
them. -/
def ExportMembers.constructed : ExportMembers :=
  { iExportTable := E32ExportTable.empty
    iNumAbsentExports := -1
    iExportBitMap := none
    iExportDescSize := 0
    iExportDescType := 0 }

/-- The function `ElfFileSupplied::GetNumExports`. -/
def ExportMembers.GetNumExports (self : ExportMembers) : Nat := self.iExportTable.GetNumExports

/-- The function `ElfFileSupplied::GetExportDescSize`. -/
def ExportMembers.GetExportDescSize (self : ExportMembers) : Nat := self.iExportDescSize

/-- The function `ElfFileSupplied::GetExportDescType`. -/
def ExportMembers.GetExportDescType (self : ExportMembers) : Nat := self.iExportDescType

/-- The loop of `CreateExportBitMap` from the index `i` on, over the slots
`exports[i]`, `exports[i+1]`, ...: the bit of an absent slot is cleared and the
slot is counted. The complement `~(1u << (i & 7))` is taken in 32 bits and the
result is stored in a byte. -/
def markAbsentExports (absentVal : Nat) : List Nat → Nat → List Nat × Int → List Nat × Int
  | [], _, acc => acc
  | e :: exports, i, (iExportBitMap, iNumAbsentExports) =>
    markAbsentExports absentVal exports (i + 1)
      (if e = absentVal then
        (iExportBitMap.set (i >>> 3)
            ((iExportBitMap.getD (i >>> 3) 0 &&& (2 ^ 32 - 1 - (1 <<< (i &&& 7)))) % 2 ^ 8),
          iNumAbsentExports + 1)
       else (iExportBitMap, iNumAbsentExports))

/-- The function `ElfFileSupplied::CreateExportBitMap`. `EntryPointOffset` and
`GetROBase` are the values that the reader returns; their sum is stored in the
`PLUINT32` `absentVal`. The `int` `nexp` is an integer without bound. -/
def CreateExportBitMap (self : ExportMembers) (EntryPointOffset GetROBase : Nat) :
    ExportMembers :=
  let nexp := self.GetNumExports
  let memsz := (nexp + 7) >>> 3
  let iExportBitMap := List.replicate memsz 0xff
  -- skip header
  let exports := self.iExportTable.GetExportTable.drop 1
  let absentVal := (EntryPointOffset + GetROBase) % 2 ^ 32
  let r := markAbsentExports absentVal (exports.take nexp) 0 (iExportBitMap, 0)
  { self with iExportBitMap := some r.1, iNumAbsentExports := r.2 }

/-- The function `ElfFileSupplied::CreateExports`. `aTable` is the table that
`CreateExportTable` leaves in `iExportTable` (`E32ExportTable::CreateExportTable`
is not among the sources). -/
def CreateExports (iExports : Option ElfExports) (GetNamedSymLookup : Bool)
    (aTable : E32ExportTable) (EntryPointOffset GetROBase : Nat) (self : ExportMembers) :
    ExportMembers :=
  if iExports.isSome || GetNamedSymLookup then
    CreateExportBitMap { self with iExportTable := aTable } EntryPointOffset GetROBase
  else
    self

/-- Modelled from the spec: the class `E32ImageHeaderV` (`e32imagedefs.h` is not
among the sources), as far as the export description goes, section 6: the
payload of the description starts at the last byte `iExportDesc[0]` of the
plain header. The field holds the bytes from there to the end of the storage
of the header. -/
structure E32ImageHeaderV where
  iExportDesc : List Nat
  deriving DecidableEq, Repr

/-- What `AllocateE32ImageHeader` leaves: the object, the header it returns, and
the size it gives to `SetExtendedE32ImageHeaderSize` (`none` when that function
is not called). -/
structure Allocated where
  self : ExportMembers
  aHdr : E32ImageHeaderV
  aExtendedHeaderSize : Option Nat
  deriving DecidableEq, Repr

/-- The bytes `iExportBitMap[0]`, ..., `iExportBitMap[memsz-1]` that
`AllocateE32ImageHeader` reads; `none` when a byte is read through a null
pointer or beyond the end of the array. -/
def readBitMap (iExportBitMap : Option (List Nat)) (memsz : Nat) : Option (List Nat) :=
  if memsz = 0 then some [] else
  match iExportBitMap with
  | none => none
  | some B => if memsz ≤ B.length then some (B.take memsz) else none

/-- The first loop of `AllocateE32ImageHeader`: the number of groups of 8, the
bytes of the bitmap that are not `0xff`. -/
def countGroups : List Nat → Nat → Nat
  | [], nbytes => nbytes
  | b :: B, nbytes => countGroups B (if b ≠ 0xff then nbytes + 1 else nbytes)

/-- The value of the `PLUINT32` `extra_space` when it is given `size - 1`. -/
def extra_space (size : Nat) : Nat := (size + (2 ^ 32 - 1)) % 2 ^ 32

/-- The rounding
`(extra_space + sizeof(PLUINT32) - 1) &~ (sizeof(PLUINT32) - 1)`, computed in
`size_t` (64 bits) and stored in the `PLUINT32` `extra_space`. -/
def roundExtraSpace (extra_space : Nat) : Nat :=
  ((extra_space + 4 - 1) &&& (2 ^ 64 - 1 - (4 - 1))) % 2 ^ 32

/-- The second loop of `AllocateE32ImageHeader`, from the index `i` on, over the
bytes `iExportBitMap[i]`, `iExportBitMap[i+1]`, ...: `mptr` is the start of
`iExportDesc` and `gptr` the offset of the next group byte in it. -/
def writeSparse : List Nat → Nat → Nat → List Nat → List Nat
  | [], _, _, iExportDesc => iExportDesc
  | b :: B, i, gptr, iExportDesc =>
    if b ≠ 0xff then
      writeSparse B (i + 1) (gptr + 1)
        ((iExportDesc.set (i >>> 3)
          ((iExportDesc.getD (i >>> 3) 0 ||| (1 <<< (i &&& 7))) % 2 ^ 8)).set gptr b)
    else
      writeSparse B (i + 1) gptr iExportDesc

/-- The function `ElfFileSupplied::AllocateE32ImageHeader`.
`sizeofE32ImageHeaderV` is `sizeof(E32ImageHeaderV)` and `storage k` is the byte
found at the offset `k` from `iExportDesc` in the storage that `new` returns.
The `int` `nexp` and the `size_t` values are integers without bound; the
`PLUINT32` and `PLUINT16` values are taken modulo `2^32` and `2^16`. The result
is `none` when the bitmap is read outside an array. -/
def AllocateE32ImageHeader (self : ExportMembers) (sizeofE32ImageHeaderV : Nat)
    (storage : Nat → Nat) : Option Allocated :=
  if self.iNumAbsentExports = 0 then
    some ⟨self, ⟨[storage 0]⟩, none⟩
  else
    let nexp := self.GetNumExports
    let memsz := (nexp + 7) >>> 3 -- size of complete bitmap
    let mbs := (memsz + 7) >>> 3 -- size of meta-bitmap
    match readBitMap self.iExportBitMap memsz with
    | none => none
    | some iExportBitMap =>
      let nbytes := countGroups iExportBitMap 0 -- number of groups of 8
      if mbs + nbytes < memsz then
        let edt := KImageHdr_ExpD_SparseBitmap8
        let extra_space := roundExtraSpace (extra_space (mbs + nbytes))
        let aExtendedHeaderSize := sizeofE32ImageHeaderV + extra_space
        some
          { self := { self with
              iExportDescType := edt
              iExportDescSize := (mbs + nbytes) % 2 ^ 16 }
            aHdr := ⟨writeSparse iExportBitMap 0 mbs (List.replicate (extra_space + 1) 0)⟩
            aExtendedHeaderSize := some aExtendedHeaderSize }
      else
        let edt := KImageHdr_ExpD_FullBitmap
        let extra_space := roundExtraSpace (extra_space memsz)
        let aExtendedHeaderSize := sizeofE32ImageHeaderV + extra_space
        some
          { self := { self with
              iExportDescType := edt
              iExportDescSize := memsz % 2 ^ 16 }
            aHdr := ⟨iExportBitMap ++ ((List.range (extra_space + 1)).map storage).drop memsz⟩
            aExtendedHeaderSize := some aExtendedHeaderSize }

/-! ## Running the code on values -/

/-- The object before `ValidateDefExports`: the DEF records `D` at the
addresses `0 .. |D|-1`, the ELF exports `E` (`none` when `iReader->iExports` is
null) at the addresses that follow, nothing filtered, `iSymbols` empty. -/
def initial (D : List Symbol) (E : Option (List Symbol)) : ElfFileSupplied :=
  { heap := fun p => (D ++ E.getD []).getD p default
    brk := D.length + (E.getD []).length
    iSymbols := []
    iExports := E.map (fun l =>
      { iElfExports := (List.range l.length).map (fun i => D.length + i)
        iFilteredExports := []
        iExportsFilteredP := false }) }

/-- The call `ValidateDefExports(aDefExports)` on the DEF records `D` (`none`
for a null `aDefExports`) and the ELF exports `E`. -/
def reconcile (o : Options) (D : Option (List Symbol)) (E : Option (List Symbol)) : Outcome :=
  ValidateDefExports o (initial (D.getD []) E) (D.map (fun l => List.range l.length))

/-- The symbols a list of pointers refers to. -/
def ElfFileSupplied.deref (self : ElfFileSupplied) (l : Symbols) : List Symbol :=
  l.map self.heap

/-- The list `iSymbols`, as symbols. -/
def ElfFileSupplied.O (self : ElfFileSupplied) : List Symbol := self.deref self.iSymbols

/-- Whether one of the ELF exports `E` has the name `n`. -/
def exportsName (E : List Symbol) (n : List Char) : Bool := E.any (fun e => e.name == n)

/-! ## Definitions used in the proofs -/

/-- The list computed by `set_difference` for a comparator without effect. -/
def sdiff (lt : Nat → Nat → Bool) : Nat → List Nat → List Nat → List Nat
  | _, [], _ => []
  | _, a :: as, [] => a :: as
  | 0, _ :: _, _ :: _ => []
  | n + 1, a :: as, b :: bs =>
    if lt a b then a :: sdiff lt n as (b :: bs)
    else if lt b a then sdiff lt n (a :: as) bs
    else sdiff lt n as bs

/-- The list computed by `set_intersection` for a comparator without effect. -/
def sinter (lt : Nat → Nat → Bool) : Nat → List Nat → List Nat → List Nat
  | _, [], _ => []
  | _, _ :: _, [] => []
  | 0, _ :: _, _ :: _ => []
  | n + 1, a :: as, b :: bs =>
    if lt a b then sinter lt n as (b :: bs)
    else if lt b a then sinter lt n (a :: as) bs
    else a :: sinter lt n as bs

/-- The pairs of equal names that `set_difference` and `set_intersection` meet:
the pairs on which neither `comp(a, b)` nor `comp(b, a)` holds. -/
def smatch (lt : Nat → Nat → Bool) : Nat → List Nat → List Nat → List (Nat × Nat)
  | _, [], _ => []
  | _, _ :: _, [] => []
  | 0, _ :: _, _ :: _ => []
  | n + 1, a :: as, b :: bs =>
    if lt a b then smatch lt n as (b :: bs)
    else if lt b a then smatch lt n (a :: as) bs
    else (a, b) :: smatch lt n as bs

/-- The answer of the name comparators, read in the heap `h`. -/
def nlt (h : Heap) (p q : Nat) : Bool := decide (strcmp (h p).name (h q).name < 0)

/-- What the comparators keep of a DEF record `a`, `b` being the object after
the calls: every field but kind and size, and the whole object when it is not
absent. -/
def Kept (a b : Symbol) : Prop :=
  b.name = a.name ∧ b.ordinal = a.ordinal ∧ b.absent = a.absent ∧ b.status = a.status ∧
    b.comment = a.comment ∧ (a.absent = false → b = a)

/-- The rule of section 3 on the kind of a symbol: data for the names that
`SymbolTypeF` takes for data, code for the others. -/
def KindOK (h : Heap) : Prop := ∀ p, (h p).kind = SymbolTypeF (h p).name

/-- The heap after the two calls of `PtrELFExportNameCompareUpdateAttributes`
that a set algorithm makes on a pair of equal names: `comp(a, b)` and then
`comp(b, a)`. -/
def annotatePair (h : Heap) (a b : Nat) : Heap :=
  (PtrELFExportNameCompareUpdateAttributes
    (PtrELFExportNameCompareUpdateAttributes h a b).2 b a).2

/-- The heap after the calls of `PtrELFExportNameCompareUpdateAttributes` on the
pairs of a list, in turn. -/
def annotate (h : Heap) : List (Nat × Nat) → Heap
  | [] => h
  | (a, b) :: l => annotate (annotatePair h a b) l

/-- The value of `aMaxOrdinal` after the loop over `*aDefExports`. -/
def maxOrdinal (h : Heap) : List Nat → Nat → Nat
  | [], m => m
  | x :: xs, m => maxOrdinal h xs (if m < (h x).ordinal then (h x).ordinal else m)

/-- The test of case 3 that sends a symbol to the filtered exports, on its name. -/
def filteredOut (o : Options) (name : List Char) : Bool :=
  ((o.IsCustomDllTarget || o.ExcludeUnwantedExports) &&
      UnWantedSymbol o.Unwantedruntimesymbols name) ||
  (o.IgnoreNonCallable &&
      ((strncmp "_ZTI".toList name (strlen "_ZTI".toList) == 0) ||
       (strncmp "_ZTV".toList name (strlen "_ZTI".toList) == 0)))

/-- The symbols of case 3 that get an ordinal: not absent and not filtered. -/
def admitted (o : Options) (s : Symbol) : Bool := !s.absent && !filteredOut o s.name

/-- The symbols of case 3 that go to the filtered exports. -/
def rejected (o : Options) (s : Symbol) : Bool := !s.absent && filteredOut o s.name

/-- The stores of case 3 into the admitted symbols, in their order, from the
value `m` of `aMaxOrdinal`. -/
def assignNew : List Nat → Nat → Heap → Heap
  | [], _, h => h
  | p :: ps, m, h =>
    assignNew ps ((m + 1) % 2 ^ 32)
      (h.set p { h p with ordinal := (m + 1) % 2 ^ 32, status := SymbolStatus.New })

/-- The filtered exports after case 3 has sent the symbols `l` there. -/
def ElfExports.addFiltered (e : ElfExports) (l : List Nat) : ElfExports :=
  { e with
    iExportsFilteredP := e.iExportsFilteredP || !l.isEmpty
    iFilteredExports := e.iFilteredExports ++ l }

/-- The answer of the ordinal comparator, read in the heap `h`. -/
def olt (h : Heap) (l r : Nat) : Bool := decide ((h l).ordinal < (h r).ordinal)

/-- The list `aDefValidExports` before it is sorted. -/
def rcValid (h : Heap) (L : List Nat) : List Nat := L.filter (fun x => !(h x).absent)

/-- The list `aDefAbsentExports` before it is sorted. -/
def rcAbsent (h : Heap) (L : List Nat) : List Nat := L.filter (fun x => (h x).absent)

/-- The result of case 1: `{Valid_DEF - ELF_Symbols}`. -/
def rcMissing (h : Heap) (L Ep : List Nat) : List Nat :=
  sdiff (nlt h)
    ((listSort (nlt h) (rcValid h L)).length + (listSort (nlt h) Ep).length)
    (listSort (nlt h) (rcValid h L)) (listSort (nlt h) Ep)

/-- The result of case 2: the intersection `{Absent, ELF_Symbols}`. -/
def rcInter (h : Heap) (L Ep : List Nat) : List Nat :=
  sinter (nlt h)
    ((listSort (nlt h) (rcAbsent h L)).length + (listSort (nlt h) Ep).length)
    (listSort (nlt h) (rcAbsent h L)) (listSort (nlt h) Ep)

/-- The result of the difference of case 3: `{ELF_Symbols - Valid_DEF}`. -/
def rcNew (h : Heap) (L Ep : List Nat) : List Nat :=
  sdiff (nlt h)
    ((listSort (nlt h) Ep).length + (listSort (nlt h) (rcValid h L)).length)
    (listSort (nlt h) Ep) (listSort (nlt h) (rcValid h L))

/-- The pairs of equal names of case 1: a valid DEF symbol and the ELF export
that the difference `{Valid_DEF - ELF_Symbols}` met with it. -/
def rcMatchedValid (h : Heap) (L Ep : List Nat) : List (Nat × Nat) :=
  smatch (nlt h)
    ((listSort (nlt h) (rcValid h L)).length + (listSort (nlt h) Ep).length)
    (listSort (nlt h) (rcValid h L)) (listSort (nlt h) Ep)

/-- The pairs of equal names of cases 2 and 4: an absent DEF symbol and the ELF
export that the intersection `{Absent, ELF_Symbols}` met with it. -/
def rcMatchedAbsent (h : Heap) (L Ep : List Nat) : List (Nat × Nat) :=
  smatch (nlt h)
    ((listSort (nlt h) (rcAbsent h L)).length + (listSort (nlt h) Ep).length)
    (listSort (nlt h) (rcAbsent h L)) (listSort (nlt h) Ep)

/-- The heap that case 3 reads: the comparator has updated the pairs of case 1,
the missing symbols have their status, and the comparator has updated the pairs
of case 2. -/
def rcTested (h : Heap) (L Ep : List Nat) : Heap :=
  annotate (markMissing (annotate h (rcMatchedValid h L Ep)) (rcMissing h L Ep))
    (rcMatchedAbsent h L Ep)

/-- The symbols of case 3 that get an ordinal, in the order of the loop. -/
def rcAdmitted (o : Options) (h : Heap) (L Ep : List Nat) : List Nat :=
  (rcNew h L Ep).filter (fun p => admitted o (rcTested h L Ep p))

/-- The symbols of case 3 that go to the filtered exports, in the order of the
loop. -/
def rcRejected (o : Options) (h : Heap) (L Ep : List Nat) : List Nat :=
  (rcNew h L Ep).filter (fun p => rejected o (rcTested h L Ep p))

/-- The result of the difference of case 4: `{Absent - ELF_Symbols}`. -/
def rcCarried (h : Heap) (L Ep : List Nat) : List Nat :=
  sdiff (nlt h)
    ((listSort (nlt h) (rcAbsent h L)).length + (listSort (nlt h) Ep).length)
    (listSort (nlt h) (rcAbsent h L)) (listSort (nlt h) Ep)

/-- The heap before `ValidateDefExports`: the DEF records `D`, then the ELF
exports `E`. -/
def heap0 (D : List Symbol) (E : Option (List Symbol)) : Heap :=
  fun p => (D ++ E.getD []).getD p default

/-- The addresses of the DEF records. -/
def defPtrs (D : List Symbol) : List Nat := List.range D.length

/-- The addresses of the ELF exports. -/
def elfPtrs (D : List Symbol) (E : Option (List Symbol)) : List Nat :=
  (List.range (E.getD []).length).map (fun i => D.length + i)

/-- The addresses of the DEF records that are not absent, in DEF order. -/
def pValid (D : List Symbol) (E : Option (List Symbol)) : List Nat :=
  rcValid (heap0 D E) (defPtrs D)

/-- The addresses of the absent DEF records, in DEF order. -/
def pAbsent (D : List Symbol) (E : Option (List Symbol)) : List Nat :=
  rcAbsent (heap0 D E) (defPtrs D)

/-- The addresses that case 1 finds missing. -/
def pMissing (D : List Symbol) (E : Option (List Symbol)) : List Nat :=
  rcMissing (heap0 D E) (defPtrs D) (elfPtrs D E)

/-- The addresses that case 2 appends to `iSymbols`. -/
def pInter (D : List Symbol) (E : Option (List Symbol)) : List Nat :=
  rcInter (heap0 D E) (defPtrs D) (elfPtrs D E)

/-- The pairs of case 1: the address of a valid DEF record and the address of
the ELF export of the same name that the difference met with it. -/
def pMatchedValid (D : List Symbol) (E : Option (List Symbol)) : List (Nat × Nat) :=
  rcMatchedValid (heap0 D E) (defPtrs D) (elfPtrs D E)

/-- The pairs of cases 2 and 4: the address of an absent DEF record and the
address of the ELF export of the same name that the intersection met with it. -/
def pMatchedAbsent (D : List Symbol) (E : Option (List Symbol)) : List (Nat × Nat) :=
  rcMatchedAbsent (heap0 D E) (defPtrs D) (elfPtrs D E)

/-- The addresses of the ELF exports that case 2 pairs with an absent DEF
record: the comparator sets their absent flag and case 3 skips them. -/
def pSkipped (D : List Symbol) (E : Option (List Symbol)) : List Nat :=
  (pMatchedAbsent D E).map Prod.snd

/-- The heap that case 3 reads. -/
def pTested (D : List Symbol) (E : Option (List Symbol)) : Heap :=
  rcTested (heap0 D E) (defPtrs D) (elfPtrs D E)

/-- The addresses that case 3 appends to `iSymbols`, in the order of the loop. -/
def pAdmitted (o : Options) (D : List Symbol) (E : Option (List Symbol)) : List Nat :=
  rcAdmitted o (heap0 D E) (defPtrs D) (elfPtrs D E)

/-- The addresses that case 3 appends to the filtered exports. -/
def pRejected (o : Options) (D : List Symbol) (E : Option (List Symbol)) : List Nat :=
  rcRejected o (heap0 D E) (defPtrs D) (elfPtrs D E)

/-- The addresses of the absent DEF records that case 4 copies. -/
def pCarried (D : List Symbol) (E : Option (List Symbol)) : List Nat :=
  rcCarried (heap0 D E) (defPtrs D) (elfPtrs D E)

/-- The addresses of the copies that case 4 allocates. -/
def pFresh (D : List Symbol) (E : Option (List Symbol)) : List Nat :=
  (List.range (pCarried D E).length).map (fun i => D.length + (E.getD []).length + i)

/-- The value of `aMaxOrdinal` after the loop over the DEF records. -/
def maxOrd (D : List Symbol) (E : Option (List Symbol)) : Nat :=
  maxOrdinal (heap0 D E) (defPtrs D) 0

/-- The heap after the difference of case 4, before the copies are allocated:
case 3 has numbered the admitted symbols and the comparator has updated the
pairs of case 2 once more. -/
def pFinal (o : Options) (D : List Symbol) (E : Option (List Symbol)) : Heap :=
  annotate (assignNew (pAdmitted o D E) (maxOrd D E) (pTested D E)) (pMatchedAbsent D E)

/-- The list `iSymbols` before the sort of case 4. -/
def pSymbols (o : Options) (D : List Symbol) (E : Option (List Symbol)) : List Nat :=
  pValid D E ++ pInter D E ++ pAdmitted o D E ++ pFresh D E

/-- What a successful call `reconcile o (some D) E` (or `reconcile o none E`
with `D = []`) leaves in the object `s`. -/
structure ReconOk (o : Options) (D : List Symbol) (E : Option (List Symbol))
    (s : ElfFileSupplied) : Prop where
  frozen : pMissing D E = [] ∨ o.Unfrozen = true
  iSymbols : s.iSymbols =
    if pAbsent D E = [] then pSymbols o D E else listSort (olt s.heap) (pSymbols o D E)
  low : ∀ p, p < D.length → p ∉ pMissing D E → Kept (heap0 D E p) (s.heap p)
  missing : ∀ p ∈ pMissing D E,
    s.heap p = { heap0 D E p with status := SymbolStatus.Missing }
  admitted : ∀ (i : Nat) (hi : i < (pAdmitted o D E).length),
    s.heap ((pAdmitted o D E).get ⟨i, hi⟩) =
      { heap0 D E ((pAdmitted o D E).get ⟨i, hi⟩) with
        ordinal := (maxOrd D E + i + 1) % 2 ^ 32
        status := SymbolStatus.New }
  skipped : ∀ p ∈ pSkipped D E, (s.heap p).absent = true ∧
    (s.heap p).name = (heap0 D E p).name ∧
    ∃ a ∈ pInter D E, (heap0 D E a).name = (heap0 D E p).name ∧
      (s.heap p).ordinal = (heap0 D E a).ordinal
  rejected : ∀ p ∈ pRejected o D E, s.heap p = heap0 D E p
  elfAbsent : ∀ p ∈ rcNew (heap0 D E) (defPtrs D) (elfPtrs D E), p ∉ pSkipped D E →
    (s.heap p).absent = (heap0 D E p).absent
  fresh : (pFresh D E).map s.heap =
    (pCarried D E).map (fun p => (s.heap p).copyWith SymbolType.SymbolTypeCode true)
  kinds : KindOK (heap0 D E) → ∀ p, p < D.length + (E.getD []).length →
    (s.heap p).kind = SymbolTypeF (s.heap p).name
  exports : s.iExports = (initial D E).iExports.map (fun e =>
    { iElfExports := (e.iElfExports ++ pFresh D E).filter
        (fun p => !((pRejected o D E).contains p))
      iFilteredExports := pRejected o D E
      iExportsFilteredP := !(pRejected o D E).isEmpty })

/-- The greatest ordinal of the DEF records, 0 when there is none. -/
def maxDefOrdinal (D : List Symbol) : Nat := (D.map (fun d => d.ordinal)).foldr max 0

/-- The ordinals that case 3 gives to `k` new symbols when the greatest DEF
ordinal is `M`. -/
def newOrdinals (M k : Nat) : List Nat := (List.range k).map (fun i => (M + i + 1) % 2 ^ 32)

/-- Bit `i` of an array of bytes: bit `i mod 8` of the byte `i div 8`. -/
def bitAt (B : List Nat) (i : Nat) : Bool := (B.getD (i / 8) 0).testBit (i % 8)

/-- The number of zero bits of an array of bytes. -/
def zeroBits (B : List Nat) : Nat :=
  ((List.range (8 * B.length)).filter (fun i => !bitAt B i)).length

/-- The bytes of a bitmap that are not `0xff`, in ascending index order. -/
def groups (B : List Nat) : List Nat := B.filter (fun b => b != 0xff)

/-- The size of the sparse encoding of a bitmap: the meta-bitmap and one byte
for every byte that is not `0xff`. -/
def sparseSize (B : List Nat) : Nat := (B.length + 7) / 8 + (groups B).length

/-- The size of the encoding that `AllocateE32ImageHeader` chooses. -/
def encodedSize (B : List Nat) : Nat :=
  if sparseSize B < B.length then sparseSize B else B.length

/-- The decoder of the sparse-8 encoding, from the byte of index `j` on, for `n`
bytes: byte `j` of the bitmap is the next unread group byte when bit `j` of the
meta-bitmap `M` is 1, and `0xFF` when it is 0. `G` holds the unread group bytes;
a group byte that is not there reads as 0. -/
def decodeFrom (M : List Nat) : Nat → Nat → List Nat → List Nat
  | 0, _, _ => []
  | n + 1, j, G =>
    if bitAt M j then G.headD 0 :: decodeFrom M n (j + 1) G.tail
    else 0xff :: decodeFrom M n (j + 1) G

/-- The decoder of the sparse-8 encoding: from the payload, the meta-bitmap of
`ceil(len/8)` bytes followed by the group bytes, and the length `len` of the
bitmap, the bitmap. -/
def decodeSparse (payload : List Nat) (len : Nat) : List Nat :=
  decodeFrom (payload.take ((len + 7) / 8)) len 0 (payload.drop ((len + 7) / 8))

/-! ## Inputs of the examples -/

/-- A DEF record `name @ ordinal`. -/
def defSymbol (name : String) (ordinal : Nat) : Symbol :=
  ⟨name.toList, ordinal, SymbolType.SymbolTypeCode, false, SymbolStatus.Matching, 0, []⟩

/-- A DEF record `name @ ordinal ABSENT`. -/
def absentSymbol (name : String) (ordinal : Nat) : Symbol :=
  ⟨name.toList, ordinal, SymbolType.SymbolTypeCode, true, SymbolStatus.Matching, 0, []⟩

/-- An ELF export `name`, a code symbol without ordinal. -/
def elfSymbol (name : String) : Symbol :=
  ⟨name.toList, 0, SymbolType.SymbolTypeCode, false, SymbolStatus.Matching, 0, []⟩

/-- The options of a frozen build, nothing filtered. -/
def frozenOptions : Options := ⟨false, false, false, false, []⟩

/-- The object that the constructor leaves, with an export table of the slots
`slots`. -/
def withSlots (slots : List Nat) : ExportMembers :=
  { ExportMembers.constructed with iExportTable := ⟨0, slots⟩ }

/-- The table of scenario S1: two exports at `0x8010` and `0x8020`. -/
def tableS1 : ExportMembers := withSlots [0x8010, 0x8020]

/-- The table of scenario S4: ordinal 1 at the address `0x8010`, ordinal 2
absent, the entry point being `0x8000`. -/
def tableS4 : ExportMembers := withSlots [0x8010, 0x8000]

/-- The table of scenario S5: 64 slots, of which the slots 0, 8, 16 and 24 hold
the entry point `0x8000`. -/
def tableS5 : ExportMembers :=
  withSlots ((List.range 64).map (fun i => if i % 8 = 0 ∧ i < 32 then 0x8000 else 0x9000 + 4 * i))

/-- A table of 64 slots, of which the slots 0, 8 and 16 hold the entry point
`0x8000`. -/
def table64 : ExportMembers :=
  withSlots ((List.range 64).map (fun i => if i % 8 = 0 ∧ i < 24 then 0x8000 else 0x9000 + 4 * i))

/-- A table of 9 slots, of which the slot 0 holds the entry point `0x8000`. -/
def table9 : ExportMembers :=
  withSlots [0x8000, 0x8010, 0x8020, 0x8030, 0x8040, 0x8050, 0x8060, 0x8070, 0x8080]

/-- The object that `CreateExportBitMap` leaves for a table of `8 * n` slots that
all hold the entry point `0x8000`: a bitmap of `n` zero bytes. -/
def allAbsent (n : Nat) : ExportMembers :=
  { iExportTable := ⟨0, List.replicate (8 * n) 0x8000⟩
    iNumAbsentExports := ((8 * n : Nat) : Int)
    iExportBitMap := some (List.replicate n 0)
    iExportDescSize := 0
    iExportDescType := 0 }

theorem strcmp_eq_zero_iff (a b : List Char) : strcmp a b = 0 ↔ a = b := by
  induction a generalizing b with
  | nil => cases b <;> simp [strcmp]
  | cons x xs ih =>
    cases b with
    | nil => simp [strcmp]
    | cons y ys =>
      simp only [strcmp]
      by_cases hxy : x = y
      · simp [hxy, ih]
      · simp only [hxy, if_false]
        split <;> simp [hxy]

theorem strcmp_neg_iff (a b : List Char) : strcmp a b < 0 ↔ a < b := by
  induction a generalizing b with
  | nil =>
    cases b with
    | nil => simp [strcmp]
    | cons y ys => simp [strcmp]; exact List.Lex.nil
  | cons x xs ih =>
    cases b with
    | nil => simp [strcmp]
    | cons y ys =>
      simp only [strcmp]
      by_cases hxy : x = y
      · subst hxy
        simp only [if_true, ih]
        constructor
        · intro h; exact List.Lex.cons h
        · intro h
          cases h with
          | cons h => exact h
          | rel h => exact absurd h (lt_irrefl _)
      · simp only [hxy, if_false]
        by_cases hlt : x < y
        · simp only [hlt, if_true]
          constructor
          · intro _; exact List.Lex.rel hlt
          · intro _; decide
        · simp only [hlt, if_false]
          constructor
          · intro h; exact absurd h (by decide)
          · intro h
            cases h with
            | cons h => exact absurd rfl hxy
            | rel h => exact absurd h hlt

theorem set_difference_spec (comp : Comparator) (lt : Nat → Nat → Bool) (R : Heap → Prop)
    (hstep : ∀ h a b, R h → (comp h a b).1 = lt a b ∧ R (comp h a b).2) :
    ∀ (n : Nat) (h : Heap) (A B : List Nat), R h →
      (set_difference comp n h A B).1 = sdiff lt n A B ∧ R (set_difference comp n h A B).2 := by
  intro n
  induction n with
  | zero =>
    intro h A B hR
    cases A with
    | nil => simp [set_difference, sdiff, hR]
    | cons a as => cases B <;> simp [set_difference, sdiff, hR]
  | succ n ih =>
    intro h A B hR
    cases A with
    | nil => simp [set_difference, sdiff, hR]
    | cons a as =>
      cases B with
      | nil => simp [set_difference, sdiff, hR]
      | cons b bs =>
        obtain ⟨e1, r1⟩ := hstep h a b hR
        obtain ⟨e2, r2⟩ := hstep _ b a r1
        simp only [set_difference, sdiff, e1, e2]
        cases c1 : lt a b
        · cases c2 : lt b a
          · simp only [Bool.false_eq_true, if_false]; exact ih _ _ _ r2
          · simp only [Bool.false_eq_true, if_false, if_true]; exact ih _ _ _ r2
        · simp only [if_true]
          exact ⟨by rw [(ih _ as (b :: bs) r1).1], (ih _ as (b :: bs) r1).2⟩

section keyed
variable {κ : Type} [LinearOrder κ] (k : Nat → κ) (lt : Nat → Nat → Bool)

theorem sdiff_sublist : ∀ (n : Nat) (A B : List Nat), (sdiff lt n A B).Sublist A := by
  intro n
  induction n with
  | zero =>
    intro A B
    cases A with
    | nil => simp [sdiff]
    | cons a as => cases B <;> simp [sdiff]
  | succ n ih =>
    intro A B
    cases A with
    | nil => simp [sdiff]
    | cons a as =>
      cases B with
      | nil => simp [sdiff]
      | cons b bs =>
        simp only [sdiff]
        split
        · exact (ih as (b :: bs)).cons₂ a
        · split
          · exact ih (a :: as) bs
          · exact (ih as bs).cons a

theorem sinter_sublist : ∀ (n : Nat) (A B : List Nat), (sinter lt n A B).Sublist A := by
  intro n
  induction n with
  | zero =>
    intro A B
    cases A with
    | nil => simp [sinter]
    | cons a as => cases B <;> simp [sinter]
  | succ n ih =>
    intro A B
    cases A with
    | nil => simp [sinter]
    | cons a as =>
      cases B with
      | nil => simp [sinter]
      | cons b bs =>
        simp only [sinter]
        split
        · exact (ih as (b :: bs)).cons a
        · split
          · exact ih (a :: as) bs
          · exact (ih as bs).cons₂ a

theorem sinter_sdiff_perm : ∀ (n : Nat) (A B : List Nat), A.length + B.length ≤ n →
    (sinter lt n A B ++ sdiff lt n A B).Perm A := by
  intro n
  induction n with
  | zero =>
    intro A B hn
    cases A with
    | nil => simp [sdiff, sinter]
    | cons a as => cases B <;> simp [sdiff, sinter] at hn ⊢
  | succ n ih =>
    intro A B hn
    cases A with
    | nil => simp [sdiff, sinter]
    | cons a as =>
      cases B with
      | nil => simp [sdiff, sinter]
      | cons b bs =>
        simp only [sdiff, sinter]
        simp only [List.length_cons] at hn
        split
        · exact List.perm_middle.trans ((ih as (b :: bs) (by simp; omega)).cons a)
        · split
          · exact ih (a :: as) bs (by simp; omega)
          · exact (ih as bs (by omega)).cons a

variable (hlt : ∀ p q, lt p q = true ↔ k p < k q)
include hlt

theorem mem_sdiff_of_unmatched : ∀ (n : Nat) (A B : List Nat), A.length + B.length ≤ n →
    ∀ x ∈ A, (∀ b ∈ B, k b ≠ k x) → x ∈ sdiff lt n A B := by
  intro n
  induction n with
  | zero =>
    intro A B hn x hx _
    cases A with
    | nil => simp at hx
    | cons a as =>
      cases B with
      | nil => simpa [sdiff] using hx
      | cons b bs => simp at hn
  | succ n ih =>
    intro A B hn x hx hB
    cases A with
    | nil => simp at hx
    | cons a as =>
      cases B with
      | nil => simpa [sdiff] using hx
      | cons b bs =>
        simp only [sdiff]
        simp only [List.length_cons] at hn
        split
        · rcases List.mem_cons.1 hx with rfl | hx
          · exact List.mem_cons_self _ _
          · exact List.mem_cons_of_mem _ (ih as (b :: bs) (by simp; omega) x hx hB)
        · rename_i c1
          split
          · exact ih (a :: as) bs (by simp; omega) x hx
              (fun b' hb' => hB b' (List.mem_cons_of_mem _ hb'))
          · rename_i c2
            have hab : k b = k a := by
              rw [hlt] at c1 c2
              exact le_antisymm (not_lt.1 c1) (not_lt.1 c2)
            rcases List.mem_cons.1 hx with rfl | hx
            · exact absurd hab (hB b (List.mem_cons_self _ _))
            · exact ih as bs (by omega) x hx (fun b' hb' => hB b' (List.mem_cons_of_mem _ hb'))

theorem unmatched_of_mem_sdiff : ∀ (n : Nat) (A B : List Nat), A.length + B.length ≤ n →
    A.Pairwise (fun p q => k p < k q) → B.Pairwise (fun p q => k p ≤ k q) →
    ∀ x ∈ sdiff lt n A B, ∀ b ∈ B, k b ≠ k x := by
  intro n
  induction n with
  | zero =>
    intro A B hn _ _ x hx
    cases A with
    | nil => simp [sdiff] at hx
    | cons a as => cases B <;> simp [sdiff] at hn hx ⊢
  | succ n ih =>
    intro A B hn hA hB x hx
    cases A with
    | nil => simp [sdiff] at hx
    | cons a as =>
      cases B with
      | nil => simp
      | cons b bs =>
        simp only [sdiff] at hx
        simp only [List.length_cons] at hn
        have hA' := List.pairwise_cons.1 hA
        have hB' := List.pairwise_cons.1 hB
        split at hx
        · rename_i c1
          rw [hlt] at c1
          rcases List.mem_cons.1 hx with rfl | hx
          · intro b' hb'
            rcases List.mem_cons.1 hb' with rfl | hb'
            · exact (ne_of_lt c1).symm
            · exact (ne_of_lt (lt_of_lt_of_le c1 (hB'.1 b' hb'))).symm
          · exact ih as (b :: bs) (by simp; omega) hA'.2 hB x hx
        · rename_i c1
          split at hx
          · rename_i c2
            rw [hlt] at c2
            intro b' hb'
            rcases List.mem_cons.1 hb' with rfl | hb'
            · have hx' : x ∈ a :: as := (sdiff_sublist lt n (a :: as) bs).subset hx
              rcases List.mem_cons.1 hx' with rfl | hx'
              · exact ne_of_lt c2
              · exact ne_of_lt (lt_trans c2 (hA'.1 x hx'))
            · exact ih (a :: as) bs (by simp; omega) hA hB'.2 x hx b' hb'
          · rename_i c2
            rw [hlt] at c1 c2
            have hab : k b = k a := le_antisymm (not_lt.1 c1) (not_lt.1 c2)
            have hx' : x ∈ as := (sdiff_sublist lt n as bs).subset hx
            intro b' hb'
            rcases List.mem_cons.1 hb' with rfl | hb'
            · rw [hab]; exact ne_of_lt (hA'.1 x hx')
            · exact ih as bs (by omega) hA'.2 hB'.2 x hx b' hb'

theorem matched_of_mem_sinter : ∀ (n : Nat) (A B : List Nat),
    ∀ x ∈ sinter lt n A B, ∃ b ∈ B, k b = k x := by
  intro n
  induction n with
  | zero =>
    intro A B x hx
    cases A with
    | nil => simp [sinter] at hx
    | cons a as => cases B <;> simp [sinter] at hx
  | succ n ih =>
    intro A B x hx
    cases A with
    | nil => simp [sinter] at hx
    | cons a as =>
      cases B with
      | nil => simp [sinter] at hx
      | cons b bs =>
        simp only [sinter] at hx
        split at hx
        · exact ih as (b :: bs) x hx
        · rename_i c1
          split at hx
          · obtain ⟨b', hb', e⟩ := ih (a :: as) bs x hx
            exact ⟨b', List.mem_cons_of_mem _ hb', e⟩
          · rename_i c2
            rw [hlt] at c1 c2
            rcases List.mem_cons.1 hx with rfl | hx
            · exact ⟨b, List.mem_cons_self _ _, le_antisymm (not_lt.1 c1) (not_lt.1 c2)⟩
            · obtain ⟨b', hb', e⟩ := ih as bs x hx
              exact ⟨b', List.mem_cons_of_mem _ hb', e⟩

end keyed

theorem sortInsert_perm (lt : Nat → Nat → Bool) (a : Nat) :
    ∀ l : List Nat, (sortInsert lt a l).Perm (a :: l) := by
  intro l
  induction l with
  | nil => simp [sortInsert]
  | cons b l ih =>
    simp only [sortInsert]
    split
    · exact (ih.cons b).trans (List.Perm.swap a b l)
    · exact List.Perm.refl _

theorem listSort_perm (lt : Nat → Nat → Bool) : ∀ l : List Nat, (listSort lt l).Perm l := by
  intro l
  induction l with
  | nil => simp [listSort]
  | cons a l ih =>
    have : listSort lt (a :: l) = sortInsert lt a (listSort lt l) := rfl
    rw [this]
    exact (sortInsert_perm lt a _).trans (ih.cons a)

section keyed
variable {κ : Type} [LinearOrder κ] (k : Nat → κ) (lt : Nat → Nat → Bool)
variable (hlt : ∀ p q, lt p q = true ↔ k p < k q)
include hlt

theorem sortInsert_sorted (a : Nat) : ∀ l : List Nat, l.Pairwise (fun p q => k p ≤ k q) →
    (sortInsert lt a l).Pairwise (fun p q => k p ≤ k q) := by
  intro l
  induction l with
  | nil => intro _; simp [sortInsert]
  | cons b l ih =>
    intro hl
    have hl' := List.pairwise_cons.1 hl
    simp only [sortInsert]
    split
    · rename_i c
      rw [hlt] at c
      refine List.pairwise_cons.2 ⟨?_, ih hl'.2⟩
      intro x hx
      rcases List.mem_cons.1 ((sortInsert_perm lt a l).subset hx) with rfl | hx
      · exact le_of_lt c
      · exact hl'.1 x hx
    · rename_i c
      rw [hlt] at c
      refine List.pairwise_cons.2 ⟨?_, hl⟩
      intro x hx
      rcases List.mem_cons.1 hx with rfl | hx
      · exact not_lt.1 c
      · exact le_trans (not_lt.1 c) (hl'.1 x hx)

theorem listSort_sorted : ∀ l : List Nat, (listSort lt l).Pairwise (fun p q => k p ≤ k q) := by
  intro l
  induction l with
  | nil => simp [listSort]
  | cons a l ih =>
    have : listSort lt (a :: l) = sortInsert lt a (listSort lt l) := rfl
    rw [this]
    exact sortInsert_sorted k lt hlt a _ ih

theorem listSort_strict (l : List Nat) (hnd : (l.map k).Nodup) :
    (listSort lt l).Pairwise (fun p q => k p < k q) := by
  have h1 := listSort_sorted k lt hlt l
  have h2 : ((listSort lt l).map k).Nodup :=
    (((listSort_perm lt l).map k).nodup_iff).2 hnd
  have h3 : (listSort lt l).Pairwise (fun p q => k p ≠ k q) := by
    simpa [List.Nodup, List.pairwise_map] using h2
  exact (h1.and h3).imp (fun h => lt_of_le_of_ne h.1 h.2)

theorem sortInsert_of_le (a : Nat) (l : List Nat) (h : ∀ b ∈ l, k a ≤ k b) :
    sortInsert lt a l = a :: l := by
  cases l with
  | nil => rfl
  | cons b l =>
    simp only [sortInsert]
    have : ¬ (lt b a = true) := by
      rw [hlt]; exact not_lt.2 (h b (List.mem_cons_self _ _))
    simp [this]

theorem listSort_of_sorted : ∀ l : List Nat, l.Pairwise (fun p q => k p ≤ k q) →
    listSort lt l = l := by
  intro l
  induction l with
  | nil => intro _; rfl
  | cons a l ih =>
    intro hl
    have hl' := List.pairwise_cons.1 hl
    have : listSort lt (a :: l) = sortInsert lt a (listSort lt l) := rfl
    rw [this, ih hl'.2]
    exact sortInsert_of_le k lt hlt a l hl'.1

end keyed

theorem splitDefExports_eq (h : Heap) : ∀ (L v a : List Nat) (m : Nat),
    splitDefExports h L (v, a, m) =
      (v ++ L.filter (fun x => !(h x).absent), a ++ L.filter (fun x => (h x).absent),
        maxOrdinal h L m) := by
  intro L
  induction L with
  | nil => intro v a m; simp [splitDefExports, maxOrdinal]
  | cons x xs ih =>
    intro v a m
    simp only [splitDefExports, ih, maxOrdinal]
    cases hx : (h x).absent <;> simp [hx]

theorem markMissing_eq : ∀ (L : List Nat) (h : Heap),
    markMissing h L =
      fun p => if p ∈ L then { h p with status := SymbolStatus.Missing } else h p := by
  intro L
  induction L with
  | nil => intro h; funext p; simp [markMissing]
  | cons x xs ih =>
    intro h
    funext p
    simp only [markMissing, ih, Heap.set, List.mem_cons]
    by_cases hp : p = x
    · subst hp; simp
    · simp [hp]

theorem admitted_set (o : Options) (h : Heap) (p : Nat) (m : Nat) (st : SymbolStatus) :
    (fun q => admitted o ((h.set p { h p with ordinal := m, status := st }) q)) =
      fun q => admitted o (h q) := by
  funext q
  by_cases hq : q = p
  · subst hq; simp [Heap.set, admitted]
  · simp [Heap.set, hq]

theorem rejected_set (o : Options) (h : Heap) (p : Nat) (m : Nat) (st : SymbolStatus) :
    (fun q => rejected o ((h.set p { h p with ordinal := m, status := st }) q)) =
      fun q => rejected o (h q) := by
  funext q
  by_cases hq : q = p
  · subst hq; simp [Heap.set, rejected]
  · simp [Heap.set, hq]

theorem admitted_rejected (o : Options) (s : Symbol) (h : admitted o s = true) :
    rejected o s = false := by
  revert h
  simp only [admitted, rejected]
  cases s.absent <;> cases filteredOut o s.name <;> simp

theorem newExports_cons (o : Options) (p : Nat) (ps : List Nat) (self : ElfFileSupplied)
    (m : Nat) :
    newExports o (p :: ps) self m =
      if admitted o (self.heap p) then
        newExports o ps
          { self with
            heap := self.heap.set p { self.heap p with
              ordinal := (m + 1) % 2 ^ 32
              status := SymbolStatus.New }
            iSymbols := self.iSymbols ++ [p] }
          ((m + 1) % 2 ^ 32)
      else if rejected o (self.heap p) then
        match self.iExports with
        | none => none
        | some e => newExports o ps { self with iExports := some (e.addFiltered [p]) } m
      else newExports o ps self m := by
  rw [newExports]
  simp only [admitted, rejected, filteredOut, ElfExports.addFiltered]
  generalize ((o.IsCustomDllTarget || o.ExcludeUnwantedExports) &&
      UnWantedSymbol o.Unwantedruntimesymbols (self.heap p).name) = c1
  generalize (o.IgnoreNonCallable &&
      ((strncmp "_ZTI".toList (self.heap p).name (strlen "_ZTI".toList) == 0) ||
       (strncmp "_ZTV".toList (self.heap p).name (strlen "_ZTI".toList) == 0))) = c2
  cases (self.heap p).absent <;> cases c1 <;> cases c2 <;> simp

theorem newExports_some (o : Options) : ∀ (L : List Nat) (self : ElfFileSupplied) (m : Nat)
    (r : ElfFileSupplied × Nat), newExports o L self m = some r →
    r.1.heap = assignNew (L.filter (fun p => admitted o (self.heap p))) m self.heap ∧
    r.1.iSymbols = self.iSymbols ++ L.filter (fun p => admitted o (self.heap p)) ∧
    r.1.brk = self.brk ∧
    r.1.iExports = self.iExports.map
      (fun e => e.addFiltered (L.filter (fun p => rejected o (self.heap p)))) := by
  intro L
  induction L with
  | nil =>
    intro self m r hr
    simp only [newExports, Option.some.injEq] at hr
    subst hr
    cases he : self.iExports <;> simp [assignNew, ElfExports.addFiltered]
  | cons p ps ih =>
    intro self m r hr
    rw [newExports_cons] at hr
    cases hadm : admitted o (self.heap p)
    · rw [hadm] at hr
      simp only [Bool.false_eq_true, if_false] at hr
      cases hrej : rejected o (self.heap p)
      · rw [hrej] at hr
        simp only [Bool.false_eq_true, if_false] at hr
        obtain ⟨r1, r2, r3, r4⟩ := ih _ _ _ hr
        refine ⟨?_, ?_, r3, ?_⟩
        · rw [r1]; simp [List.filter_cons, hadm]
        · rw [r2]; simp [List.filter_cons, hadm]
        · rw [r4]; simp [List.filter_cons, hrej]
      · rw [hrej] at hr
        simp only [if_true] at hr
        cases he : self.iExports with
        | none => simp [he] at hr
        | some e =>
          simp only [he] at hr
          obtain ⟨r1, r2, r3, r4⟩ := ih _ _ _ hr
          refine ⟨?_, ?_, r3, ?_⟩
          · rw [r1]; simp [List.filter_cons, hadm]
          · rw [r2]; simp [List.filter_cons, hadm]
          · rw [r4]
            cases hl : List.filter (fun p => rejected o (self.heap p)) ps <;>
              simp [List.filter_cons, hrej, ElfExports.addFiltered, hl]
    · rw [hadm] at hr
      simp only [if_true] at hr
      obtain ⟨r1, r2, r3, r4⟩ := ih _ _ _ hr
      have hrej := admitted_rejected o _ hadm
      simp only [admitted_set, rejected_set] at r1 r2 r4
      refine ⟨?_, ?_, r3, ?_⟩
      · rw [r1]; simp [List.filter_cons, hadm, assignNew]
      · rw [r2]; simp [List.filter_cons, hadm]
      · rw [r4]; simp [List.filter_cons, hrej]

theorem markMissing_name (h : Heap) (L : List Nat) (p : Nat) :
    (markMissing h L p).name = (h p).name := by
  rw [markMissing_eq]; dsimp only; split <;> rfl

theorem nameCompare_fst (h : Heap) :
    (fun l r => (PtrELFExportNameCompare h l r).1) = nlt h := rfl

theorem assignNew_fields : ∀ (L : List Nat) (m : Nat) (h : Heap) (q : Nat),
    (assignNew L m h q).name = (h q).name ∧ (assignNew L m h q).absent = (h q).absent ∧
    (assignNew L m h q).kind = (h q).kind ∧ (assignNew L m h q).size = (h q).size ∧
    (assignNew L m h q).comment = (h q).comment := by
  intro L
  induction L with
  | nil => intro m h q; simp [assignNew]
  | cons p ps ih =>
    intro m h q
    simp only [assignNew]
    obtain ⟨a1, a2, a3, a4, a5⟩ := ih ((m + 1) % 2 ^ 32)
      (h.set p { h p with ordinal := (m + 1) % 2 ^ 32, status := SymbolStatus.New }) q
    rw [a1, a2, a3, a4, a5]
    by_cases hq : q = p
    · subst hq; simp [Heap.set]
    · simp [Heap.set, hq]

theorem assignNew_not_mem : ∀ (L : List Nat) (m : Nat) (h : Heap) (q : Nat), q ∉ L →
    assignNew L m h q = h q := by
  intro L
  induction L with
  | nil => intro m h q _; rfl
  | cons p ps ih =>
    intro m h q hq
    simp only [List.mem_cons, not_or] at hq
    simp only [assignNew]
    rw [ih _ _ _ hq.2]
    simp [Heap.set, hq.1]

theorem assignNew_get : ∀ (L : List Nat) (m : Nat) (h : Heap), L.Nodup →
    ∀ (i : Nat) (hi : i < L.length), assignNew L m h (L.get ⟨i, hi⟩) =
      { h (L.get ⟨i, hi⟩) with ordinal := (m + i + 1) % 2 ^ 32, status := SymbolStatus.New } := by
  intro L
  induction L with
  | nil => intro m h _ i hi; simp at hi
  | cons p ps ih =>
    intro m h hnd i hi
    have hnd' := List.nodup_cons.1 hnd
    simp only [assignNew]
    cases i with
    | zero =>
      simp only [List.get_eq_getElem, List.getElem_cons_zero]
      rw [assignNew_not_mem _ _ _ _ hnd'.1]
      simp [Heap.set]
    | succ i =>
      have hi' : i < ps.length := by simpa using hi
      have := ih ((m + 1) % 2 ^ 32)
        (h.set p { h p with ordinal := (m + 1) % 2 ^ 32, status := SymbolStatus.New }) hnd'.2 i hi'
      simp only [List.get_eq_getElem, List.getElem_cons_succ] at this ⊢
      rw [this]
      have hne : ps[i] ≠ p := by
        intro e; exact hnd'.1 (e ▸ List.getElem_mem _)
      simp only [Heap.set, hne, if_false]
      have e : ((m + 1) % 2 ^ 32 + i + 1) % 2 ^ 32 = (m + (i + 1) + 1) % 2 ^ 32 := by omega
      rw [e]

theorem absentExports_some : ∀ (L : List Nat) (self s' : ElfFileSupplied),
    absentExports L self = some s' → (∀ p ∈ L, p < self.brk) →
    s'.brk = self.brk + L.length ∧
    s'.iSymbols = self.iSymbols ++ (List.range L.length).map (fun i => self.brk + i) ∧
    (∀ q, q < self.brk → s'.heap q = self.heap q) ∧
    ((List.range L.length).map (fun i => s'.heap (self.brk + i)) =
      L.map (fun p => (self.heap p).copyWith SymbolType.SymbolTypeCode true)) ∧
    (L ≠ [] → self.iExports ≠ none) ∧
    s'.iExports = self.iExports.map (fun e =>
      { e with iElfExports := e.iElfExports ++ (List.range L.length).map (fun i => self.brk + i) }) := by
  intro L
  induction L with
  | nil =>
    intro self s' h _
    simp only [absentExports, Option.some.injEq] at h
    subst h
    cases self.iExports <;> simp
  | cons p ps ih =>
    intro self s' h hL
    simp only [absentExports] at h
    cases he : self.iExports with
    | none => simp [he] at h
    | some e =>
      simp only [he] at h
      have hL' : ∀ q ∈ ps, q < self.brk + 1 := fun q hq =>
        Nat.lt_succ_of_lt (hL q (List.mem_cons_of_mem _ hq))
      obtain ⟨r1, r2, r3, r4, _, r6⟩ := ih _ _ h hL'
      simp only at r1 r2 r3 r4 r6
      have hshift : List.map (fun i => self.brk + 1 + i) (List.range ps.length) =
          List.map (fun i => self.brk + i) (List.map Nat.succ (List.range ps.length)) := by
        rw [List.map_map]
        apply List.map_congr_left
        intro i _
        show self.brk + 1 + i = self.brk + (i + 1)
        omega
      have hr : List.range (p :: ps).length = 0 :: List.map Nat.succ (List.range ps.length) := by
        rw [List.length_cons, List.range_succ_eq_map]
      refine ⟨?_, ?_, ?_, ?_, by simp, ?_⟩
      · rw [r1, List.length_cons]; omega
      · rw [r2, hshift, hr]; simp
      · intro q hq
        rw [r3 q (Nat.lt_succ_of_lt hq)]
        simp [Heap.set, Nat.ne_of_lt hq]
      · rw [hr, List.map_cons, List.map_cons]
        congr 1
        · rw [Nat.add_zero, r3 _ (Nat.lt_succ_self _)]; simp [Heap.set]
        · rw [List.map_map]
          have : (fun i => s'.heap (self.brk + i)) ∘ Nat.succ =
              fun i => s'.heap (self.brk + 1 + i) := by
            funext i
            show s'.heap (self.brk + (i + 1)) = s'.heap (self.brk + 1 + i)
            congr 1; omega
          rw [this, r4]
          apply List.map_congr_left
          intro q hq
          have := hL q (List.mem_cons_of_mem _ hq)
          simp [Heap.set, Nat.ne_of_lt this]
      · rw [r6, hshift, hr]
        simp [ElfExports.Add]

theorem finishExports_fields (self : ElfFileSupplied) :
    (finishExports self).heap = self.heap ∧ (finishExports self).iSymbols = self.iSymbols ∧
    (finishExports self).brk = self.brk := by
  unfold finishExports
  cases self.iExports with
  | none => simp
  | some e => dsimp only; split <;> simp

theorem sdiff_nil (lt : Nat → Nat → Bool) (n : Nat) (B : List Nat) : sdiff lt n [] B = [] := by
  cases n <;> simp [sdiff]

theorem sinter_nil (lt : Nat → Nat → Bool) (n : Nat) (B : List Nat) : sinter lt n [] B = [] := by
  cases n <;> simp [sinter]

theorem markMissing_kind (h : Heap) (L : List Nat) (p : Nat) :
    (markMissing h L p).kind = (h p).kind := by
  rw [markMissing_eq]; dsimp only; split <;> rfl

theorem markMissing_absent (h : Heap) (L : List Nat) (p : Nat) :
    (markMissing h L p).absent = (h p).absent := by
  rw [markMissing_eq]; dsimp only; split <;> rfl

theorem listSort_eq_nil (lt : Nat → Nat → Bool) (l : List Nat) : listSort lt l = [] ↔ l = [] := by
  constructor
  · intro h
    have := (listSort_perm lt l).length_eq
    rw [h] at this
    exact List.length_eq_zero.1 this.symm
  · intro h; subst h; rfl

/-! ## The comparator that updates the attributes -/

theorem Kept_refl (a : Symbol) : Kept a a := ⟨rfl, rfl, rfl, rfl, rfl, fun _ => rfl⟩

theorem Kept_trans {a b c : Symbol} (x : Kept a b) (y : Kept b c) : Kept a c := by
  obtain ⟨a1, a2, a3, a4, a5, a6⟩ := x
  obtain ⟨b1, b2, b3, b4, b5, b6⟩ := y
  refine ⟨b1.trans a1, b2.trans a2, b3.trans a3, b4.trans a4, b5.trans a5, fun hp => ?_⟩
  rw [b6 (a3.trans hp), a6 hp]

theorem Kept_of_eq {a b : Symbol} (h : b = a) : Kept a b := h ▸ Kept_refl a

theorem nlt_iff (h : Heap) (p q : Nat) : nlt h p q = true ↔ (h p).name < (h q).name := by
  simp [nlt, strcmp_neg_iff]

theorem nlt_congr {h h' : Heap} (hn : ∀ p, (h' p).name = (h p).name) : nlt h' = nlt h := by
  funext p q
  simp [nlt, hn]

theorem nlt_asymm (h : Heap) (p q : Nat) (hpq : nlt h p q = true) : nlt h q p = false := by
  rw [nlt_iff] at hpq
  cases hq : nlt h q p with
  | false => rfl
  | true => exact absurd ((nlt_iff h q p).1 hq) (lt_asymm hpq)

theorem name_eq_of_nlt {h : Heap} {p q : Nat} (h1 : nlt h p q = false) (h2 : nlt h q p = false) :
    (h p).name = (h q).name := by
  have a1 : ¬ (h p).name < (h q).name := fun x => by rw [(nlt_iff h p q).2 x] at h1; cases h1
  have a2 : ¬ (h q).name < (h p).name := fun x => by rw [(nlt_iff h q p).2 x] at h2; cases h2
  exact le_antisymm (not_lt.1 a2) (not_lt.1 a1)

/-- The comparator answers by the names. -/
theorem UpdateAttributes_fst (h : Heap) (a b : Nat) :
    (PtrELFExportNameCompareUpdateAttributes h a b).1 = nlt h a b := by
  unfold PtrELFExportNameCompareUpdateAttributes
  split
  · rename_i c
    simp [nlt, c]
  · rfl

/-- The comparator leaves the heap as it is when the names differ. -/
theorem UpdateAttributes_ne (h : Heap) (a b : Nat) (hn : (h a).name ≠ (h b).name) :
    (PtrELFExportNameCompareUpdateAttributes h a b).2 = h := by
  unfold PtrELFExportNameCompareUpdateAttributes
  rw [if_neg (fun c => hn ((strcmp_eq_zero_iff _ _).1 c))]

/-- The heap after a call of the comparator on two objects of the same name. -/
theorem UpdateAttributes_eq (h : Heap) (a b : Nat) (hn : (h a).name = (h b).name) :
    (PtrELFExportNameCompareUpdateAttributes h a b).2 =
      if (h a).absent then
        (h.set b { h b with ordinal := (h a).ordinal, absent := (h a).absent }).set a
          { h a with kind := (h b).kind, size := (h b).size }
      else h.set b { h b with ordinal := (h a).ordinal, absent := (h a).absent } := by
  unfold PtrELFExportNameCompareUpdateAttributes
  rw [if_pos ((strcmp_eq_zero_iff _ _).2 hn)]

/-- The two calls on a pair of objects of the same name, at distinct addresses:
the second object takes ordinal and absent flag of the first, the first takes
kind and size of the second when it is absent. -/
theorem annotatePair_eq (h : Heap) (a b : Nat) (hab : a ≠ b) (hn : (h a).name = (h b).name) :
    annotatePair h a b =
      fun p =>
        if p = a then
          (if (h a).absent then { h a with kind := (h b).kind, size := (h b).size } else h a)
        else if p = b then { h b with ordinal := (h a).ordinal, absent := (h a).absent }
        else h p := by
  have hba : b ≠ a := fun e => hab e.symm
  unfold annotatePair
  have e1 : (PtrELFExportNameCompareUpdateAttributes h a b).2 =
      fun p =>
        if p = a then
          (if (h a).absent then { h a with kind := (h b).kind, size := (h b).size } else h a)
        else if p = b then { h b with ordinal := (h a).ordinal, absent := (h a).absent }
        else h p := by
    rw [UpdateAttributes_eq h a b hn]
    funext p
    cases hA : (h a).absent
    · by_cases hp : p = a
      · subst hp; simp [Heap.set, hab, hA]
      · simp [Heap.set, hp]
    · by_cases hp : p = a
      · subst hp; simp [Heap.set]
      · simp [Heap.set, hp]
  rw [e1]
  rw [UpdateAttributes_eq]
  · funext p
    simp only [if_pos rfl, if_neg hba]
    generalize h a = sa at *
    generalize h b = sb at *
    obtain ⟨n1, o1, k1, a1, s1, z1, c1⟩ := sa
    obtain ⟨n2, o2, k2, a2, s2, z2, c2⟩ := sb
    cases a1
    · by_cases hp : p = a
      · subst hp; simp [Heap.set]
      · by_cases hq : p = b
        · subst hq; simp [Heap.set, hp]
        · simp [Heap.set, hp, hq]
    · by_cases hp : p = a
      · subst hp; simp [Heap.set, hab]
      · by_cases hq : p = b
        · subst hq; simp [Heap.set, hp]
        · simp [Heap.set, hp, hq]
  · simp only [if_pos rfl, if_neg hba]
    cases (h a).absent <;> simp [hn]

/-- The two calls on a pair of objects of different names change nothing. -/
theorem annotatePair_ne (h : Heap) (a b : Nat) (hn : (h a).name ≠ (h b).name) :
    annotatePair h a b = h := by
  unfold annotatePair
  rw [UpdateAttributes_ne h a b hn, UpdateAttributes_ne h b a (fun e => hn e.symm)]

/-- A call of the comparator changes the two objects it is given and no other. -/
theorem UpdateAttributes_other (h : Heap) (a b p : Nat) (ha : p ≠ a) (hb : p ≠ b) :
    (PtrELFExportNameCompareUpdateAttributes h a b).2 p = h p := by
  by_cases hn : (h a).name = (h b).name
  · rw [UpdateAttributes_eq h a b hn]
    split <;> simp [Heap.set, ha, hb]
  · rw [UpdateAttributes_ne h a b hn]

/-- A call of the comparator changes no name, no status and no comment. -/
theorem UpdateAttributes_fields (h : Heap) (a b p : Nat) :
    ((PtrELFExportNameCompareUpdateAttributes h a b).2 p).name = (h p).name ∧
    ((PtrELFExportNameCompareUpdateAttributes h a b).2 p).status = (h p).status ∧
    ((PtrELFExportNameCompareUpdateAttributes h a b).2 p).comment = (h p).comment := by
  by_cases hn : (h a).name = (h b).name
  · rw [UpdateAttributes_eq h a b hn]
    by_cases hp : p = a
    · subst hp
      by_cases hq : p = b
      · subst hq; split <;> simp [Heap.set]
      · split <;> simp [Heap.set, hq]
    · by_cases hq : p = b
      · subst hq; split <;> simp [Heap.set, hp]
      · split <;> simp [Heap.set, hp, hq]
  · rw [UpdateAttributes_ne h a b hn]
    exact ⟨rfl, rfl, rfl⟩

/-- A call of the comparator keeps the rule on kinds. -/
theorem UpdateAttributes_kindOK (h : Heap) (a b : Nat) (k : KindOK h) :
    KindOK (PtrELFExportNameCompareUpdateAttributes h a b).2 := by
  intro p
  rw [(UpdateAttributes_fields h a b p).1]
  by_cases hn : (h a).name = (h b).name
  · rw [UpdateAttributes_eq h a b hn]
    have ka := k a
    have kb := k b
    have kp := k p
    cases hA : (h a).absent
    · simp only [Bool.false_eq_true, if_false]
      by_cases hq : p = b
      · subst hq; simp [Heap.set, kp]
      · simp [Heap.set, hq, kp]
    · simp only [if_true]
      by_cases hp : p = a
      · subst hp
        simp [Heap.set, kb, hn]
      · by_cases hq : p = b
        · subst hq; simp [Heap.set, hp, kp]
        · simp [Heap.set, hp, hq, kp]
  · rw [UpdateAttributes_ne h a b hn]
    exact k p

theorem annotatePair_fields (h : Heap) (a b p : Nat) :
    (annotatePair h a b p).name = (h p).name ∧ (annotatePair h a b p).status = (h p).status ∧
    (annotatePair h a b p).comment = (h p).comment := by
  unfold annotatePair
  obtain ⟨x1, x2, x3⟩ := UpdateAttributes_fields h a b p
  obtain ⟨y1, y2, y3⟩ := UpdateAttributes_fields
    (PtrELFExportNameCompareUpdateAttributes h a b).2 b a p
  exact ⟨y1.trans x1, y2.trans x2, y3.trans x3⟩

theorem annotatePair_other (h : Heap) (a b p : Nat) (ha : p ≠ a) (hb : p ≠ b) :
    annotatePair h a b p = h p := by
  unfold annotatePair
  rw [UpdateAttributes_other _ b a p hb ha, UpdateAttributes_other h a b p ha hb]

/-- The two calls keep of every object but the second one what `Kept` says. -/
theorem annotatePair_kept (h : Heap) (a b p : Nat) (hab : a ≠ b) (hb : p ≠ b) :
    Kept (h p) (annotatePair h a b p) := by
  by_cases hn : (h a).name = (h b).name
  · rw [annotatePair_eq h a b hab hn]
    by_cases hp : p = a
    · subst hp
      simp only [if_pos rfl]
      cases hA : (h p).absent
      · exact Kept_refl _
      · simp only [if_true]
        exact ⟨rfl, rfl, hA.symm, rfl, rfl, fun hx => by rw [hA] at hx; cases hx⟩
    · simp only [if_neg hp, if_neg hb]
      exact Kept_refl _
  · rw [annotatePair_ne h a b hn]
    exact Kept_refl _

/-- The two calls give the second object of a pair of equal names the ordinal and
the absent flag of the first. -/
theorem annotatePair_snd (h : Heap) (a b : Nat) (hab : a ≠ b) (hn : (h a).name = (h b).name) :
    annotatePair h a b b = { h b with ordinal := (h a).ordinal, absent := (h a).absent } := by
  have hba : b ≠ a := fun e => hab e.symm
  rw [annotatePair_eq h a b hab hn]
  simp [hba]

theorem annotatePair_kindOK (h : Heap) (a b : Nat) (k : KindOK h) :
    KindOK (annotatePair h a b) :=
  UpdateAttributes_kindOK _ b a (UpdateAttributes_kindOK h a b k)

theorem annotate_fields : ∀ (l : List (Nat × Nat)) (h : Heap) (p : Nat),
    (annotate h l p).name = (h p).name ∧ (annotate h l p).status = (h p).status ∧
    (annotate h l p).comment = (h p).comment
  | [], _, _ => ⟨rfl, rfl, rfl⟩
  | (a, b) :: l, h, p => by
    obtain ⟨x1, x2, x3⟩ := annotatePair_fields h a b p
    obtain ⟨y1, y2, y3⟩ := annotate_fields l (annotatePair h a b) p
    exact ⟨y1.trans x1, y2.trans x2, y3.trans x3⟩

theorem annotate_kindOK : ∀ (l : List (Nat × Nat)) (h : Heap), KindOK h → KindOK (annotate h l)
  | [], _, k => k
  | (a, b) :: l, h, k => annotate_kindOK l _ (annotatePair_kindOK h a b k)

theorem annotate_nlt (h : Heap) (l : List (Nat × Nat)) : nlt (annotate h l) = nlt h :=
  nlt_congr (fun p => (annotate_fields l h p).1)

theorem annotate_nil (h : Heap) : annotate h [] = h := rfl

/-- The calls change no object that is in no pair. -/
theorem annotate_not_mem : ∀ (l : List (Nat × Nat)) (h : Heap) (p : Nat),
    p ∉ l.map Prod.fst → p ∉ l.map Prod.snd → annotate h l p = h p
  | [], _, _, _, _ => rfl
  | (a, b) :: l, h, p, h1, h2 => by
    simp only [List.map_cons, List.mem_cons, not_or] at h1 h2
    show annotate (annotatePair h a b) l p = h p
    rw [annotate_not_mem l _ p h1.2 h2.2, annotatePair_other h a b p h1.1 h2.1]

/-- The calls on pairs of a DEF record (an address below `n`) and an ELF export
(an address from `n` on) keep of every DEF record what `Kept` says. -/
theorem annotate_def (n : Nat) : ∀ (l : List (Nat × Nat)) (h : Heap),
    (∀ pr ∈ l, pr.1 < n ∧ n ≤ pr.2) → ∀ p, p < n → Kept (h p) (annotate h l p)
  | [], h, _, p, _ => Kept_refl _
  | (a, b) :: l, h, hT, p, hp => by
    obtain ⟨ha, hb⟩ := hT (a, b) (List.mem_cons_self _ _)
    simp only at ha hb
    have k1 : Kept (h p) (annotatePair h a b p) :=
      annotatePair_kept h a b p (by omega) (by omega)
    exact Kept_trans k1 (annotate_def n l _ (fun pr hpr => hT pr (List.mem_cons_of_mem _ hpr)) p hp)

/-- The calls change no ELF export that is in no pair. -/
theorem annotate_elf_not_mem (n : Nat) (l : List (Nat × Nat)) (h : Heap)
    (hT : ∀ pr ∈ l, pr.1 < n ∧ n ≤ pr.2) (p : Nat) (hp : n ≤ p) (hm : p ∉ l.map Prod.snd) :
    annotate h l p = h p := by
  refine annotate_not_mem l h p (fun hx => ?_) hm
  obtain ⟨pr, hpr, e⟩ := List.mem_map.1 hx
  have := (hT pr hpr).1
  omega

/-- The calls give the ELF export of a pair the ordinal and the absent flag of
the DEF record of the pair, and change nothing else of it. -/
theorem annotate_elf_mem (n : Nat) : ∀ (l : List (Nat × Nat)) (h : Heap),
    (∀ pr ∈ l, pr.1 < n ∧ n ≤ pr.2) → (l.map Prod.snd).Nodup →
    (∀ pr ∈ l, (h pr.1).name = (h pr.2).name) →
    ∀ pr ∈ l, annotate h l pr.2 =
      { h pr.2 with ordinal := (h pr.1).ordinal, absent := (h pr.1).absent }
  | [], _, _, _, _, pr, hpr => by simp at hpr
  | (a, b) :: l, h, hT, hnd, hn, pr, hpr => by
    obtain ⟨ha, hb⟩ := hT (a, b) (List.mem_cons_self _ _)
    simp only at ha hb
    have hT' : ∀ pr ∈ l, pr.1 < n ∧ n ≤ pr.2 := fun pr hpr => hT pr (List.mem_cons_of_mem _ hpr)
    simp only [List.map_cons, List.nodup_cons] at hnd
    show annotate (annotatePair h a b) l pr.2 = _
    rcases List.mem_cons.1 hpr with rfl | hpr
    · rw [annotate_elf_not_mem n l _ hT' _ hb hnd.1]
      exact annotatePair_snd h _ _ (by omega) (hn _ (List.mem_cons_self _ _))
    · have hn' : ∀ pr ∈ l, (annotatePair h a b pr.1).name = (annotatePair h a b pr.2).name := by
        intro q hq
        rw [(annotatePair_fields h a b q.1).1, (annotatePair_fields h a b q.2).1]
        exact hn q (List.mem_cons_of_mem _ hq)
      rw [annotate_elf_mem n l _ hT' hnd.2 hn' pr hpr]
      obtain ⟨h1, h2⟩ := hT' pr hpr
      have hne : pr.2 ≠ b := fun e => hnd.1 (e ▸ List.mem_map_of_mem _ hpr)
      rw [annotatePair_other h a b pr.2 (by omega) hne]
      obtain ⟨_, k2, k3, _⟩ := annotatePair_kept h a b pr.1 (by omega) (by omega)
      rw [k2, k3]

theorem smatch_fst (lt : Nat → Nat → Bool) : ∀ (n : Nat) (A B : List Nat),
    (smatch lt n A B).map Prod.fst = sinter lt n A B := by
  intro n
  induction n with
  | zero =>
    intro A B
    cases A with
    | nil => simp [smatch, sinter]
    | cons a as => cases B <;> simp [smatch, sinter]
  | succ n ih =>
    intro A B
    cases A with
    | nil => simp [smatch, sinter]
    | cons a as =>
      cases B with
      | nil => simp [smatch, sinter]
      | cons b bs =>
        simp only [smatch, sinter]
        split
        · exact ih _ _
        · split
          · exact ih _ _
          · simp [ih]

theorem smatch_snd (lt : Nat → Nat → Bool) (hasym : ∀ p q, lt p q = true → lt q p = false) :
    ∀ (n : Nat) (A B : List Nat), (smatch lt n A B).map Prod.snd = sinter lt n B A := by
  intro n
  induction n with
  | zero =>
    intro A B
    cases A with
    | nil => cases B <;> simp [smatch, sinter]
    | cons a as => cases B <;> simp [smatch, sinter]
  | succ n ih =>
    intro A B
    cases A with
    | nil => cases B <;> simp [smatch, sinter]
    | cons a as =>
      cases B with
      | nil => simp [smatch, sinter]
      | cons b bs =>
        simp only [smatch, sinter]
        cases c1 : lt a b
        · cases c2 : lt b a
          · simp [ih]
          · simp [ih]
        · simp only [hasym a b c1, if_true, Bool.false_eq_true, if_false]
          exact ih _ _

theorem smatch_mem (lt : Nat → Nat → Bool) : ∀ (n : Nat) (A B : List Nat),
    ∀ pr ∈ smatch lt n A B,
      pr.1 ∈ A ∧ pr.2 ∈ B ∧ lt pr.1 pr.2 = false ∧ lt pr.2 pr.1 = false := by
  intro n
  induction n with
  | zero =>
    intro A B pr hpr
    cases A with
    | nil => simp [smatch] at hpr
    | cons a as => cases B <;> simp [smatch] at hpr
  | succ n ih =>
    intro A B pr hpr
    cases A with
    | nil => simp [smatch] at hpr
    | cons a as =>
      cases B with
      | nil => simp [smatch] at hpr
      | cons b bs =>
        simp only [smatch] at hpr
        split at hpr
        · obtain ⟨x1, x2, x3⟩ := ih _ _ pr hpr
          exact ⟨List.mem_cons_of_mem _ x1, x2, x3⟩
        · rename_i c1
          split at hpr
          · obtain ⟨x1, x2, x3⟩ := ih _ _ pr hpr
            exact ⟨x1, List.mem_cons_of_mem _ x2, x3⟩
          · rename_i c2
            rcases List.mem_cons.1 hpr with rfl | hpr
            · exact ⟨List.mem_cons_self _ _, List.mem_cons_self _ _, by simpa using c1,
                by simpa using c2⟩
            · obtain ⟨x1, x2, x3⟩ := ih _ _ pr hpr
              exact ⟨List.mem_cons_of_mem _ x1, List.mem_cons_of_mem _ x2, x3⟩

theorem smatch_nil (lt : Nat → Nat → Bool) (n : Nat) (B : List Nat) : smatch lt n [] B = [] := by
  cases n <;> simp [smatch]

theorem annotatePair_nlt (h : Heap) (a b : Nat) : nlt (annotatePair h a b) = nlt h :=
  nlt_congr (fun p => (annotatePair_fields h a b p).1)

/-- The algorithm `set_difference` under the comparator that updates the
attributes: the list is the difference by name, and the heap is the one after
the calls on the pairs of equal names. -/
theorem set_difference_update : ∀ (n : Nat) (h : Heap) (A B : List Nat),
    set_difference PtrELFExportNameCompareUpdateAttributes n h A B =
      (sdiff (nlt h) n A B, annotate h (smatch (nlt h) n A B)) := by
  intro n
  induction n with
  | zero =>
    intro h A B
    cases A with
    | nil => simp [set_difference, sdiff, smatch, annotate]
    | cons a as => cases B <;> simp [set_difference, sdiff, smatch, annotate]
  | succ n ih =>
    intro h A B
    cases A with
    | nil => simp [set_difference, sdiff, smatch, annotate]
    | cons a as =>
      cases B with
      | nil => simp [set_difference, sdiff, smatch, annotate]
      | cons b bs =>
        simp only [set_difference, sdiff, smatch, UpdateAttributes_fst]
        cases c1 : nlt h a b
        · have e1 : nlt (PtrELFExportNameCompareUpdateAttributes h a b).2 b a = nlt h b a := by
            rw [nlt_congr (fun p => (UpdateAttributes_fields h a b p).1)]
          rw [e1]
          cases c2 : nlt h b a
          · simp only [Bool.false_eq_true, if_false]
            have e2 : nlt (PtrELFExportNameCompareUpdateAttributes
                (PtrELFExportNameCompareUpdateAttributes h a b).2 b a).2 = nlt h :=
              annotatePair_nlt h a b
            rw [ih, e2]
            rfl
          · have hne : (h a).name ≠ (h b).name := fun e => by
              have := (nlt_iff h b a).1 c2
              rw [e] at this
              exact lt_irrefl _ this
            simp only [Bool.false_eq_true, if_false, if_true]
            rw [UpdateAttributes_ne h a b hne, UpdateAttributes_ne h b a (fun e => hne e.symm), ih]
        · have hne : (h a).name ≠ (h b).name := fun e => by
            have := (nlt_iff h a b).1 c1
            rw [e] at this
            exact lt_irrefl _ this
          simp only [if_true]
          rw [UpdateAttributes_ne h a b hne, ih]

/-- The algorithm `set_intersection` under the comparator that updates the
attributes. -/
theorem set_intersection_update : ∀ (n : Nat) (h : Heap) (A B : List Nat),
    set_intersection PtrELFExportNameCompareUpdateAttributes n h A B =
      (sinter (nlt h) n A B, annotate h (smatch (nlt h) n A B)) := by
  intro n
  induction n with
  | zero =>
    intro h A B
    cases A with
    | nil => simp [set_intersection, sinter, smatch, annotate]
    | cons a as => cases B <;> simp [set_intersection, sinter, smatch, annotate]
  | succ n ih =>
    intro h A B
    cases A with
    | nil => simp [set_intersection, sinter, smatch, annotate]
    | cons a as =>
      cases B with
      | nil => simp [set_intersection, sinter, smatch, annotate]
      | cons b bs =>
        simp only [set_intersection, sinter, smatch, UpdateAttributes_fst]
        cases c1 : nlt h a b
        · have e1 : nlt (PtrELFExportNameCompareUpdateAttributes h a b).2 b a = nlt h b a := by
            rw [nlt_congr (fun p => (UpdateAttributes_fields h a b p).1)]
          rw [e1]
          cases c2 : nlt h b a
          · simp only [Bool.false_eq_true, if_false]
            have e2 : nlt (PtrELFExportNameCompareUpdateAttributes
                (PtrELFExportNameCompareUpdateAttributes h a b).2 b a).2 = nlt h :=
              annotatePair_nlt h a b
            rw [ih, e2]
            rfl
          · have hne : (h a).name ≠ (h b).name := fun e => by
              have := (nlt_iff h b a).1 c2
              rw [e] at this
              exact lt_irrefl _ this
            simp only [Bool.false_eq_true, if_false, if_true]
            rw [UpdateAttributes_ne h a b hne, UpdateAttributes_ne h b a (fun e => hne e.symm), ih]
        · have hne : (h a).name ≠ (h b).name := fun e => by
            have := (nlt_iff h a b).1 c1
            rw [e] at this
            exact lt_irrefl _ this
          simp only [if_true]
          rw [UpdateAttributes_ne h a b hne, ih]

theorem set_difference_name (n : Nat) (h : Heap) (A B : List Nat) :
    set_difference PtrELFExportNameCompare n h A B = (sdiff (nlt h) n A B, h) := by
  have := set_difference_spec PtrELFExportNameCompare (nlt h) (fun h' => h' = h)
    (fun h' a b hR => by subst hR; exact ⟨rfl, rfl⟩) n h A B rfl
  exact Prod.ext this.1 this.2

/-! ## The cases of `ValidateDefExports` -/

theorem ValidateDefExports_new_ok (o : Options) (self : ElfFileSupplied) (V A El : List Nat)
    (M : Nat) (s : ElfFileSupplied)
    (h : ValidateDefExports_new o self V A El M = Outcome.ok s) :
    ∃ s4,
      absentExports (sdiff (nlt self.heap) (A.length + El.length) A El)
        { heap := annotate
            (assignNew ((sdiff (nlt self.heap) (El.length + V.length) El V).filter
              (fun p => admitted o (self.heap p))) M self.heap)
            (smatch (nlt self.heap) (A.length + El.length) A El)
          brk := self.brk
          iSymbols := self.iSymbols ++ (sdiff (nlt self.heap) (El.length + V.length) El V).filter
            (fun p => admitted o (self.heap p))
          iExports := self.iExports.map (fun e => e.addFiltered
            ((sdiff (nlt self.heap) (El.length + V.length) El V).filter
              (fun p => rejected o (self.heap p)))) } = some s4 ∧
      s = finishExports { s4 with
        iSymbols := if A = [] then s4.iSymbols else listSort (olt s4.heap) s4.iSymbols } := by
  unfold ValidateDefExports_new at h
  simp only [set_difference_name] at h
  cases hn : newExports o (sdiff (nlt self.heap) (El.length + V.length) El V) self M with
  | none => simp [hn] at h
  | some r =>
    obtain ⟨s3, M'⟩ := r
    obtain ⟨r1, r2, r3, r4⟩ := newExports_some o _ _ _ _ hn
    simp only at r1 r2 r3 r4
    simp only [hn] at h
    have hs3 : s3 = ⟨s3.heap, s3.brk, s3.iSymbols, s3.iExports⟩ := rfl
    by_cases hA : A = []
    · subst hA
      simp only [List.length_nil, ne_eq, not_true_eq_false, if_false, Outcome.ok.injEq] at h
      refine ⟨s3, ?_, ?_⟩
      · rw [sdiff_nil, smatch_nil, annotate_nil, ← r1, ← r2, ← r3, ← r4]; rfl
      · simp [h]
    · have hA' : A.length ≠ 0 := by
        intro e; exact hA (List.length_eq_zero.1 e)
      simp only [hA', ne_eq, not_false_eq_true, if_true] at h
      have hnl : nlt s3.heap = nlt self.heap := by
        apply nlt_congr; intro p; rw [r1]; exact (assignNew_fields _ _ _ p).1
      rw [set_difference_update, hnl] at h
      simp only at h
      cases ha : absentExports (sdiff (nlt self.heap) (A.length + El.length) A El)
          { s3 with
            heap := annotate s3.heap (smatch (nlt self.heap) (A.length + El.length) A El) } with
      | none => simp [ha] at h
      | some s4 =>
        simp only [ha, Outcome.ok.injEq] at h
        refine ⟨s4, ?_, ?_⟩
        · rw [← r1, ← r2, ← r3, ← r4]; exact ha
        · simp only [hA, if_false]; exact h.symm

theorem ValidateDefExports_absent_eq (o : Options) (self : ElfFileSupplied) (V A El : List Nat)
    (M : Nat) :
    ValidateDefExports_absent o self V A El M =
      ValidateDefExports_new o
        { self with
          heap := annotate self.heap (smatch (nlt self.heap) (A.length + El.length) A El)
          iSymbols := self.iSymbols ++ sinter (nlt self.heap) (A.length + El.length) A El }
        V A El M := by
  unfold ValidateDefExports_absent
  by_cases hA : A = []
  · subst hA
    simp [sinter_nil, smatch_nil, annotate_nil]
  · have hA' : A.length ≠ 0 := by
      intro e; exact hA (List.length_eq_zero.1 e)
    simp only [hA', ne_eq, not_false_eq_true, if_true, set_intersection_update]

theorem ValidateDefExports_missing_eq (o : Options) (self : ElfFileSupplied) (V A El : List Nat)
    (M : Nat) :
    ValidateDefExports_missing o self V A El M =
      if (sdiff (nlt self.heap) (V.length + El.length) V El).length ≠ 0 && !o.Unfrozen then
        Outcome.SymbolMissingFromElfError
          ((sdiff (nlt self.heap) (V.length + El.length) V El).map
            (fun p => (self.heap p).name))
          { self with
            heap := markMissing
              (annotate self.heap (smatch (nlt self.heap) (V.length + El.length) V El))
              (sdiff (nlt self.heap) (V.length + El.length) V El) }
      else
        ValidateDefExports_absent o
          { self with
            heap := markMissing
              (annotate self.heap (smatch (nlt self.heap) (V.length + El.length) V El))
              (sdiff (nlt self.heap) (V.length + El.length) V El) }
          V A El M := by
  unfold ValidateDefExports_missing
  simp only [set_difference_update, List.length_map]
  have hn : ∀ p, (markMissing
      (annotate self.heap (smatch (nlt self.heap) (V.length + El.length) V El))
      (sdiff (nlt self.heap) (V.length + El.length) V El) p).name = (self.heap p).name :=
    fun p => (markMissing_name _ _ p).trans (annotate_fields _ _ p).1
  simp only [hn]

theorem markMissing_nlt (h : Heap) (L : List Nat) : nlt (markMissing h L) = nlt h :=
  nlt_congr (fun p => markMissing_name h L p)

theorem ValidateDefExports_ok (o : Options) (self : ElfFileSupplied) (aDefExports : Option Symbols)
    (s : ElfFileSupplied) (h : ValidateDefExports o self aDefExports = Outcome.ok s) :
    ∃ s4,
      (rcMissing self.heap (aDefExports.getD []) self.GetElfSymbols = [] ∨ o.Unfrozen = true) ∧
      absentExports (rcCarried self.heap (aDefExports.getD []) self.GetElfSymbols)
        { heap := annotate
            (assignNew (rcAdmitted o self.heap (aDefExports.getD []) self.GetElfSymbols)
              (maxOrdinal self.heap (aDefExports.getD []) 0)
              (rcTested self.heap (aDefExports.getD []) self.GetElfSymbols))
            (rcMatchedAbsent self.heap (aDefExports.getD []) self.GetElfSymbols)
          brk := self.brk
          iSymbols := rcValid self.heap (aDefExports.getD []) ++
            rcInter self.heap (aDefExports.getD []) self.GetElfSymbols ++
            rcAdmitted o self.heap (aDefExports.getD []) self.GetElfSymbols
          iExports := self.iExports.map (fun e => e.addFiltered
            (rcRejected o self.heap (aDefExports.getD []) self.GetElfSymbols)) } = some s4 ∧
      s = finishExports { s4 with
        iSymbols := if rcAbsent self.heap (aDefExports.getD []) = [] then s4.iSymbols
          else listSort (olt s4.heap) s4.iSymbols } := by
  unfold ValidateDefExports at h
  simp only [splitDefExports_eq, List.nil_append, nameCompare_fst] at h
  by_cases hearly : (self.iExports.isNone && aDefExports.isNone) = true
  · simp only [hearly, if_true, Outcome.ok.injEq] at h
    simp only [Bool.and_eq_true, Option.isNone_iff_eq_none] at hearly
    obtain ⟨he, hd⟩ := hearly
    subst hd
    have hE : self.GetElfSymbols = [] := by simp [ElfFileSupplied.GetElfSymbols, he]
    refine ⟨⟨self.heap, self.brk, [], none⟩, Or.inl ?_, ?_, ?_⟩
    · simp [rcMissing, rcValid, listSort, sdiff_nil]
    · simp [rcCarried, rcAbsent, rcValid, rcInter, rcAdmitted, rcNew, rcTested, rcMatchedAbsent,
        rcMatchedValid, rcMissing, hE, listSort, sdiff_nil, sinter_nil, smatch_nil, annotate,
        markMissing, assignNew, absentExports, he]
    · rw [← h]
      simp [rcAbsent, finishExports, he]
  · simp only [hearly, Bool.false_eq_true, if_false] at h
    rw [ValidateDefExports_missing_eq] at h
    simp only at h
    have h' : (if ((rcMissing self.heap (aDefExports.getD []) self.GetElfSymbols).length ≠ 0 &&
          !o.Unfrozen) = true then
        Outcome.SymbolMissingFromElfError
          ((rcMissing self.heap (aDefExports.getD []) self.GetElfSymbols).map
            (fun p => (self.heap p).name))
          { heap := markMissing
              (annotate self.heap
                (rcMatchedValid self.heap (aDefExports.getD []) self.GetElfSymbols))
              (rcMissing self.heap (aDefExports.getD []) self.GetElfSymbols)
            brk := self.brk
            iSymbols := rcValid self.heap (aDefExports.getD [])
            iExports := self.iExports }
      else
        ValidateDefExports_absent o
          { heap := markMissing
              (annotate self.heap
                (rcMatchedValid self.heap (aDefExports.getD []) self.GetElfSymbols))
              (rcMissing self.heap (aDefExports.getD []) self.GetElfSymbols)
            brk := self.brk
            iSymbols := rcValid self.heap (aDefExports.getD [])
            iExports := self.iExports }
          (listSort (nlt self.heap) (rcValid self.heap (aDefExports.getD [])))
          (listSort (nlt self.heap) (rcAbsent self.heap (aDefExports.getD [])))
          (listSort (nlt self.heap) self.GetElfSymbols)
          (maxOrdinal self.heap (aDefExports.getD []) 0)) = Outcome.ok s := h
    clear h
    by_cases hm : ((rcMissing self.heap (aDefExports.getD []) self.GetElfSymbols).length ≠ 0 &&
        !o.Unfrozen) = true
    · rw [if_pos hm] at h'; cases h'
    · rw [if_neg hm, ValidateDefExports_absent_eq] at h'
      simp only [markMissing_nlt, annotate_nlt] at h'
      have h'' : ValidateDefExports_new o
          { heap := rcTested self.heap (aDefExports.getD []) self.GetElfSymbols
            brk := self.brk
            iSymbols := rcValid self.heap (aDefExports.getD []) ++
              rcInter self.heap (aDefExports.getD []) self.GetElfSymbols
            iExports := self.iExports }
          (listSort (nlt self.heap) (rcValid self.heap (aDefExports.getD [])))
          (listSort (nlt self.heap) (rcAbsent self.heap (aDefExports.getD [])))
          (listSort (nlt self.heap) self.GetElfSymbols)
          (maxOrdinal self.heap (aDefExports.getD []) 0) = Outcome.ok s := h'
      clear h'
      have hnt : nlt (rcTested self.heap (aDefExports.getD []) self.GetElfSymbols) =
          nlt self.heap := by
        unfold rcTested
        rw [annotate_nlt, markMissing_nlt, annotate_nlt]
      obtain ⟨s4, e4, e5⟩ := ValidateDefExports_new_ok o _ _ _ _ _ _ h''
      simp only [hnt] at e4 e5
      refine ⟨s4, ?_, e4, ?_⟩
      · simp only [Bool.and_eq_true, Bool.not_eq_true', decide_eq_true_eq, not_and,
          Bool.not_eq_false] at hm
        by_cases hl : rcMissing self.heap (aDefExports.getD []) self.GetElfSymbols = []
        · exact Or.inl hl
        · refine Or.inr (hm ?_)
          intro e
          exact hl (List.length_eq_zero.1 e)
      · rw [e5]
        simp only [listSort_eq_nil]

theorem initial_heap (D : List Symbol) (E : Option (List Symbol)) :
    (initial D E).heap = heap0 D E := rfl

theorem initial_brk (D : List Symbol) (E : Option (List Symbol)) :
    (initial D E).brk = D.length + (E.getD []).length := rfl

theorem initial_elf (D : List Symbol) (E : Option (List Symbol)) :
    (initial D E).GetElfSymbols = elfPtrs D E := by
  cases E with
  | none => rfl
  | some l => rfl

theorem reconcile_eq (o : Options) (D : Option (List Symbol)) (E : Option (List Symbol)) :
    reconcile o D E =
      ValidateDefExports o (initial (D.getD []) E) (D.map (fun l => List.range l.length)) := rfl

theorem defPtrs_eq (D : Option (List Symbol)) :
    (D.map (fun l => List.range l.length)).getD [] = defPtrs (D.getD []) := by
  cases D <;> rfl

theorem mem_defPtrs {D : List Symbol} {p : Nat} : p ∈ defPtrs D ↔ p < D.length := by
  simp [defPtrs]

theorem mem_elfPtrs {D : List Symbol} {E : Option (List Symbol)} {p : Nat} :
    p ∈ elfPtrs D E ↔ D.length ≤ p ∧ p < D.length + (E.getD []).length := by
  simp only [elfPtrs, List.mem_map, List.mem_range]
  constructor
  · rintro ⟨i, hi, rfl⟩; omega
  · intro h; exact ⟨p - D.length, by omega, by omega⟩

theorem elfPtrs_nodup (D : List Symbol) (E : Option (List Symbol)) : (elfPtrs D E).Nodup := by
  unfold elfPtrs
  exact (List.nodup_range _).map (fun a b h => by simpa using h)

theorem mem_pValid {D : List Symbol} {E : Option (List Symbol)} {p : Nat} :
    p ∈ pValid D E ↔ p < D.length ∧ (heap0 D E p).absent = false := by
  simp [pValid, rcValid, mem_defPtrs]

theorem mem_pAbsent {D : List Symbol} {E : Option (List Symbol)} {p : Nat} :
    p ∈ pAbsent D E ↔ p < D.length ∧ (heap0 D E p).absent = true := by
  simp [pAbsent, rcAbsent, mem_defPtrs]

theorem pMissing_sub {D : List Symbol} {E : Option (List Symbol)} {p : Nat}
    (h : p ∈ pMissing D E) : p ∈ pValid D E :=
  (listSort_perm _ _).subset ((sdiff_sublist _ _ _ _).subset h)

theorem pInter_sub {D : List Symbol} {E : Option (List Symbol)} {p : Nat}
    (h : p ∈ pInter D E) : p ∈ pAbsent D E :=
  (listSort_perm _ _).subset ((sinter_sublist _ _ _ _).subset h)

theorem pCarried_sub {D : List Symbol} {E : Option (List Symbol)} {p : Nat}
    (h : p ∈ pCarried D E) : p ∈ pAbsent D E :=
  (listSort_perm _ _).subset ((sdiff_sublist _ _ _ _).subset h)

theorem heap0_lt (D : List Symbol) (E : Option (List Symbol)) (p : Nat) (hp : p < D.length) :
    heap0 D E p = D.get ⟨p, hp⟩ := by
  simp [heap0, List.getD_eq_getElem?_getD, List.getElem?_append_left hp, List.getElem?_eq_getElem hp]

theorem heap0_ge (D : List Symbol) (l : List Symbol) (i : Nat) (hi : i < l.length) :
    heap0 D (some l) (D.length + i) = l.get ⟨i, hi⟩ := by
  simp [heap0, List.getD_eq_getElem?_getD, List.getElem?_append_right, List.getElem?_eq_getElem hi]

theorem exists_ptr_of_mem {D : List Symbol} (E : Option (List Symbol)) {d : Symbol} (hd : d ∈ D) :
    ∃ p, p < D.length ∧ heap0 D E p = d := by
  obtain ⟨⟨p, hp⟩, e⟩ := List.mem_iff_get.1 hd
  exact ⟨p, hp, (heap0_lt D E p hp).trans e⟩

theorem mem_D_of_lt (D : List Symbol) (E : Option (List Symbol)) (p : Nat) (hp : p < D.length) :
    heap0 D E p ∈ D := by
  rw [heap0_lt D E p hp]; exact List.get_mem _ _ _

theorem pInter_pCarried_perm (D : List Symbol) (E : Option (List Symbol)) :
    (pInter D E ++ pCarried D E).Perm (pAbsent D E) :=
  (sinter_sdiff_perm _ _ _ _ (le_refl _)).trans (listSort_perm _ _)

theorem pMatchedValid_mem {D : List Symbol} {E : Option (List Symbol)} {pr : Nat × Nat}
    (h : pr ∈ pMatchedValid D E) :
    pr.1 ∈ pValid D E ∧ pr.2 ∈ elfPtrs D E ∧ (heap0 D E pr.1).name = (heap0 D E pr.2).name := by
  obtain ⟨h1, h2, h3, h4⟩ := smatch_mem _ _ _ _ pr h
  exact ⟨(listSort_perm _ _).subset h1, (listSort_perm _ _).subset h2, name_eq_of_nlt h3 h4⟩

theorem pMatchedAbsent_mem {D : List Symbol} {E : Option (List Symbol)} {pr : Nat × Nat}
    (h : pr ∈ pMatchedAbsent D E) :
    pr.1 ∈ pAbsent D E ∧ pr.2 ∈ elfPtrs D E ∧ (heap0 D E pr.1).name = (heap0 D E pr.2).name := by
  obtain ⟨h1, h2, h3, h4⟩ := smatch_mem _ _ _ _ pr h
  exact ⟨(listSort_perm _ _).subset h1, (listSort_perm _ _).subset h2, name_eq_of_nlt h3 h4⟩

theorem pMatchedValid_typed (D : List Symbol) (E : Option (List Symbol)) :
    ∀ pr ∈ pMatchedValid D E, pr.1 < D.length ∧ D.length ≤ pr.2 := fun _ h =>
  ⟨(mem_pValid.1 (pMatchedValid_mem h).1).1, (mem_elfPtrs.1 (pMatchedValid_mem h).2.1).1⟩

theorem pMatchedAbsent_typed (D : List Symbol) (E : Option (List Symbol)) :
    ∀ pr ∈ pMatchedAbsent D E, pr.1 < D.length ∧ D.length ≤ pr.2 := fun _ h =>
  ⟨(mem_pAbsent.1 (pMatchedAbsent_mem h).1).1, (mem_elfPtrs.1 (pMatchedAbsent_mem h).2.1).1⟩

/-- The ELF exports that case 2 pairs with an absent DEF record are those that
the intersection `{ELF_Symbols, Absent}` would give. -/
theorem pSkipped_eq (D : List Symbol) (E : Option (List Symbol)) :
    pSkipped D E = sinter (nlt (heap0 D E))
      ((listSort (nlt (heap0 D E)) (pAbsent D E)).length +
        (listSort (nlt (heap0 D E)) (elfPtrs D E)).length)
      (listSort (nlt (heap0 D E)) (elfPtrs D E)) (listSort (nlt (heap0 D E)) (pAbsent D E)) :=
  smatch_snd _ (nlt_asymm (heap0 D E)) _ _ _

theorem pSkipped_sub {D : List Symbol} {E : Option (List Symbol)} {p : Nat}
    (h : p ∈ pSkipped D E) : p ∈ elfPtrs D E := by
  rw [pSkipped_eq] at h
  exact (listSort_perm _ _).subset ((sinter_sublist _ _ _ _).subset h)

theorem pSkipped_nodup (D : List Symbol) (E : Option (List Symbol)) : (pSkipped D E).Nodup := by
  rw [pSkipped_eq]
  exact (sinter_sublist _ _ _ _).nodup ((listSort_perm _ _).nodup_iff.2 (elfPtrs_nodup D E))

theorem pMatchedAbsent_fst (D : List Symbol) (E : Option (List Symbol)) :
    (pMatchedAbsent D E).map Prod.fst = pInter D E :=
  smatch_fst _ _ _ _

/-- An ELF export of the difference of case 3 was in no pair of case 1. -/
theorem rcNew_not_matched {D : List Symbol} {E : Option (List Symbol)} {p : Nat}
    (h : p ∈ rcNew (heap0 D E) (defPtrs D) (elfPtrs D E)) :
    p ∉ (pMatchedValid D E).map Prod.snd := by
  have e : (pMatchedValid D E).map Prod.snd = sinter (nlt (heap0 D E))
      ((listSort (nlt (heap0 D E)) (elfPtrs D E)).length +
        (listSort (nlt (heap0 D E)) (pValid D E)).length)
      (listSort (nlt (heap0 D E)) (elfPtrs D E)) (listSort (nlt (heap0 D E)) (pValid D E)) := by
    rw [Nat.add_comm]
    exact smatch_snd _ (nlt_asymm (heap0 D E)) _ _ _
  rw [e]
  have hperm := sinter_sdiff_perm (nlt (heap0 D E)) _
    (listSort (nlt (heap0 D E)) (elfPtrs D E)) (listSort (nlt (heap0 D E)) (pValid D E))
    (le_refl _)
  have hnd := hperm.nodup_iff.2 ((listSort_perm _ _).nodup_iff.2 (elfPtrs_nodup D E))
  intro hx
  exact (List.nodup_append.1 hnd).2.2 hx h

theorem pTested_eq (D : List Symbol) (E : Option (List Symbol)) :
    pTested D E = annotate (markMissing (annotate (heap0 D E) (pMatchedValid D E)) (pMissing D E))
      (pMatchedAbsent D E) := rfl

theorem pTested_fields (D : List Symbol) (E : Option (List Symbol)) (p : Nat) :
    (pTested D E p).name = (heap0 D E p).name ∧ (pTested D E p).comment = (heap0 D E p).comment := by
  rw [pTested_eq]
  obtain ⟨x1, _, x3⟩ := annotate_fields (pMatchedAbsent D E)
    (markMissing (annotate (heap0 D E) (pMatchedValid D E)) (pMissing D E)) p
  obtain ⟨y1, _, y3⟩ := annotate_fields (pMatchedValid D E) (heap0 D E) p
  refine ⟨x1.trans ((markMissing_name _ _ p).trans y1), x3.trans ?_⟩
  rw [markMissing_eq]
  dsimp only
  split
  · exact y3
  · exact y3

/-- What the heap that case 3 reads keeps of a DEF record that is not missing. -/
theorem pTested_def {D : List Symbol} {E : Option (List Symbol)} {p : Nat} (hp : p < D.length)
    (hm : p ∉ pMissing D E) : Kept (heap0 D E p) (pTested D E p) := by
  rw [pTested_eq]
  refine Kept_trans (annotate_def D.length _ _ (pMatchedValid_typed D E) p hp)
    (Kept_trans (Kept_of_eq ?_) (annotate_def D.length _ _ (pMatchedAbsent_typed D E) p hp))
  rw [markMissing_eq]
  simp [hm]

/-- In the heap that case 3 reads, a missing DEF record has the status `Missing`
and is otherwise as it was. -/
theorem pTested_missing {D : List Symbol} {E : Option (List Symbol)} {p : Nat}
    (hp : p ∈ pMissing D E) :
    pTested D E p = { heap0 D E p with status := SymbolStatus.Missing } := by
  obtain ⟨hlt, hna⟩ := mem_pValid.1 (pMissing_sub hp)
  have e1 : annotate (heap0 D E) (pMatchedValid D E) p = heap0 D E p :=
    (annotate_def D.length _ _ (pMatchedValid_typed D E) p hlt).2.2.2.2.2 hna
  have e2 : markMissing (annotate (heap0 D E) (pMatchedValid D E)) (pMissing D E) p =
      { heap0 D E p with status := SymbolStatus.Missing } := by
    rw [markMissing_eq]; simp [hp, e1]
  rw [pTested_eq, (annotate_def D.length _ _ (pMatchedAbsent_typed D E) p hlt).2.2.2.2.2
    (by rw [e2]; exact hna), e2]

/-- In the heap that case 3 reads, an ELF export that case 2 paired with an
absent DEF record is absent. -/
theorem pTested_skipped {D : List Symbol} {E : Option (List Symbol)} {p : Nat}
    (hp : p ∈ pSkipped D E) : (pTested D E p).absent = true := by
  obtain ⟨pr, hpr, rfl⟩ := List.mem_map.1 hp
  obtain ⟨h1, _, h3⟩ := pMatchedAbsent_mem hpr
  obtain ⟨hlt, hab⟩ := mem_pAbsent.1 h1
  have hn : ∀ q ∈ pMatchedAbsent D E,
      (markMissing (annotate (heap0 D E) (pMatchedValid D E)) (pMissing D E) q.1).name =
      (markMissing (annotate (heap0 D E) (pMatchedValid D E)) (pMissing D E) q.2).name := by
    intro q hq
    rw [markMissing_name, markMissing_name, (annotate_fields _ _ _).1, (annotate_fields _ _ _).1]
    exact (pMatchedAbsent_mem hq).2.2
  rw [pTested_eq, annotate_elf_mem D.length _ _ (pMatchedAbsent_typed D E) (pSkipped_nodup D E) hn
    pr hpr]
  show (markMissing (annotate (heap0 D E) (pMatchedValid D E)) (pMissing D E) pr.1).absent = true
  rw [markMissing_absent,
    (annotate_def D.length _ _ (pMatchedValid_typed D E) pr.1 hlt).2.2.1]
  exact hab

theorem not_mem_pMissing_of_elf {D : List Symbol} {E : Option (List Symbol)} {p : Nat}
    (hp : D.length ≤ p) : p ∉ pMissing D E := fun hx => by
  have := (mem_pValid.1 (pMissing_sub hx)).1
  omega

theorem rcNew_sub {D : List Symbol} {E : Option (List Symbol)} {p : Nat}
    (h : p ∈ rcNew (heap0 D E) (defPtrs D) (elfPtrs D E)) : p ∈ elfPtrs D E :=
  (listSort_perm _ _).subset ((sdiff_sublist _ _ _ _).subset h)

/-- The heap that case 3 reads holds an ELF export of its difference as the
reader gave it, unless case 2 paired the export with an absent DEF record. -/
theorem pTested_new {D : List Symbol} {E : Option (List Symbol)} {p : Nat}
    (hp : p ∈ rcNew (heap0 D E) (defPtrs D) (elfPtrs D E)) (hs : p ∉ pSkipped D E) :
    pTested D E p = heap0 D E p := by
  have hge := (mem_elfPtrs.1 (rcNew_sub hp)).1
  rw [pTested_eq, annotate_elf_not_mem D.length _ _ (pMatchedAbsent_typed D E) p hge hs,
    markMissing_eq]
  simp only [not_mem_pMissing_of_elf hge, if_false]
  exact annotate_elf_not_mem D.length _ _ (pMatchedValid_typed D E) p hge (rcNew_not_matched hp)

theorem pTested_kindOK (D : List Symbol) (E : Option (List Symbol)) (k : KindOK (heap0 D E)) :
    KindOK (pTested D E) := by
  rw [pTested_eq]
  refine annotate_kindOK _ _ (fun q => ?_)
  rw [markMissing_name, markMissing_kind]
  exact annotate_kindOK _ _ k q

theorem admitted_absent {o : Options} {s : Symbol} (h : admitted o s = true) :
    s.absent = false := by
  simp only [admitted, Bool.and_eq_true, Bool.not_eq_true'] at h
  exact h.1

theorem rejected_absent {o : Options} {s : Symbol} (h : rejected o s = true) :
    s.absent = false := by
  simp only [rejected, Bool.and_eq_true, Bool.not_eq_true'] at h
  exact h.1

theorem mem_pAdmitted {o : Options} {D : List Symbol} {E : Option (List Symbol)} {p : Nat} :
    p ∈ pAdmitted o D E ↔
      p ∈ rcNew (heap0 D E) (defPtrs D) (elfPtrs D E) ∧ p ∉ pSkipped D E ∧
        admitted o (heap0 D E p) = true := by
  show p ∈ (rcNew (heap0 D E) (defPtrs D) (elfPtrs D E)).filter
    (fun p => admitted o (pTested D E p)) ↔ _
  rw [List.mem_filter]
  constructor
  · rintro ⟨h1, h2⟩
    have hs : p ∉ pSkipped D E := fun hx => by
      have h3 := admitted_absent h2
      rw [pTested_skipped hx] at h3; cases h3
    rw [pTested_new h1 hs] at h2
    exact ⟨h1, hs, h2⟩
  · rintro ⟨h1, hs, h2⟩
    exact ⟨h1, by rw [pTested_new h1 hs]; exact h2⟩

theorem mem_pRejected {o : Options} {D : List Symbol} {E : Option (List Symbol)} {p : Nat} :
    p ∈ pRejected o D E ↔
      p ∈ rcNew (heap0 D E) (defPtrs D) (elfPtrs D E) ∧ p ∉ pSkipped D E ∧
        rejected o (heap0 D E p) = true := by
  show p ∈ (rcNew (heap0 D E) (defPtrs D) (elfPtrs D E)).filter
    (fun p => rejected o (pTested D E p)) ↔ _
  rw [List.mem_filter]
  constructor
  · rintro ⟨h1, h2⟩
    have hs : p ∉ pSkipped D E := fun hx => by
      have h3 := rejected_absent h2
      rw [pTested_skipped hx] at h3; cases h3
    rw [pTested_new h1 hs] at h2
    exact ⟨h1, hs, h2⟩
  · rintro ⟨h1, hs, h2⟩
    exact ⟨h1, by rw [pTested_new h1 hs]; exact h2⟩

theorem pAdmitted_sub {o : Options} {D : List Symbol} {E : Option (List Symbol)} {p : Nat}
    (h : p ∈ pAdmitted o D E) : p ∈ elfPtrs D E ∧ admitted o (heap0 D E p) = true :=
  ⟨rcNew_sub (mem_pAdmitted.1 h).1, (mem_pAdmitted.1 h).2.2⟩

theorem pRejected_sub {o : Options} {D : List Symbol} {E : Option (List Symbol)} {p : Nat}
    (h : p ∈ pRejected o D E) : p ∈ elfPtrs D E ∧ rejected o (heap0 D E p) = true :=
  ⟨rcNew_sub (mem_pRejected.1 h).1, (mem_pRejected.1 h).2.2⟩

theorem pAdmitted_nodup (o : Options) (D : List Symbol) (E : Option (List Symbol)) :
    (pAdmitted o D E).Nodup := by
  unfold pAdmitted rcAdmitted rcNew
  exact ((sdiff_sublist _ _ _ _).nodup
    ((listSort_perm _ _).nodup_iff.2 (elfPtrs_nodup D E))).filter _

theorem ReconOk_not_admitted {o : Options} {D : List Symbol} {E : Option (List Symbol)}
    {p : Nat} (hp : p < D.length) : p ∉ pAdmitted o D E := fun hx => by
  have := (mem_elfPtrs.1 (pAdmitted_sub hx).1).1
  omega

theorem pFinal_eq (o : Options) (D : List Symbol) (E : Option (List Symbol)) :
    pFinal o D E =
      annotate (assignNew (pAdmitted o D E) (maxOrd D E) (pTested D E)) (pMatchedAbsent D E) := rfl

/-- What the heap after case 4 keeps of a DEF record that is not missing. -/
theorem pFinal_def {o : Options} {D : List Symbol} {E : Option (List Symbol)} {p : Nat}
    (hp : p < D.length) (hm : p ∉ pMissing D E) : Kept (heap0 D E p) (pFinal o D E p) := by
  rw [pFinal_eq]
  refine Kept_trans (pTested_def hp hm)
    (Kept_trans (Kept_of_eq ?_) (annotate_def D.length _ _ (pMatchedAbsent_typed D E) p hp))
  exact assignNew_not_mem _ _ _ _ (ReconOk_not_admitted hp)

theorem pFinal_missing {o : Options} {D : List Symbol} {E : Option (List Symbol)} {p : Nat}
    (hp : p ∈ pMissing D E) :
    pFinal o D E p = { heap0 D E p with status := SymbolStatus.Missing } := by
  obtain ⟨hlt, hna⟩ := mem_pValid.1 (pMissing_sub hp)
  have e3 : assignNew (pAdmitted o D E) (maxOrd D E) (pTested D E) p =
      { heap0 D E p with status := SymbolStatus.Missing } := by
    rw [assignNew_not_mem _ _ _ _ (ReconOk_not_admitted hlt), pTested_missing hp]
  rw [pFinal_eq, (annotate_def D.length _ _ (pMatchedAbsent_typed D E) p hlt).2.2.2.2.2
    (by rw [e3]; exact hna), e3]

theorem pFinal_admitted {o : Options} {D : List Symbol} {E : Option (List Symbol)}
    (i : Nat) (hi : i < (pAdmitted o D E).length) :
    pFinal o D E ((pAdmitted o D E).get ⟨i, hi⟩) =
      { heap0 D E ((pAdmitted o D E).get ⟨i, hi⟩) with
        ordinal := (maxOrd D E + i + 1) % 2 ^ 32
        status := SymbolStatus.New } := by
  have hp : (pAdmitted o D E).get ⟨i, hi⟩ ∈ pAdmitted o D E := List.get_mem _ _ _
  have e0 := assignNew_get (pAdmitted o D E) (maxOrd D E) (pTested D E) (pAdmitted_nodup o D E) i hi
  generalize (pAdmitted o D E).get ⟨i, hi⟩ = p at hp e0
  obtain ⟨h1, hs, _⟩ := mem_pAdmitted.1 hp
  have hge := (mem_elfPtrs.1 (rcNew_sub h1)).1
  rw [pFinal_eq, annotate_elf_not_mem D.length _ _ (pMatchedAbsent_typed D E) p hge hs, e0,
    pTested_new h1 hs]

theorem pFinal_rejected {o : Options} {D : List Symbol} {E : Option (List Symbol)} {p : Nat}
    (hp : p ∈ pRejected o D E) : pFinal o D E p = heap0 D E p := by
  obtain ⟨h1, hs, hr⟩ := mem_pRejected.1 hp
  have hge := (mem_elfPtrs.1 (rcNew_sub h1)).1
  have hna : p ∉ pAdmitted o D E := fun hx => by
    rw [admitted_rejected o _ (mem_pAdmitted.1 hx).2.2] at hr; cases hr
  rw [pFinal_eq, annotate_elf_not_mem D.length _ _ (pMatchedAbsent_typed D E) p hge hs,
    assignNew_not_mem _ _ _ _ hna, pTested_new h1 hs]

/-- After case 4 an ELF export that case 2 paired with an absent DEF record is
absent, with its name and with the ordinal of a DEF record of the intersection
that has this name. -/
theorem pFinal_skipped {o : Options} {D : List Symbol} {E : Option (List Symbol)} {p : Nat}
    (hp : p ∈ pSkipped D E) :
    (pFinal o D E p).absent = true ∧ (pFinal o D E p).name = (heap0 D E p).name ∧
      ∃ a ∈ pInter D E, (heap0 D E a).name = (heap0 D E p).name ∧
        (pFinal o D E p).ordinal = (heap0 D E a).ordinal := by
  obtain ⟨pr, hpr, rfl⟩ := List.mem_map.1 hp
  obtain ⟨h1, h2, h3⟩ := pMatchedAbsent_mem hpr
  obtain ⟨hlt, hab⟩ := mem_pAbsent.1 h1
  have hname : ∀ q, (assignNew (pAdmitted o D E) (maxOrd D E) (pTested D E) q).name =
      (heap0 D E q).name := fun q =>
    ((assignNew_fields _ _ _ q).1).trans (pTested_fields D E q).1
  have hn : ∀ q ∈ pMatchedAbsent D E,
      (assignNew (pAdmitted o D E) (maxOrd D E) (pTested D E) q.1).name =
      (assignNew (pAdmitted o D E) (maxOrd D E) (pTested D E) q.2).name := by
    intro q hq
    rw [hname, hname]
    exact (pMatchedAbsent_mem hq).2.2
  have hm : pr.1 ∉ pMissing D E := fun hx => by
    have := (mem_pValid.1 (pMissing_sub hx)).2
    rw [hab] at this; cases this
  have e1 : assignNew (pAdmitted o D E) (maxOrd D E) (pTested D E) pr.1 = pTested D E pr.1 :=
    assignNew_not_mem _ _ _ _ (ReconOk_not_admitted hlt)
  obtain ⟨_, k2, k3, _⟩ := pTested_def hlt hm
  rw [pFinal_eq, annotate_elf_mem D.length _ _ (pMatchedAbsent_typed D E) (pSkipped_nodup D E) hn
    pr hpr, e1]
  refine ⟨k3.trans hab, hname pr.2, pr.1, ?_, h3, k2⟩
  rw [← pMatchedAbsent_fst]
  exact List.mem_map_of_mem _ hpr

/-- After case 4 an ELF export of the difference of case 3 that case 2 did not pair
has the absent flag that the reader gave it. -/
theorem pFinal_absent {o : Options} {D : List Symbol} {E : Option (List Symbol)} {p : Nat}
    (hp : p ∈ rcNew (heap0 D E) (defPtrs D) (elfPtrs D E)) (hs : p ∉ pSkipped D E) :
    (pFinal o D E p).absent = (heap0 D E p).absent := by
  have hge := (mem_elfPtrs.1 (rcNew_sub hp)).1
  rw [pFinal_eq, annotate_elf_not_mem D.length _ _ (pMatchedAbsent_typed D E) p hge hs,
    (assignNew_fields _ _ _ p).2.1, pTested_new hp hs]

theorem pFinal_kindOK (o : Options) (D : List Symbol) (E : Option (List Symbol))
    (k : KindOK (heap0 D E)) : KindOK (pFinal o D E) := by
  rw [pFinal_eq]
  refine annotate_kindOK _ _ (fun q => ?_)
  obtain ⟨n1, _, n3, _, _⟩ := assignNew_fields (pAdmitted o D E) (maxOrd D E) (pTested D E) q
  rw [n1, n3]
  exact pTested_kindOK D E k q

theorem reconcile_ok (o : Options) (D : Option (List Symbol)) (E : Option (List Symbol))
    (s : ElfFileSupplied) (h : reconcile o D E = Outcome.ok s) : ReconOk o (D.getD []) E s := by
  rw [reconcile_eq] at h
  obtain ⟨s4, hfroz, ha, hs⟩ := ValidateDefExports_ok o _ _ _ h
  simp only [defPtrs_eq, initial_heap, initial_elf, initial_brk] at hfroz ha hs
  clear h
  generalize D.getD [] = Dl at *
  have hfroz : pMissing Dl E = [] ∨ o.Unfrozen = true := hfroz
  have ha : absentExports (pCarried Dl E)
      { heap := pFinal o Dl E
        brk := Dl.length + (E.getD []).length
        iSymbols := pValid Dl E ++ pInter Dl E ++ pAdmitted o Dl E
        iExports := (initial Dl E).iExports.map (fun e => e.addFiltered (pRejected o Dl E)) } =
      some s4 := ha
  have hs : s = finishExports { s4 with
      iSymbols := if pAbsent Dl E = [] then s4.iSymbols
        else listSort (olt s4.heap) s4.iSymbols } := hs
  have hcs : ∀ p ∈ pCarried Dl E, p < Dl.length + (E.getD []).length := by
    intro p hp
    have := (mem_pAbsent.1 (pCarried_sub hp)).1
    omega
  obtain ⟨_, a2, a3, a4, _, a6⟩ := absentExports_some _ _ _ ha hcs
  simp only at a2 a3 a4 a6
  obtain ⟨g1, g2, _⟩ := finishExports_fields { s4 with
    iSymbols := if pAbsent Dl E = [] then s4.iSymbols else listSort (olt s4.heap) s4.iSymbols }
  rw [← hs] at g1 g2
  simp only at g1 g2
  have hexp : s.iExports = (initial Dl E).iExports.map (fun e =>
      { iElfExports := (e.iElfExports ++ pFresh Dl E).filter
          (fun p => !((pRejected o Dl E).contains p))
        iFilteredExports := pRejected o Dl E
        iExportsFilteredP := !(pRejected o Dl E).isEmpty }) := by
    have a6' : s4.iExports = ((initial Dl E).iExports.map
        (fun e => e.addFiltered (pRejected o Dl E))).map
        (fun e => { e with iElfExports := e.iElfExports ++ pFresh Dl E }) := a6
    rw [hs]
    unfold finishExports
    simp only [a6']
    cases E with
    | none => rfl
    | some l =>
      simp only [initial, Option.map_some', ElfExports.addFiltered, Bool.false_or,
        List.nil_append]
      cases hrej : pRejected o Dl (some l) with
      | nil => simp
      | cons x xs => simp [ElfExports.FilterExports]
  have hlow : ∀ p, p < Dl.length + (E.getD []).length → s.heap p = pFinal o Dl E p := by
    intro p hp
    rw [g1, a3 p hp]
  refine ⟨hfroz, ?_, ?_, ?_, ?_, ?_, ?_, ?_, ?_, ?_, hexp⟩
  · rw [g2, g1, a2]
    rfl
  · intro p hp hpm
    rw [hlow p (by omega)]
    exact pFinal_def hp hpm
  · intro p hp
    have := (mem_pValid.1 (pMissing_sub hp)).1
    rw [hlow p (by omega)]
    exact pFinal_missing hp
  · intro i hi
    have := (mem_elfPtrs.1 (pAdmitted_sub (List.get_mem (pAdmitted o Dl E) i hi)).1).2
    rw [hlow _ this]
    exact pFinal_admitted i hi
  · intro p hp
    rw [hlow p (mem_elfPtrs.1 (pSkipped_sub hp)).2]
    exact pFinal_skipped hp
  · intro p hp
    rw [hlow p (mem_elfPtrs.1 (pRejected_sub hp).1).2]
    exact pFinal_rejected hp
  · intro p hp hs
    rw [hlow p (mem_elfPtrs.1 (rcNew_sub hp)).2]
    exact pFinal_absent hp hs
  · show List.map s.heap (List.map (fun i => Dl.length + (E.getD []).length + i)
      (List.range (pCarried Dl E).length)) = _
    rw [List.map_map, g1]
    refine Eq.trans a4 ?_
    apply List.map_congr_left
    intro p hp
    rw [a3 p (hcs p hp)]
  · intro k p hp
    rw [hlow p hp]
    exact pFinal_kindOK o Dl E k p

theorem ReconOk_perm {o : Options} {D : List Symbol} {E : Option (List Symbol)}
    {s : ElfFileSupplied} (r : ReconOk o D E s) : s.iSymbols.Perm (pSymbols o D E) := by
  rw [r.iSymbols]
  split
  · exact List.Perm.refl _
  · exact listSort_perm _ _

theorem ReconOk_mem_O {o : Options} {D : List Symbol} {E : Option (List Symbol)}
    {s : ElfFileSupplied} (r : ReconOk o D E s) {p : Nat} (hp : p ∈ pSymbols o D E) :
    s.heap p ∈ s.O :=
  List.mem_map_of_mem _ ((ReconOk_perm r).symm.subset hp)

/-- Every DEF record is found in `iSymbols` after a successful call, with its
name, ordinal, absent flag and comment. -/
theorem def_represented (o : Options) (D : Option (List Symbol)) (E : Option (List Symbol))
    (s : ElfFileSupplied) (h : reconcile o D E = Outcome.ok s) :
    ∀ d ∈ D.getD [], ∃ x ∈ s.O, x.name = d.name ∧ x.ordinal = d.ordinal ∧
      x.absent = d.absent ∧ x.comment = d.comment := by
  have r := reconcile_ok o D E s h
  generalize D.getD [] = Dl at r
  intro d hd
  obtain ⟨p, hp, rfl⟩ := exists_ptr_of_mem E hd
  cases hab : (heap0 Dl E p).absent
  · -- a valid DEF symbol stays in `iSymbols`
    have hv : p ∈ pValid Dl E := mem_pValid.2 ⟨hp, hab⟩
    refine ⟨s.heap p, ReconOk_mem_O r (by simp [pSymbols, hv]), ?_⟩
    by_cases hm : p ∈ pMissing Dl E
    · rw [r.missing p hm]; simp [hab]
    · obtain ⟨k1, k2, k3, _, k5, _⟩ := r.low p hp hm
      exact ⟨k1, k2, k3.trans hab, k5⟩
  · -- an absent DEF symbol is in the intersection or is copied
    have hm : p ∉ pMissing Dl E := fun hx => by
      have := (mem_pValid.1 (pMissing_sub hx)).2
      rw [hab] at this; cases this
    obtain ⟨k1, k2, k3, _, k5, _⟩ := r.low p hp hm
    have : p ∈ pInter Dl E ++ pCarried Dl E :=
      (pInter_pCarried_perm Dl E).symm.subset (mem_pAbsent.2 ⟨hp, hab⟩)
    rcases List.mem_append.1 this with hi | hc
    · exact ⟨s.heap p, ReconOk_mem_O r (by simp [pSymbols, hi]), k1, k2, k3.trans hab, k5⟩
    · have hx : (s.heap p).copyWith SymbolType.SymbolTypeCode true ∈
          (pCarried Dl E).map (fun p => (s.heap p).copyWith SymbolType.SymbolTypeCode true) :=
        List.mem_map_of_mem _ hc
      rw [← r.fresh] at hx
      obtain ⟨q, hq, e⟩ := List.mem_map.1 hx
      refine ⟨s.heap q, ReconOk_mem_O r (by simp [pSymbols, hq]), ?_⟩
      rw [e]
      exact ⟨k1, k2, rfl, k5⟩

theorem strncmp_eq_zero_iff : ∀ (n : Nat) (a b : List Char),
    strncmp a b n = 0 ↔ a.take n = b.take n := by
  intro n
  induction n with
  | zero => intro a b; simp [strncmp]
  | succ n ih =>
    intro a b
    cases a with
    | nil => cases b <;> simp [strncmp]
    | cons x xs =>
      cases b with
      | nil => simp [strncmp]
      | cons y ys =>
        simp only [strncmp, List.take_succ_cons, List.cons.injEq]
        by_cases hxy : x = y
        · simp [hxy, ih]
        · simp only [hxy, if_false, false_and, iff_false]
          split <;> simp

theorem strncmp_beq (n : Nat) (a b : List Char) :
    (strncmp a b n == 0) = decide (a.take n = b.take n) := by
  by_cases h : a.take n = b.take n
  · simp [h, (strncmp_eq_zero_iff n a b).2 h]
  · have : strncmp a b n ≠ 0 := fun e => h ((strncmp_eq_zero_iff n a b).1 e)
    simp [h, this]

theorem SymbolTypeF_eq_data (aName : List Char) :
    SymbolTypeF aName = SymbolType.SymbolTypeData ↔
      (aName.take 4 = "_ZTV".toList ∨ aName.take 4 = "_ZTI".toList ∨
        aName.take 4 = "_ZTS".toList) := by
  unfold SymbolTypeF
  have e : strlen "_ZTV".toList = 4 := rfl
  have t1 : List.take 4 "_ZTV".toList = "_ZTV".toList := rfl
  have t2 : List.take 4 "_ZTI".toList = "_ZTI".toList := rfl
  have t3 : List.take 4 "_ZTS".toList = "_ZTS".toList := rfl
  simp only [e, strncmp_beq, t1, t2, t3]
  clear e t1 t2 t3
  generalize "_ZTV".toList = v
  generalize "_ZTI".toList = i
  generalize "_ZTS".toList = t
  by_cases h1 : List.take 4 aName = v
  · simp [h1]
  · by_cases h2 : List.take 4 aName = i
    · simp [h2]
    · by_cases h3 : List.take 4 aName = t
      · simp [h3]
      · simp [h1, h2, h3]

theorem heap0_kindOK (D : List Symbol) (E : Option (List Symbol))
    (hk : ∀ x ∈ D ++ E.getD [], x.kind = SymbolTypeF x.name) : KindOK (heap0 D E) := by
  intro p
  unfold heap0
  rw [List.getD_eq_getElem?_getD]
  cases hp : (D ++ E.getD [])[p]? with
  | none => simp only [Option.getD_none]; decide
  | some x =>
    simp only [Option.getD_some]
    exact hk x (List.getElem?_mem hp)

theorem not_missing_of_absent {D : List Symbol} {E : Option (List Symbol)} {p : Nat}
    (h : (heap0 D E p).absent = true) : p ∉ pMissing D E := fun hx => by
  have := (mem_pValid.1 (pMissing_sub hx)).2
  rw [h] at this; cases this

/-- The entries of `iSymbols` at the fresh addresses are the copies of case 4:
code symbols, absent, with the name and the ordinal of an absent DEF record. -/
theorem fresh_entry (o : Options) (D : List Symbol) (E : Option (List Symbol))
    (s : ElfFileSupplied) (r : ReconOk o D E s) (q : Nat) (hq : q ∈ pFresh D E) :
    (s.heap q).kind = SymbolType.SymbolTypeCode ∧ (s.heap q).absent = true ∧
      ∃ d ∈ D, d.absent = true ∧ d.name = (s.heap q).name ∧ d.ordinal = (s.heap q).ordinal := by
  have hx : s.heap q ∈ (pFresh D E).map s.heap := List.mem_map_of_mem _ hq
  rw [r.fresh] at hx
  obtain ⟨p, hp, e⟩ := List.mem_map.1 hx
  obtain ⟨hlt, hab⟩ := mem_pAbsent.1 (pCarried_sub hp)
  obtain ⟨k1, k2, _, _, _, _⟩ := r.low p hlt (not_missing_of_absent hab)
  rw [← e]
  exact ⟨rfl, rfl, heap0 D E p, mem_D_of_lt D E p hlt, hab, k1.symm, k2.symm⟩

theorem lt_of_mem_pSymbols {o : Options} {D : List Symbol} {E : Option (List Symbol)} {p : Nat}
    (hp : p ∈ pSymbols o D E) : p < D.length + (E.getD []).length ∨ p ∈ pFresh D E := by
  simp only [pSymbols, List.mem_append] at hp
  rcases hp with ((hv | hi) | ha) | hf
  · left; have := (mem_pValid.1 hv).1; omega
  · left; have := (mem_pAbsent.1 (pInter_sub hi)).1; omega
  · left; exact (mem_elfPtrs.1 (pAdmitted_sub ha).1).2
  · right; exact hf

theorem map_heap0_defPtrs (D : List Symbol) (E : Option (List Symbol)) :
    (defPtrs D).map (heap0 D E) = D := by
  apply List.ext_getElem
  · simp [defPtrs]
  · intro i h1 h2
    simp only [defPtrs, List.getElem_map, List.getElem_range]
    exact heap0_lt D E i h2

theorem maxOrdinal_eq (h : Heap) : ∀ (L : List Nat) (m : Nat),
    maxOrdinal h L m = max m ((L.map (fun p => (h p).ordinal)).foldr max 0) := by
  intro L
  induction L with
  | nil => intro m; simp [maxOrdinal]
  | cons x xs ih =>
    intro m
    simp only [maxOrdinal, ih, List.map_cons, List.foldr_cons]
    split <;> omega

theorem maxOrd_eq (D : List Symbol) (E : Option (List Symbol)) :
    maxOrd D E = maxDefOrdinal D := by
  unfold maxOrd maxDefOrdinal
  rw [maxOrdinal_eq, ← map_heap0_defPtrs D E, List.map_map]
  simp only [map_heap0_defPtrs]
  exact Nat.max_eq_right (Nat.zero_le _)

theorem le_foldr_max : ∀ (l : List Nat) (x : Nat), x ∈ l → x ≤ l.foldr max 0 := by
  intro l
  induction l with
  | nil => intro x hx; simp at hx
  | cons a l ih =>
    intro x hx
    simp only [List.foldr_cons]
    rcases List.mem_cons.1 hx with rfl | hx
    · exact Nat.le_max_left _ _
    · exact le_trans (ih x hx) (Nat.le_max_right _ _)

theorem le_maxDefOrdinal {D : List Symbol} {d : Symbol} (hd : d ∈ D) :
    d.ordinal ≤ maxDefOrdinal D :=
  le_foldr_max _ _ (List.mem_map_of_mem _ hd)

theorem pValid_pAbsent_perm (D : List Symbol) (E : Option (List Symbol)) :
    (pValid D E ++ pAbsent D E).Perm (defPtrs D) := by
  unfold pValid pAbsent rcValid rcAbsent
  have := List.filter_append_perm (fun x => (heap0 D E x).absent) (defPtrs D)
  refine (List.perm_append_comm).trans ?_
  simpa using this

/-- The ordinal of an object below the fresh addresses that case 3 did not
touch is the one it had. -/
theorem ordinal_low {o : Options} {D : List Symbol} {E : Option (List Symbol)}
    {s : ElfFileSupplied} (r : ReconOk o D E s) {p : Nat} (hp : p < D.length) :
    (s.heap p).ordinal = (heap0 D E p).ordinal ∧ (s.heap p).name = (heap0 D E p).name := by
  by_cases hm : p ∈ pMissing D E
  · rw [r.missing p hm]; exact ⟨rfl, rfl⟩
  · obtain ⟨k1, k2, _⟩ := r.low p hp hm
    exact ⟨k2, k1⟩

theorem map_ordinal_low {o : Options} {D : List Symbol} {E : Option (List Symbol)}
    {s : ElfFileSupplied} (r : ReconOk o D E s) (l : List Nat) (hl : ∀ p ∈ l, p < D.length) :
    l.map (fun p => (s.heap p).ordinal) = l.map (fun p => (heap0 D E p).ordinal) :=
  List.map_congr_left (fun p hp => (ordinal_low r (hl p hp)).1)

theorem map_ordinal_admitted {o : Options} {D : List Symbol} {E : Option (List Symbol)}
    {s : ElfFileSupplied} (r : ReconOk o D E s) :
    (pAdmitted o D E).map (fun p => (s.heap p).ordinal) =
      newOrdinals (maxDefOrdinal D) (pAdmitted o D E).length := by
  apply List.ext_getElem
  · simp [newOrdinals]
  · intro i h1 h2
    have hi : i < (pAdmitted o D E).length := by simpa using h1
    have := r.admitted i hi
    simp only [List.get_eq_getElem] at this
    simp only [List.getElem_map, this, newOrdinals, List.getElem_range, maxOrd_eq]

theorem map_ordinal_fresh {o : Options} {D : List Symbol} {E : Option (List Symbol)}
    {s : ElfFileSupplied} (r : ReconOk o D E s) :
    (pFresh D E).map (fun p => (s.heap p).ordinal) =
      (pCarried D E).map (fun p => (heap0 D E p).ordinal) := by
  have : (pFresh D E).map (fun p => (s.heap p).ordinal) =
      ((pFresh D E).map s.heap).map (fun x => x.ordinal) := by rw [List.map_map]; rfl
  rw [this, r.fresh, List.map_map]
  apply List.map_congr_left
  intro p hp
  exact (ordinal_low r (mem_pAbsent.1 (pCarried_sub hp)).1).1

/-- The ordinals of the output list: those of the DEF records and those that
case 3 gave out. -/
theorem ordinal_census {o : Options} {D : List Symbol} {E : Option (List Symbol)}
    {s : ElfFileSupplied} (r : ReconOk o D E s) :
    (s.O.map (fun x => x.ordinal)).Perm
      (D.map (fun d => d.ordinal) ++ newOrdinals (maxDefOrdinal D) (pAdmitted o D E).length) := by
  have e1 : s.O.map (fun x => x.ordinal) = s.iSymbols.map (fun p => (s.heap p).ordinal) := by
    simp [ElfFileSupplied.O, ElfFileSupplied.deref, List.map_map]
  rw [e1]
  refine ((ReconOk_perm r).map _).trans ?_
  simp only [pSymbols, List.map_append]
  rw [map_ordinal_admitted r, map_ordinal_fresh r,
    map_ordinal_low r (pValid D E) (fun p hp => (mem_pValid.1 hp).1),
    map_ordinal_low r (pInter D E) (fun p hp => (mem_pAbsent.1 (pInter_sub hp)).1)]
  have hD : D.map (fun d => d.ordinal) =
      (defPtrs D).map (fun p => (heap0 D E p).ordinal) := by
    conv_lhs => rw [← map_heap0_defPtrs D E]
    rw [List.map_map]; rfl
  rw [hD]
  have hp : (pValid D E ++ (pInter D E ++ pCarried D E)).Perm (defPtrs D) :=
    ((pInter_pCarried_perm D E).append_left _).trans (pValid_pAbsent_perm D E)
  have hp' := hp.map (fun p => (heap0 D E p).ordinal)
  simp only [List.map_append] at hp'
  refine List.Perm.trans ?_ (hp'.append_right _)
  simp only [List.append_assoc]
  refine List.Perm.append_left _ (List.Perm.append_left _ ?_)
  exact List.perm_append_comm

theorem pAdmitted_length_le (o : Options) (D : List Symbol) (E : Option (List Symbol)) :
    (pAdmitted o D E).length ≤ (E.getD []).length := by
  have h1 : (pAdmitted o D E).length ≤ (rcNew (heap0 D E) (defPtrs D) (elfPtrs D E)).length :=
    List.length_filter_le _ _
  have h2 : (rcNew (heap0 D E) (defPtrs D) (elfPtrs D E)).length ≤
      (listSort (nlt (heap0 D E)) (elfPtrs D E)).length := (sdiff_sublist _ _ _ _).length_le
  have h3 := (listSort_perm (nlt (heap0 D E)) (elfPtrs D E)).length_eq
  have h4 : (elfPtrs D E).length = (E.getD []).length := by simp [elfPtrs]
  omega

theorem newOrdinals_eq (M k : Nat) (h : M + k < 2 ^ 32) :
    newOrdinals M k = (List.range k).map (fun i => M + i + 1) := by
  unfold newOrdinals
  apply List.map_congr_left
  intro i hi
  have := List.mem_range.1 hi
  exact Nat.mod_eq_of_lt (by omega)

theorem mem_newOrdinals {M k x : Nat} (h : M + k < 2 ^ 32) (hx : x ∈ newOrdinals M k) :
    M < x := by
  rw [newOrdinals_eq M k h] at hx
  obtain ⟨i, _, rfl⟩ := List.mem_map.1 hx
  omega

theorem newOrdinals_sorted (M k : Nat) (h : M + k < 2 ^ 32) :
    (newOrdinals M k).Pairwise (· < ·) := by
  rw [newOrdinals_eq M k h, List.pairwise_map]
  exact (List.pairwise_lt_range k).imp (fun h => by omega)

theorem olt_iff (h : Heap) (p q : Nat) : olt h p q = true ↔ (h p).ordinal < (h q).ordinal := by
  simp [olt]

theorem O_ordinals (s : ElfFileSupplied) :
    s.O.map (fun x => x.ordinal) = s.iSymbols.map (fun p => (s.heap p).ordinal) := by
  simp [ElfFileSupplied.O, ElfFileSupplied.deref, List.map_map]

theorem pAbsent_ne_nil {D : List Symbol} {E : Option (List Symbol)} {d : Symbol}
    (hd : d ∈ D) (hab : d.absent = true) : pAbsent D E ≠ [] := by
  obtain ⟨p, hp, rfl⟩ := exists_ptr_of_mem E hd
  exact List.ne_nil_of_mem (mem_pAbsent.2 ⟨hp, hab⟩)

theorem pValid_eq_defPtrs {D : List Symbol} {E : Option (List Symbol)}
    (h : ∀ d ∈ D, d.absent = false) : pValid D E = defPtrs D := by
  unfold pValid rcValid
  apply List.filter_eq_self.2
  intro p hp
  have := h _ (mem_D_of_lt D E p (mem_defPtrs.1 hp))
  simp [this]

theorem pAbsent_eq_nil {D : List Symbol} {E : Option (List Symbol)}
    (h : ∀ d ∈ D, d.absent = false) : pAbsent D E = [] := by
  unfold pAbsent rcAbsent
  apply List.filter_eq_nil_iff.2
  intro p hp
  have := h _ (mem_D_of_lt D E p (mem_defPtrs.1 hp))
  simp [this]

theorem pInter_pCarried_nil {D : List Symbol} {E : Option (List Symbol)}
    (h : pAbsent D E = []) : pInter D E = [] ∧ pCarried D E = [] := by
  have := (pInter_pCarried_perm D E).length_eq
  rw [h] at this
  simp only [List.length_append, List.length_nil] at this
  exact ⟨List.length_eq_zero.1 (by omega), List.length_eq_zero.1 (by omega)⟩

theorem newExports_unfrozen (o : Options) (b : Bool) : ∀ (L : List Nat) (self : ElfFileSupplied)
    (m : Nat), newExports { o with Unfrozen := b } L self m = newExports o L self m := by
  intro L
  induction L with
  | nil => intro self m; rfl
  | cons p ps ih =>
    intro self m
    rw [newExports_cons, newExports_cons]
    simp only [ih]
    rfl

theorem ValidateDefExports_new_unfrozen (o : Options) (b : Bool) (self : ElfFileSupplied)
    (V A El : List Nat) (M : Nat) :
    ValidateDefExports_new { o with Unfrozen := b } self V A El M =
      ValidateDefExports_new o self V A El M := by
  unfold ValidateDefExports_new
  simp only [newExports_unfrozen]

theorem ValidateDefExports_absent_unfrozen (o : Options) (b : Bool) (self : ElfFileSupplied)
    (V A El : List Nat) (M : Nat) :
    ValidateDefExports_absent { o with Unfrozen := b } self V A El M =
      ValidateDefExports_absent o self V A El M := by
  unfold ValidateDefExports_absent
  simp only [ValidateDefExports_new_unfrozen]

/-- A successful call does not depend on the option `Unfrozen`. -/
theorem reconcile_unfrozen (o : Options) (b : Bool) (D E : Option (List Symbol))
    (s : ElfFileSupplied) (h : reconcile o D E = Outcome.ok s) (hb : o.Unfrozen = false) :
    reconcile { o with Unfrozen := b } D E = Outcome.ok s := by
  rw [reconcile_eq] at h ⊢
  unfold ValidateDefExports at h ⊢
  simp only at h ⊢
  split at h
  · rename_i c
    rw [if_pos c]; exact h
  · rename_i c
    rw [if_neg c]
    unfold ValidateDefExports_missing at h ⊢
    simp only at h ⊢
    split at h
    · cases h
    · rename_i c2
      rw [ValidateDefExports_absent_unfrozen]
      simp only [hb, Bool.not_false, Bool.and_true] at c2
      simp only [c2, Bool.false_and, Bool.false_eq_true, if_false]
      exact h

theorem mem_E_of_elfPtrs {D : List Symbol} {E : Option (List Symbol)} {b : Nat}
    (hb : b ∈ elfPtrs D E) : heap0 D E b ∈ E.getD [] := by
  cases E with
  | none => simp [elfPtrs] at hb
  | some l =>
    simp only [elfPtrs, Option.getD_some, List.mem_map, List.mem_range] at hb
    obtain ⟨i, hi, rfl⟩ := hb
    rw [heap0_ge D l i hi]
    exact List.get_mem _ _ _

theorem exists_elfPtr_of_mem {D : List Symbol} {E : Option (List Symbol)} {e : Symbol}
    (he : e ∈ E.getD []) : ∃ b ∈ elfPtrs D E, heap0 D E b = e := by
  cases E with
  | none => simp at he
  | some l =>
    obtain ⟨⟨i, hi⟩, rfl⟩ := List.mem_iff_get.1 he
    refine ⟨D.length + i, mem_elfPtrs.2 ⟨by omega, by simpa using hi⟩, heap0_ge D l i hi⟩

/-- A valid DEF symbol whose name no ELF export has is in the result of case 1. -/
theorem mem_pMissing_of_unmatched {D : List Symbol} {E : Option (List Symbol)} {p : Nat}
    (hp : p ∈ pValid D E) (hu : ∀ e ∈ E.getD [], e.name ≠ (heap0 D E p).name) :
    p ∈ pMissing D E := by
  refine mem_sdiff_of_unmatched (fun q => (heap0 D E q).name) (nlt (heap0 D E))
    (nlt_iff (heap0 D E)) _ _ _ (le_refl _) p ((listSort_perm _ _).symm.subset hp) ?_
  intro b hb
  exact hu _ (mem_E_of_elfPtrs ((listSort_perm _ _).subset hb))

/-- When the names of the valid DEF symbols are pairwise distinct, the result
of case 1 holds no symbol whose name an ELF export has. -/
theorem unmatched_of_mem_pMissing {D : List Symbol} {E : Option (List Symbol)} {p : Nat}
    (hnd : ((D.filter (fun d => !d.absent)).map (fun d => d.name)).Nodup)
    (hp : p ∈ pMissing D E) : ∀ e ∈ E.getD [], e.name ≠ (heap0 D E p).name := by
  have hV : ((pValid D E).map (fun q => (heap0 D E q).name)).Nodup := by
    have e : (pValid D E).map (heap0 D E) = D.filter (fun d => !d.absent) := by
      unfold pValid rcValid
      conv_rhs => rw [← map_heap0_defPtrs D E]
      rw [List.filter_map]; rfl
    have : (pValid D E).map (fun q => (heap0 D E q).name) =
        ((pValid D E).map (heap0 D E)).map (fun d => d.name) := by
      rw [List.map_map]; rfl
    rw [this, e]; exact hnd
  intro e he
  obtain ⟨b, hb, rfl⟩ := exists_elfPtr_of_mem (D := D) he
  exact unmatched_of_mem_sdiff (fun q => (heap0 D E q).name) (nlt (heap0 D E))
    (nlt_iff (heap0 D E)) _ _ _ (le_refl _)
    (listSort_strict _ _ (nlt_iff (heap0 D E)) _ hV)
    (listSort_sorted _ _ (nlt_iff (heap0 D E)) _) p hp b
    ((listSort_perm _ _).symm.subset hb)

theorem ValidateDefExports_new_not_thrown (o : Options) (self : ElfFileSupplied)
    (V A El : List Nat) (M : Nat) (names : List (List Char)) (s : ElfFileSupplied) :
    ValidateDefExports_new o self V A El M ≠ Outcome.SymbolMissingFromElfError names s := by
  unfold ValidateDefExports_new
  simp only
  split
  · intro h; cases h
  · split
    · split
      · intro h; cases h
      · intro h; cases h
    · intro h; cases h

/-- The outcome of `ValidateDefExports` in terms of the result of case 1: the
error is thrown exactly when the result is not empty and the build is frozen,
and the object is then `iSymbols = Valid_DEF` with the missing statuses, in the
heap that the comparator of case 1 has updated. -/
theorem reconcile_thrown (o : Options) (D E : Option (List Symbol))
    (names : List (List Char)) (s : ElfFileSupplied)
    (h : reconcile o D E = Outcome.SymbolMissingFromElfError names s) :
    o.Unfrozen = false ∧ pMissing (D.getD []) E ≠ [] ∧
      names = (pMissing (D.getD []) E).map (fun p => (heap0 (D.getD []) E p).name) ∧
      s = { heap := markMissing
              (annotate (heap0 (D.getD []) E) (pMatchedValid (D.getD []) E))
              (pMissing (D.getD []) E)
            brk := (D.getD []).length + (E.getD []).length
            iSymbols := pValid (D.getD []) E
            iExports := (initial (D.getD []) E).iExports } := by
  rw [reconcile_eq] at h
  unfold ValidateDefExports at h
  simp only [splitDefExports_eq, List.nil_append, nameCompare_fst, defPtrs_eq, initial_heap] at h
  split at h
  · cases h
  · have e1 := ValidateDefExports_missing_eq o
      { heap := heap0 (D.getD []) E
        brk := (D.getD []).length + (E.getD []).length
        iSymbols := pValid (D.getD []) E
        iExports := (initial (D.getD []) E).iExports }
      (listSort (nlt (heap0 (D.getD []) E)) (pValid (D.getD []) E))
      (listSort (nlt (heap0 (D.getD []) E)) (pAbsent (D.getD []) E))
      (listSort (nlt (heap0 (D.getD []) E)) (elfPtrs (D.getD []) E))
      (maxOrd (D.getD []) E)
    have hG : ({ heap := heap0 (D.getD []) E
                 brk := (D.getD []).length + (E.getD []).length
                 iSymbols := pValid (D.getD []) E
                 iExports := (initial (D.getD []) E).iExports } : ElfFileSupplied).GetElfSymbols =
        elfPtrs (D.getD []) E := initial_elf (D.getD []) E
    have h' : ValidateDefExports_missing o
        { heap := heap0 (D.getD []) E
          brk := (D.getD []).length + (E.getD []).length
          iSymbols := pValid (D.getD []) E
          iExports := (initial (D.getD []) E).iExports }
        (listSort (nlt (heap0 (D.getD []) E)) (pValid (D.getD []) E))
        (listSort (nlt (heap0 (D.getD []) E)) (pAbsent (D.getD []) E))
        (listSort (nlt (heap0 (D.getD []) E)) (elfPtrs (D.getD []) E))
        (maxOrd (D.getD []) E) = Outcome.SymbolMissingFromElfError names s := by
      rw [← hG]; exact h
    rw [e1] at h'
    have h'' : (if ((pMissing (D.getD []) E).length ≠ 0 && !o.Unfrozen) = true then
        Outcome.SymbolMissingFromElfError
          ((pMissing (D.getD []) E).map (fun p => (heap0 (D.getD []) E p).name))
          { heap := markMissing
              (annotate (heap0 (D.getD []) E) (pMatchedValid (D.getD []) E))
              (pMissing (D.getD []) E)
            brk := (D.getD []).length + (E.getD []).length
            iSymbols := pValid (D.getD []) E
            iExports := (initial (D.getD []) E).iExports }
      else
        ValidateDefExports_absent o
          { heap := markMissing
              (annotate (heap0 (D.getD []) E) (pMatchedValid (D.getD []) E))
              (pMissing (D.getD []) E)
            brk := (D.getD []).length + (E.getD []).length
            iSymbols := pValid (D.getD []) E
            iExports := (initial (D.getD []) E).iExports }
          (listSort (nlt (heap0 (D.getD []) E)) (pValid (D.getD []) E))
          (listSort (nlt (heap0 (D.getD []) E)) (pAbsent (D.getD []) E))
          (listSort (nlt (heap0 (D.getD []) E)) (elfPtrs (D.getD []) E))
          (maxOrd (D.getD []) E)) = Outcome.SymbolMissingFromElfError names s := h'
    clear h' e1 h
    by_cases hm : ((pMissing (D.getD []) E).length ≠ 0 && !o.Unfrozen) = true
    · rw [if_pos hm] at h''
      simp only [Outcome.SymbolMissingFromElfError.injEq] at h''
      simp only [Bool.and_eq_true, Bool.not_eq_true', decide_eq_true_eq] at hm
      exact ⟨hm.2, fun e => hm.1 (by rw [e]; rfl), h''.1.symm, h''.2.symm⟩
    · rw [if_neg hm, ValidateDefExports_absent_eq] at h''
      exact absurd h'' (ValidateDefExports_new_not_thrown _ _ _ _ _ _ _ _)

theorem pMissing_nil_of_none (E : Option (List Symbol)) : pMissing [] E = [] := by
  simp [pMissing, rcMissing, rcValid, defPtrs, listSort, sdiff_nil]

/-- The error is thrown whenever the build is frozen and the result of case 1
is not empty. -/
theorem reconcile_throws (o : Options) (D E : Option (List Symbol))
    (hfr : o.Unfrozen = false) (hm : pMissing (D.getD []) E ≠ []) :
    ∃ names s, reconcile o D E = Outcome.SymbolMissingFromElfError names s := by
  have hD : D.isNone = false := by
    cases D with
    | none => exact absurd (pMissing_nil_of_none E) hm
    | some l => rfl
  rw [reconcile_eq]
  unfold ValidateDefExports
  simp only [splitDefExports_eq, List.nil_append, nameCompare_fst, defPtrs_eq, initial_heap]
  have hearly : ((initial (D.getD []) E).iExports.isNone &&
      (D.map (fun l => List.range l.length)).isNone) = false := by
    cases D with
    | none => cases hD
    | some l => simp
  rw [if_neg (by simp only [hearly]; exact Bool.false_ne_true)]
  have e1 := ValidateDefExports_missing_eq o
    { heap := heap0 (D.getD []) E
      brk := (D.getD []).length + (E.getD []).length
      iSymbols := pValid (D.getD []) E
      iExports := (initial (D.getD []) E).iExports }
    (listSort (nlt (heap0 (D.getD []) E)) (pValid (D.getD []) E))
    (listSort (nlt (heap0 (D.getD []) E)) (pAbsent (D.getD []) E))
    (listSort (nlt (heap0 (D.getD []) E)) (elfPtrs (D.getD []) E))
    (maxOrd (D.getD []) E)
  have hG : ({ heap := heap0 (D.getD []) E
               brk := (D.getD []).length + (E.getD []).length
               iSymbols := pValid (D.getD []) E
               iExports := (initial (D.getD []) E).iExports } : ElfFileSupplied).GetElfSymbols =
      elfPtrs (D.getD []) E := initial_elf (D.getD []) E
  have hc : ((pMissing (D.getD []) E).length ≠ 0 && !o.Unfrozen) = true := by
    have : (pMissing (D.getD []) E).length ≠ 0 := fun e => hm (List.length_eq_zero.1 e)
    simp [hfr, this]
  refine ⟨(pMissing (D.getD []) E).map (fun p => (heap0 (D.getD []) E p).name),
    { heap := markMissing
        (annotate (heap0 (D.getD []) E) (pMatchedValid (D.getD []) E))
        (pMissing (D.getD []) E)
      brk := (D.getD []).length + (E.getD []).length
      iSymbols := pValid (D.getD []) E
      iExports := (initial (D.getD []) E).iExports }, ?_⟩
  show ValidateDefExports_missing o
      { heap := heap0 (D.getD []) E
        brk := (D.getD []).length + (E.getD []).length
        iSymbols := pValid (D.getD []) E
        iExports := (initial (D.getD []) E).iExports }
      (listSort (nlt (heap0 (D.getD []) E)) (pValid (D.getD []) E))
      (listSort (nlt (heap0 (D.getD []) E)) (pAbsent (D.getD []) E))
      (listSort (nlt (heap0 (D.getD []) E))
        ({ heap := heap0 (D.getD []) E
           brk := (D.getD []).length + (E.getD []).length
           iSymbols := pValid (D.getD []) E
           iExports := (initial (D.getD []) E).iExports } : ElfFileSupplied).GetElfSymbols)
      (maxOrd (D.getD []) E) = _
  rw [hG, e1]
  exact if_pos hc

theorem exportsName_eq_false {E : List Symbol} {n : List Char} :
    exportsName E n = false ↔ ∀ e ∈ E, e.name ≠ n := by
  simp [exportsName]

theorem map_heap0_pValid (D : List Symbol) (E : Option (List Symbol)) :
    (pValid D E).map (heap0 D E) = D.filter (fun d => !d.absent) := by
  unfold pValid rcValid
  conv_rhs => rw [← map_heap0_defPtrs D E]
  rw [List.filter_map]; rfl

/-- Under distinct names of the valid DEF symbols, the result of case 1 is the
set of valid DEF symbols whose name no ELF export has. -/
theorem mem_pMissing_iff {D : List Symbol} {E : Option (List Symbol)} {p : Nat}
    (hnd : ((D.filter (fun d => !d.absent)).map (fun d => d.name)).Nodup) :
    p ∈ pMissing D E ↔ p ∈ pValid D E ∧ exportsName (E.getD []) (heap0 D E p).name = false := by
  rw [exportsName_eq_false]
  exact ⟨fun h => ⟨pMissing_sub h, unmatched_of_mem_pMissing hnd h⟩,
    fun h => mem_pMissing_of_unmatched h.1 h.2⟩

theorem pMissing_names_sorted {D : List Symbol} {E : Option (List Symbol)}
    (hnd : ((D.filter (fun d => !d.absent)).map (fun d => d.name)).Nodup) :
    ((pMissing D E).map (fun p => (heap0 D E p).name)).Pairwise (fun a b => strcmp a b < 0) := by
  have hV : ((pValid D E).map (fun q => (heap0 D E q).name)).Nodup := by
    have : (pValid D E).map (fun q => (heap0 D E q).name) =
        ((pValid D E).map (heap0 D E)).map (fun d => d.name) := by
      rw [List.map_map]; rfl
    rw [this, map_heap0_pValid]; exact hnd
  rw [List.pairwise_map]
  have := listSort_strict (fun q => (heap0 D E q).name) (nlt (heap0 D E))
    (nlt_iff (heap0 D E)) _ hV
  exact (this.sublist (sdiff_sublist (nlt (heap0 D E)) _ _ _)).imp
    (fun h => (strcmp_neg_iff _ _).2 h)

section index
variable {κ : Type} [LinearOrder κ] (k : Nat → κ)

end index

theorem shift3 (i : Nat) : i >>> 3 = i / 8 := by
  rw [Nat.shiftRight_eq_div_pow]

theorem and7 (i : Nat) : i &&& 7 = i % 8 := by
  have := Nat.and_pow_two_sub_one_eq_mod i 3
  simpa using this

theorem getD_set_self (B : List Nat) (p v : Nat) (hp : p < B.length) :
    (B.set p v).getD p 0 = v := by
  simp [List.getD_eq_getElem?_getD, List.getElem?_set, hp]

theorem getD_set_ne (B : List Nat) (p q v : Nat) (hq : q ≠ p) :
    (B.set p v).getD q 0 = B.getD q 0 := by
  simp [List.getD_eq_getElem?_getD, List.getElem?_set, Ne.symm hq]

theorem div_mod_eq {i j : Nat} (h1 : j / 8 = i / 8) (h2 : j % 8 = i % 8) : j = i := by
  omega

/-- Clearing the bit of the index `i` clears that bit and no other. -/
theorem bitAt_clear (B : List Nat) (i j : Nat) (hi : i / 8 < B.length) :
    bitAt (B.set (i >>> 3) ((B.getD (i >>> 3) 0 &&& (2 ^ 32 - 1 - (1 <<< (i &&& 7)))) % 2 ^ 8)) j
      = (bitAt B j && !decide (j = i)) := by
  rw [shift3, and7, Nat.one_shiftLeft]
  unfold bitAt
  by_cases hq : j / 8 = i / 8
  · rw [hq, getD_set_self _ _ _ hi, Nat.testBit_mod_two_pow, Nat.testBit_and]
    have e : 2 ^ 32 - 1 - 2 ^ (i % 8) = 2 ^ 32 - (2 ^ (i % 8) + 1) := by omega
    have hlt : 2 ^ (i % 8) < 2 ^ 32 := Nat.pow_lt_pow_right (by decide) (by omega)
    rw [e, Nat.testBit_two_pow_sub_succ hlt, Nat.testBit_two_pow]
    have h8 : j % 8 < 8 := Nat.mod_lt _ (by decide)
    have h32 : j % 8 < 32 := by omega
    by_cases hm : j % 8 = i % 8
    · have : j = i := div_mod_eq hq hm
      simp [this]
    · have : j ≠ i := fun h => hm (by rw [h])
      have hm2 : ¬ i % 8 = j % 8 := fun h => hm h.symm
      simp [h8, h32, hm2, this]
  · have : j ≠ i := fun h => hq (by rw [h])
    rw [getD_set_ne _ _ _ _ hq]
    simp [this]

/-- Setting the bit of the index `i` sets that bit and no other. -/
theorem bitAt_setBit (B : List Nat) (i j : Nat) (hi : i / 8 < B.length) :
    bitAt (B.set (i >>> 3) ((B.getD (i >>> 3) 0 ||| (1 <<< (i &&& 7))) % 2 ^ 8)) j
      = (bitAt B j || decide (j = i)) := by
  rw [shift3, and7, Nat.one_shiftLeft]
  unfold bitAt
  by_cases hq : j / 8 = i / 8
  · rw [hq, getD_set_self _ _ _ hi, Nat.testBit_mod_two_pow, Nat.testBit_or, Nat.testBit_two_pow]
    have h8 : j % 8 < 8 := Nat.mod_lt _ (by decide)
    by_cases hm : j % 8 = i % 8
    · have : j = i := div_mod_eq hq hm
      simp [this, Nat.mod_lt]
    · have : j ≠ i := fun h => hm (by rw [h])
      have hm2 : ¬ i % 8 = j % 8 := fun h => hm h.symm
      simp [h8, hm2, this]
  · have : j ≠ i := fun h => hq (by rw [h])
    rw [getD_set_ne _ _ _ _ hq]
    simp [this]

theorem and_not_three (x : Nat) (hx : x < 2 ^ 64) : x &&& (2 ^ 64 - 1 - (4 - 1)) = x / 4 * 4 := by
  apply Nat.eq_of_testBit_eq
  intro i
  have e : 2 ^ 64 - 1 - (4 - 1) = 2 ^ 64 - (3 + 1) := by norm_num
  have e4 : x / 4 * 4 = 2 ^ 2 * (x >>> 2) := by
    rw [Nat.shiftRight_eq_div_pow]; ring
  rw [Nat.testBit_and, e, Nat.testBit_two_pow_sub_succ (by norm_num), e4, Nat.testBit_mul_pow_two,
    Nat.testBit_shiftRight]
  have h3 : (3 : Nat) = 2 ^ 2 - 1 := by norm_num
  rw [h3, Nat.testBit_two_pow_sub_one]
  by_cases h2 : i < 2
  · have : ¬ i ≥ 2 := by omega
    simp [h2, this]
  · have h2' : i ≥ 2 := by omega
    have e2 : 2 + (i - 2) = i := by omega
    by_cases h64 : i < 64
    · simp [h2, h2', h64, e2]
    · have : x.testBit i = false := by
        apply Nat.testBit_lt_two_pow
        exact lt_of_lt_of_le hx (Nat.pow_le_pow_right (by decide) (by omega))
      simp [h2, h2', h64, e2, this]

theorem roundExtraSpace_eq (e : Nat) (he : e < 2 ^ 32) :
    roundExtraSpace e = (e + 3) / 4 * 4 % 2 ^ 32 := by
  unfold roundExtraSpace
  have : e + 4 - 1 = e + 3 := by omega
  rw [this, and_not_three (e + 3) (by omega)]

theorem extra_space_eq (s : Nat) (h1 : 1 ≤ s) (h2 : s ≤ 2 ^ 32) : extra_space s = s - 1 := by
  unfold extra_space
  omega

theorem markAbsentExports_spec (absentVal : Nat) :
    ∀ (exports : List Nat) (i : Nat) (B : List Nat) (n : Int),
      i + exports.length ≤ 8 * B.length →
      (markAbsentExports absentVal exports i (B, n)).1.length = B.length ∧
      (∀ j, bitAt (markAbsentExports absentVal exports i (B, n)).1 j =
        (bitAt B j && !decide (i ≤ j ∧ exports[j - i]? = some absentVal))) ∧
      ((∀ b ∈ B, b < 256) → ∀ b ∈ (markAbsentExports absentVal exports i (B, n)).1, b < 256) ∧
      (markAbsentExports absentVal exports i (B, n)).2 =
        n + ((exports.filter (fun e => e == absentVal)).length : Nat)
  | [], i, B, n, _ => by
    simp [markAbsentExports]
  | e :: exports, i, B, n, h => by
    have hlen : i + 1 + exports.length ≤ 8 * B.length := by
      simp only [List.length_cons] at h; omega
    have hi : i / 8 < B.length := by omega
    unfold markAbsentExports
    by_cases he : e = absentVal
    · simp only [he, if_true]
      have ih := markAbsentExports_spec absentVal exports (i + 1)
        (B.set (i >>> 3) ((B.getD (i >>> 3) 0 &&& (2 ^ 32 - 1 - (1 <<< (i &&& 7)))) % 2 ^ 8))
        (n + 1) (by rw [List.length_set]; exact hlen)
      obtain ⟨h1, h2, h3, h4⟩ := ih
      refine ⟨by rw [h1, List.length_set], fun j => ?_, fun hb => h3 ?_, ?_⟩
      · rw [h2 j, bitAt_clear B i j hi]
        by_cases hji : j = i
        · subst hji; simp
        · by_cases hle : i + 1 ≤ j
          · have e1 : j - i = (j - (i + 1)) + 1 := by omega
            have : i ≤ j := by omega
            rw [e1]
            simp [hji, hle, this]
          · have : ¬ i ≤ j := by omega
            simp [hji, hle, this]
      · intro b hb'
        rcases List.mem_or_eq_of_mem_set hb' with hm | rfl
        · exact hb b hm
        · exact Nat.mod_lt _ (by norm_num)
      · rw [h4]
        simp
        omega
    · simp only [he, if_false]
      have ih := markAbsentExports_spec absentVal exports (i + 1) B n hlen
      obtain ⟨h1, h2, h3, h4⟩ := ih
      refine ⟨h1, fun j => ?_, h3, ?_⟩
      · rw [h2 j]
        by_cases hji : j = i
        · subst hji; simp [he]
        · by_cases hle : i + 1 ≤ j
          · have e1 : j - i = (j - (i + 1)) + 1 := by omega
            have : i ≤ j := by omega
            rw [e1]
            simp [hle, this]
          · have : ¬ i ≤ j := by omega
            simp [hle, this]
      · rw [h4]
        simp [he]

theorem bitAt_replicate (n j : Nat) : bitAt (List.replicate n 0xff) j = decide (j < 8 * n) := by
  unfold bitAt
  by_cases h : j / 8 < n
  · have hj : j < 8 * n := by omega
    have h8 : j % 8 < 8 := Nat.mod_lt _ (by decide)
    have e : (255 : Nat) = 2 ^ 8 - 1 := by norm_num
    simp [List.getD_eq_getElem?_getD, List.getElem?_replicate, h, hj]
    rw [e, Nat.testBit_two_pow_sub_one]
    simp [h8]
  · have hj : ¬ j < 8 * n := by omega
    simp [List.getD_eq_getElem?_getD, List.getElem?_replicate, h, hj]

/-- The positions below `n` at which a list holds `a` are as many as the
elements equal to `a`. -/
theorem count_positions (a : Nat) : ∀ (l : List Nat) (n : Nat), l.length ≤ n →
    ((List.range n).filter (fun j => decide (l[j]? = some a))).length =
      (l.filter (fun e => e == a)).length
  | [], n, _ => by simp
  | x :: l, 0, h => by simp at h
  | x :: l, n + 1, h => by
    have ih := count_positions a l n (by simp only [List.length_cons] at h; omega)
    rw [List.range_succ_eq_map, List.filter_cons, List.filter_map]
    simp only [List.getElem?_cons_zero, Option.some.injEq, List.length_map]
    have e : ((fun j => decide ((x :: l)[j]? = some a)) ∘ Nat.succ) =
        (fun j => decide (l[j]? = some a)) := by
      funext j; simp
    rw [e, List.filter_cons]
    by_cases hx : x = a
    · simp [hx, ih]
    · simp [hx, ih]

theorem CreateExportBitMap_eq (self : ExportMembers) (EntryPointOffset GetROBase : Nat) :
    CreateExportBitMap self EntryPointOffset GetROBase =
      { self with
        iExportBitMap := some (markAbsentExports ((EntryPointOffset + GetROBase) % 2 ^ 32)
          self.iExportTable.slots 0
          (List.replicate ((self.iExportTable.slots.length + 7) / 8) 0xff, 0)).1
        iNumAbsentExports := (markAbsentExports ((EntryPointOffset + GetROBase) % 2 ^ 32)
          self.iExportTable.slots 0
          (List.replicate ((self.iExportTable.slots.length + 7) / 8) 0xff, 0)).2 } := by
  have ex : (self.iExportTable.GetExportTable.drop 1).take self.GetNumExports =
      self.iExportTable.slots := by
    simp [E32ExportTable.GetExportTable, ExportMembers.GetNumExports,
      E32ExportTable.GetNumExports]
  unfold CreateExportBitMap
  simp only [ex, shift3]
  rfl

/-- What `CreateExportBitMap` leaves in the object. -/
theorem CreateExportBitMap_spec (self : ExportMembers) (EntryPointOffset GetROBase : Nat) :
    ∃ B, (CreateExportBitMap self EntryPointOffset GetROBase).iExportBitMap = some B ∧
      B.length = (self.iExportTable.slots.length + 7) / 8 ∧
      (∀ j, bitAt B j = (decide (j < 8 * B.length) &&
        !decide (self.iExportTable.slots[j]? = some ((EntryPointOffset + GetROBase) % 2 ^ 32)))) ∧
      (∀ b ∈ B, b < 256) ∧
      (CreateExportBitMap self EntryPointOffset GetROBase).iNumAbsentExports =
        (((self.iExportTable.slots.filter
          (fun e => e == (EntryPointOffset + GetROBase) % 2 ^ 32)).length : Nat) : Int) ∧
      (CreateExportBitMap self EntryPointOffset GetROBase).iExportTable = self.iExportTable ∧
      (CreateExportBitMap self EntryPointOffset GetROBase).iExportDescSize = self.iExportDescSize ∧
      (CreateExportBitMap self EntryPointOffset GetROBase).iExportDescType = self.iExportDescType := by
  have hs := markAbsentExports_spec ((EntryPointOffset + GetROBase) % 2 ^ 32)
    self.iExportTable.slots 0 (List.replicate ((self.iExportTable.slots.length + 7) / 8) 0xff) 0
    (by rw [List.length_replicate]; omega)
  obtain ⟨h1, h2, h3, h4⟩ := hs
  rw [CreateExportBitMap_eq]
  refine ⟨_, rfl, ?_, ?_, ?_, ?_, rfl, rfl, rfl⟩
  · rw [h1, List.length_replicate]
  · intro j
    rw [h2 j, bitAt_replicate, h1, List.length_replicate]
    simp
  · apply h3
    intro b hb
    rw [List.eq_of_mem_replicate hb]
    norm_num
  · show (markAbsentExports _ _ 0 _).2 = _
    rw [h4]
    simp

/-- The zero bits of the bitmap are as many as the absent slots. -/
theorem zeroBits_eq (B slots : List Nat) (a : Nat) (hlen : slots.length ≤ 8 * B.length)
    (hbit : ∀ j, bitAt B j = (decide (j < 8 * B.length) && !decide (slots[j]? = some a))) :
    zeroBits B = (slots.filter (fun e => e == a)).length := by
  unfold zeroBits
  rw [← count_positions a slots (8 * B.length) hlen]
  congr 1
  apply List.filter_congr
  intro j hj
  have := List.mem_range.1 hj
  rw [hbit j]
  simp [this]

theorem bitAt_set_ne (L : List Nat) (g v j : Nat) (h : j / 8 ≠ g) :
    bitAt (L.set g v) j = bitAt L j := by
  unfold bitAt
  rw [getD_set_ne _ _ _ _ h]

theorem countGroups_eq : ∀ (B : List Nat) (n : Nat), countGroups B n = n + (groups B).length
  | [], n => by simp [countGroups, groups]
  | b :: B, n => by
    unfold countGroups
    rw [countGroups_eq B]
    by_cases hb : b = 0xff
    · simp [groups, hb]
    · simp [groups, hb]; omega

theorem groups_cons_ne (b : Nat) (B : List Nat) (hb : b ≠ 0xff) :
    groups (b :: B) = b :: groups B := by
  simp [groups, hb]

theorem groups_cons_eq (b : Nat) (B : List Nat) (hb : b = 0xff) :
    groups (b :: B) = groups B := by
  simp [groups, hb]

/-- What the second loop of `AllocateE32ImageHeader` leaves in the description:
the bits of the meta-bitmap, the bytes it does not touch, and the group
bytes. -/
theorem writeSparse_spec : ∀ (B : List Nat) (i g : Nat) (R : List Nat),
    i + B.length ≤ 8 * g → g + (groups B).length ≤ R.length →
    (writeSparse B i g R).length = R.length ∧
    (∀ j, j < 8 * g → bitAt (writeSparse B i g R) j =
      (bitAt R j || (decide (i ≤ j) && (B.getD (j - i) 0xff != 0xff)))) ∧
    (∀ p, p < g → (∀ j, i ≤ j → j < i + B.length → j / 8 ≠ p) →
      (writeSparse B i g R)[p]? = R[p]?) ∧
    (∀ p, g ≤ p → (writeSparse B i g R)[p]? =
      if p < g + (groups B).length then (groups B)[p - g]? else R[p]?) ∧
    ((∀ b ∈ R, b < 256) → (∀ b ∈ B, b < 256) → ∀ b ∈ writeSparse B i g R, b < 256)
  | [], i, g, R, _, _ => by
    unfold writeSparse
    refine ⟨rfl, fun j _ => by simp, fun _ _ _ => rfl, fun p hp => ?_, fun hR _ => hR⟩
    rw [if_neg (by simp [groups]; omega)]
  | b :: B, i, g, R, h1, h2 => by
    simp only [List.length_cons] at h1
    unfold writeSparse
    by_cases hb : b = 0xff
    · simp only [hb, ne_eq, not_true_eq_false, if_false]
      rw [groups_cons_eq _ _ hb] at h2
      obtain ⟨a1, a2, a3, a4, a5⟩ := writeSparse_spec B (i + 1) g R (by omega) h2
      refine ⟨a1, fun j hj => ?_, fun p hp hno => ?_, fun p hp => ?_, fun hR hB => ?_⟩
      · rw [a2 j hj]
        by_cases hji : j = i
        · subst hji; simp
        · by_cases hle : i + 1 ≤ j
          · have e1 : j - i = (j - (i + 1)) + 1 := by omega
            have : i ≤ j := by omega
            rw [e1]
            simp [hle, this]
          · have : ¬ i ≤ j := by omega
            simp [hle, this]
      · exact a3 p hp (fun j hj1 hj2 => hno j (by omega) (by simp only [List.length_cons]; omega))
      · rw [a4 p hp, groups_cons_eq _ _ rfl]
      · exact a5 hR (fun x hx => hB x (List.mem_cons_of_mem _ hx))
    · simp only [hb, ne_eq, not_false_eq_true, if_true]
      rw [groups_cons_ne _ _ hb] at h2
      simp only [List.length_cons] at h2
      have hi : i / 8 < R.length := by omega
      have hig : i / 8 < g := by omega
      obtain ⟨a1, a2, a3, a4, a5⟩ := writeSparse_spec B (i + 1) (g + 1)
        ((R.set (i >>> 3) ((R.getD (i >>> 3) 0 ||| (1 <<< (i &&& 7))) % 2 ^ 8)).set g b)
        (by omega) (by simp only [List.length_set]; omega)
      have hR1 : ∀ p, p ≠ g → p ≠ i / 8 →
          ((R.set (i >>> 3) ((R.getD (i >>> 3) 0 ||| (1 <<< (i &&& 7))) % 2 ^ 8)).set g b)[p]?
            = R[p]? := by
        intro p hp1 hp2
        rw [List.getElem?_set, if_neg (Ne.symm hp1), List.getElem?_set, shift3,
          if_neg (Ne.symm hp2)]
      refine ⟨by rw [a1]; simp only [List.length_set], fun j hj => ?_, fun p hp hno => ?_,
        fun p hp => ?_, fun hR hB => ?_⟩
      · rw [a2 j (by omega), bitAt_set_ne _ _ _ _ (by omega), bitAt_setBit R i j hi]
        by_cases hji : j = i
        · subst hji; simp [hb]
        · by_cases hle : i + 1 ≤ j
          · have e1 : j - i = (j - (i + 1)) + 1 := by omega
            have : i ≤ j := by omega
            rw [e1]
            simp [hji, hle, this]
          · have : ¬ i ≤ j := by omega
            simp [hji, hle, this]
      · rw [a3 p (by omega)
          (fun j hj1 hj2 => hno j (by omega) (by simp only [List.length_cons]; omega))]
        exact hR1 p (by omega) (fun e => hno i (le_refl _)
          (by simp only [List.length_cons]; omega) e.symm)
      · rw [groups_cons_ne _ _ hb]
        simp only [List.length_cons]
        by_cases hpg : p = g
        · subst hpg
          rw [a3 p (by omega) (fun j hj1 hj2 => by omega)]
          have : p < p + ((groups B).length + 1) := by omega
          rw [if_pos this, List.getElem?_set]
          simp only [if_true, List.length_set, Nat.sub_self, List.getElem?_cons_zero]
          rw [if_pos (by omega)]
        · have hp' : g + 1 ≤ p := by omega
          rw [a4 p hp', hR1 p hpg (by omega)]
          have e1 : p - g = (p - (g + 1)) + 1 := by omega
          rw [e1, List.getElem?_cons_succ]
          by_cases hc : p < g + 1 + (groups B).length
          · rw [if_pos hc, if_pos (by omega)]
          · rw [if_neg hc, if_neg (by omega)]
      · apply a5
        · intro x hx
          rcases List.mem_or_eq_of_mem_set hx with hm | rfl
          · rcases List.mem_or_eq_of_mem_set hm with hm' | rfl
            · exact hR x hm'
            · exact Nat.mod_lt _ (by norm_num)
          · exact hB x (List.mem_cons_self _ _)
        · exact fun x hx => hB x (List.mem_cons_of_mem _ hx)

/-- The second loop of `AllocateE32ImageHeader` leaves bytes below 256 in the
meta-bitmap, whatever the bitmap holds. -/
theorem writeSparse_meta_bytes (m : Nat) : ∀ (B : List Nat) (i g : Nat) (R : List Nat),
    m ≤ g → (∀ p v, p < m → R[p]? = some v → v < 256) →
    ∀ p v, p < m → (writeSparse B i g R)[p]? = some v → v < 256
  | [], _, _, _, _, hR => by
    unfold writeSparse
    exact hR
  | b :: B, i, g, R, hm, hR => by
    unfold writeSparse
    by_cases hb : b = 0xff
    · simp only [hb, ne_eq, not_true_eq_false, if_false]
      exact writeSparse_meta_bytes m B (i + 1) g R hm hR
    · simp only [hb, ne_eq, not_false_eq_true, if_true]
      refine writeSparse_meta_bytes m B (i + 1) (g + 1) _ (by omega) ?_
      intro p v hp hv
      rw [List.getElem?_set, if_neg (by omega), List.getElem?_set] at hv
      by_cases hi : i >>> 3 = p
      · rw [if_pos hi] at hv
        by_cases hl : i >>> 3 < R.length
        · rw [if_pos hl] at hv
          cases hv
          exact Nat.mod_lt _ (by norm_num)
        · rw [if_neg hl] at hv
          cases hv
      · rw [if_neg hi] at hv
        exact hR p v hp hv

theorem readBitMap_eq (B : List Nat) : readBitMap (some B) B.length = some B := by
  unfold readBitMap
  by_cases h : B.length = 0
  · simp [h, List.length_eq_zero.1 h]
  · simp [h]

/-- The result of `AllocateE32ImageHeader` on a bitmap `B` of `(nexp + 7) >> 3`
bytes for which the sparse encoding is the smaller one. -/
theorem AllocateE32ImageHeader_sparse (self : ExportMembers) (sz : Nat) (storage : Nat → Nat)
    (B : List Nat) (hB : self.iExportBitMap = some B)
    (hlen : B.length = (self.GetNumExports + 7) / 8) (habs : self.iNumAbsentExports ≠ 0)
    (hs : sparseSize B < B.length) :
    AllocateE32ImageHeader self sz storage = some
      { self := { self with
          iExportDescType := KImageHdr_ExpD_SparseBitmap8
          iExportDescSize := sparseSize B % 2 ^ 16 }
        aHdr := ⟨writeSparse B 0 ((B.length + 7) / 8)
          (List.replicate (roundExtraSpace (extra_space (sparseSize B)) + 1) 0)⟩
        aExtendedHeaderSize := some (sz + roundExtraSpace (extra_space (sparseSize B))) } := by
  unfold AllocateE32ImageHeader
  rw [if_neg habs]
  simp only [shift3, ← hlen, hB, readBitMap_eq, countGroups_eq, Nat.zero_add]
  unfold sparseSize at hs
  rw [if_pos hs]
  rfl

/-- The result of `AllocateE32ImageHeader` on a bitmap `B` of `(nexp + 7) >> 3`
bytes for which the sparse encoding is not the smaller one. -/
theorem AllocateE32ImageHeader_full (self : ExportMembers) (sz : Nat) (storage : Nat → Nat)
    (B : List Nat) (hB : self.iExportBitMap = some B)
    (hlen : B.length = (self.GetNumExports + 7) / 8) (habs : self.iNumAbsentExports ≠ 0)
    (hs : ¬ sparseSize B < B.length) :
    AllocateE32ImageHeader self sz storage = some
      { self := { self with
          iExportDescType := KImageHdr_ExpD_FullBitmap
          iExportDescSize := B.length % 2 ^ 16 }
        aHdr := ⟨B ++ ((List.range (roundExtraSpace (extra_space B.length) + 1)).map storage).drop
          B.length⟩
        aExtendedHeaderSize := some (sz + roundExtraSpace (extra_space B.length)) } := by
  unfold AllocateE32ImageHeader
  rw [if_neg habs]
  simp only [shift3, ← hlen, hB, readBitMap_eq, countGroups_eq, Nat.zero_add]
  unfold sparseSize at hs
  rw [if_neg hs]

/-- The padded size: for `1 ≤ s < 2^32 - 3`, the rounding of `s - 1` is the
least multiple of 4 from `s - 1` on. -/
theorem roundExtraSpace_extra_space (s : Nat) (h1 : 1 ≤ s) (h2 : s + 3 < 2 ^ 32) :
    roundExtraSpace (extra_space s) = (s + 2) / 4 * 4 := by
  rw [extra_space_eq s h1 (by omega), roundExtraSpace_eq _ (by omega)]
  have : s - 1 + 3 = s + 2 := by omega
  rw [this]
  omega

theorem markAbsentExports_none (a : Nat) : ∀ (l : List Nat) (i : Nat) (acc : List Nat × Int),
    (∀ e ∈ l, e ≠ a) → markAbsentExports a l i acc = acc
  | [], _, _, _ => rfl
  | e :: l, i, (B, n), h => by
    unfold markAbsentExports
    rw [if_neg (h e (List.mem_cons_self _ _))]
    exact markAbsentExports_none a l (i + 1) (B, n) (fun x hx => h x (List.mem_cons_of_mem _ hx))

theorem groups_eq_self (B : List Nat) (h : ∀ b ∈ B, b ≠ 0xff) : groups B = B := by
  unfold groups
  rw [List.filter_eq_self]
  intro b hb
  simpa using h b hb

theorem encodedSize_eq_min (B : List Nat) : encodedSize B = min B.length (sparseSize B) := by
  unfold encodedSize
  by_cases h : sparseSize B < B.length
  · rw [if_pos h, Nat.min_def, if_neg (by omega)]
  · rw [if_neg h, Nat.min_def, if_pos (by omega)]

/-- The type and the size that `AllocateE32ImageHeader` records for a bitmap `B`
of `(nexp + 7) >> 3` bytes when `iNumAbsentExports` is not 0. -/
theorem AllocateE32ImageHeader_desc (self : ExportMembers) (sz : Nat) (storage : Nat → Nat)
    (B : List Nat) (hB : self.iExportBitMap = some B)
    (hlen : B.length = (self.GetNumExports + 7) / 8) (habs : self.iNumAbsentExports ≠ 0) :
    ∃ r, AllocateE32ImageHeader self sz storage = some r ∧
      r.self.iExportDescType = (if sparseSize B < B.length then KImageHdr_ExpD_SparseBitmap8
        else KImageHdr_ExpD_FullBitmap) ∧
      r.self.iExportDescSize = encodedSize B % 2 ^ 16 := by
  by_cases hs : sparseSize B < B.length
  · exact ⟨_, AllocateE32ImageHeader_sparse self sz storage B hB hlen habs hs,
      by simp [hs], by simp [encodedSize, hs]⟩
  · exact ⟨_, AllocateE32ImageHeader_full self sz storage B hB hlen habs hs,
      by simp [hs], by simp [encodedSize, hs]⟩

theorem groups_replicate_zero (n : Nat) : groups (List.replicate n 0) = List.replicate n 0 :=
  groups_eq_self _ (fun b hb => by rw [List.eq_of_mem_replicate hb]; decide)

theorem byte_eq_zero (b : Nat) (hb : b < 256) (h : ∀ k, k < 8 → b.testBit k = false) : b = 0 := by
  apply Nat.eq_of_testBit_eq
  intro k
  rw [Nat.zero_testBit]
  by_cases hk : k < 8
  · exact h k hk
  · apply Nat.testBit_lt_two_pow
    exact lt_of_lt_of_le hb (by
      have : (256 : Nat) = 2 ^ 8 := by norm_num
      rw [this]
      exact Nat.pow_le_pow_right (by decide) (by omega))

/-- The object `allAbsent n` is what `CreateExportBitMap` leaves for `8 * n` slots
that all hold the entry point. -/
theorem CreateExportBitMap_allAbsent (n : Nat) :
    CreateExportBitMap (withSlots (List.replicate (8 * n) 0x8000)) 0 0x8000 = allAbsent n := by
  obtain ⟨B, h1, h2, h3, h4, h5, h6, h7, h8⟩ :=
    CreateExportBitMap_spec (withSlots (List.replicate (8 * n) 0x8000)) 0 0x8000
  have hl : B.length = n := by
    rw [h2]
    show ((List.replicate (8 * n) 0x8000).length + 7) / 8 = n
    rw [List.length_replicate]; omega
  have hB : B = List.replicate n 0 := by
    apply List.ext_getElem (by rw [hl, List.length_replicate])
    intro p hp _
    rw [List.getElem_replicate]
    apply byte_eq_zero _ (h4 _ (List.getElem_mem _))
    intro k hk
    have := h3 (8 * p + k)
    unfold bitAt at this
    have e1 : (8 * p + k) / 8 = p := by omega
    have e2 : (8 * p + k) % 8 = k := by omega
    rw [e1, e2, List.getD_eq_getElem _ _ hp] at this
    rw [this]
    have hlt : 8 * p + k < 8 * n := by omega
    have : (withSlots (List.replicate (8 * n) 0x8000)).iExportTable.slots[8 * p + k]? =
        some ((0 + 0x8000) % 2 ^ 32) := by
      show (List.replicate (8 * n) 0x8000)[8 * p + k]? = _
      rw [List.getElem?_replicate, if_pos hlt]
      rfl
    rw [this]
    simp
  have hn : (CreateExportBitMap (withSlots (List.replicate (8 * n) 0x8000)) 0 0x8000).iNumAbsentExports
      = ((8 * n : Nat) : Int) := by
    rw [h5]
    congr 1
    show (List.filter _ (List.replicate (8 * n) 0x8000)).length = _
    rw [List.filter_eq_self.2, List.length_replicate]
    intro a ha
    rw [List.eq_of_mem_replicate ha]
    decide
  rw [hB] at h1
  generalize CreateExportBitMap (withSlots (List.replicate (8 * n) 0x8000)) 0 0x8000 = x at *
  cases x
  simp only at h1 hn h6 h7 h8
  subst h1 hn h6 h7 h8
  rfl

/-- For `8 * n` slots that are all absent, `CreateExportBitMap` leaves `n` zero
bytes, which `AllocateE32ImageHeader` encodes as a full bitmap of `n` bytes, and
the recorded size is `n` modulo `2^16`. -/
theorem AllocateE32ImageHeader_allAbsent (n : Nat) (hn : 1 ≤ n) (sz : Nat)
    (storage : Nat → Nat) :
    ∃ r, AllocateE32ImageHeader
        (CreateExportBitMap (withSlots (List.replicate (8 * n) 0x8000)) 0 0x8000) sz storage
          = some r ∧
      (CreateExportBitMap (withSlots (List.replicate (8 * n) 0x8000)) 0 0x8000).iExportBitMap =
        some (List.replicate n 0) ∧
      r.self.GetExportDescType = KImageHdr_ExpD_FullBitmap ∧
      encodedSize (List.replicate n 0) = n ∧
      r.self.GetExportDescSize = n % 2 ^ 16 := by
  have hs : ¬ sparseSize (List.replicate n 0) < (List.replicate n 0).length := by
    unfold sparseSize
    rw [groups_replicate_zero, List.length_replicate]
    omega
  have he : encodedSize (List.replicate n 0) = n := by
    unfold encodedSize
    rw [if_neg hs, List.length_replicate]
  obtain ⟨r, hr, ht, hsz⟩ := AllocateE32ImageHeader_desc (allAbsent n) sz storage
    (List.replicate n 0) rfl
    (by
      show (List.replicate n 0).length = ((List.replicate (8 * n) 0x8000).length + 7) / 8
      rw [List.length_replicate, List.length_replicate]
      omega)
    (by
      show ((8 * n : Nat) : Int) ≠ 0
      omega)
  rw [CreateExportBitMap_allAbsent n]
  refine ⟨r, hr, rfl, ?_, he, ?_⟩
  · show r.self.iExportDescType = _
    rw [ht, if_neg hs]
  · show r.self.iExportDescSize = _
    rw [hsz, he]

theorem bitAt_take (R : List Nat) (m j : Nat) (h : j / 8 < m) :
    bitAt (R.take m) j = bitAt R j := by
  unfold bitAt
  rw [List.getD_eq_getElem?_getD, List.getD_eq_getElem?_getD, List.getElem?_take_of_lt h]

theorem bitAt_zeros (n j : Nat) : bitAt (List.replicate n 0) j = false := by
  unfold bitAt
  rw [List.getD_eq_getElem?_getD, List.getElem?_replicate]
  by_cases h : j / 8 < n
  · simp [h]
  · simp [h]

/-- The description that the sparse branch writes: the meta-bitmap, then the
group bytes, then zero bytes. -/
theorem writeSparse_zeros (B : List Nat) (E : Nat) (hfit : sparseSize B ≤ E + 1) :
    ∃ M, writeSparse B 0 ((B.length + 7) / 8) (List.replicate (E + 1) 0) =
        M ++ groups B ++ List.replicate (E + 1 - sparseSize B) 0 ∧
      M.length = (B.length + 7) / 8 ∧ (∀ m ∈ M, m < 256) ∧
      ∀ j, j < 8 * M.length → bitAt M j = (B.getD j 0xff != 0xff) := by
  unfold sparseSize at hfit
  obtain ⟨a1, a2, _, a4, _⟩ := writeSparse_spec B 0 ((B.length + 7) / 8)
    (List.replicate (E + 1) 0) (by omega) (by rw [List.length_replicate]; exact hfit)
  rw [List.length_replicate] at a1
  have hm : (List.take ((B.length + 7) / 8)
      (writeSparse B 0 ((B.length + 7) / 8) (List.replicate (E + 1) 0))).length =
      (B.length + 7) / 8 := by
    rw [List.length_take, a1]; omega
  refine ⟨(writeSparse B 0 ((B.length + 7) / 8) (List.replicate (E + 1) 0)).take
    ((B.length + 7) / 8), ?_, hm, ?_, ?_⟩
  · conv_lhs => rw [← List.take_append_drop ((B.length + 7) / 8)
      (writeSparse B 0 ((B.length + 7) / 8) (List.replicate (E + 1) 0))]
    rw [List.append_assoc]
    congr 1
    apply List.ext_getElem?
    intro k
    rw [List.getElem?_drop, a4 _ (by omega)]
    unfold sparseSize
    by_cases hk : k < (groups B).length
    · rw [if_pos (by omega), List.getElem?_append_left hk]
      congr 1; omega
    · rw [if_neg (by omega), List.getElem?_append_right (by omega),
        List.getElem?_replicate, List.getElem?_replicate]
      by_cases hk2 : (B.length + 7) / 8 + k < E + 1
      · rw [if_pos hk2, if_pos (by omega)]
      · rw [if_neg hk2, if_neg (by omega)]
  · intro m hm'
    obtain ⟨p, hp, hpm⟩ := List.getElem_of_mem hm'
    rw [List.length_take] at hp
    have hp' : p < (B.length + 7) / 8 := by omega
    refine writeSparse_meta_bytes ((B.length + 7) / 8) B 0 ((B.length + 7) / 8)
      (List.replicate (E + 1) 0) (le_refl _) ?_ p m hp' ?_
    · intro q v _ hv
      rw [List.getElem?_replicate] at hv
      split at hv
      · cases hv; decide
      · cases hv
    · rw [← hpm, List.getElem_take, List.getElem?_eq_getElem]
  · intro j hj
    rw [hm] at hj
    rw [bitAt_take _ _ _ (by omega), a2 j hj, bitAt_zeros]
    simp

/-- The size of the sparse encoding of a bitmap of `(nexp + 7) >> 3` bytes, `nexp`
being an `int`, is below `2^32 - 3`. -/
theorem sparseSize_lt (B : List Nat) (N : Nat) (hlen : B.length = (N + 7) / 8)
    (hint : N + 7 < 2 ^ 31) : sparseSize B + 3 < 2 ^ 32 ∧ B.length + 3 < 2 ^ 32 := by
  have : (groups B).length ≤ B.length := List.length_filter_le _ _
  unfold sparseSize
  omega

theorem sparseSize_pos (B : List Nat) (hs : sparseSize B < B.length) : 1 ≤ sparseSize B := by
  unfold sparseSize at *
  omega

theorem mem_pFresh {D : List Symbol} {E : Option (List Symbol)} {q : Nat} :
    q ∈ pFresh D E ↔
      D.length + (E.getD []).length ≤ q ∧
        q < D.length + (E.getD []).length + (pCarried D E).length := by
  simp only [pFresh, List.mem_map, List.mem_range]
  constructor
  · rintro ⟨i, hi, rfl⟩; omega
  · intro h; exact ⟨q - (D.length + (E.getD []).length), by omega, by omega⟩

/-- The call `strstr(hay, needle)` finds `needle` exactly when `needle` is a
contiguous part of `hay`. -/
theorem strstr_isSome (needle : List Char) : ∀ hay : List Char,
    (strstr hay needle).isSome = true ↔ needle <:+: hay
  | [] => by
    unfold strstr
    cases needle with
    | nil => simp
    | cons c cs => simp
  | c :: hay => by
    unfold strstr
    by_cases hp : needle.isPrefixOf (c :: hay) = true
    · rw [if_pos hp]
      have : needle <+: c :: hay := List.isPrefixOf_iff_prefix.1 hp
      simp only [Option.isSome_some, true_iff]
      exact this.isInfix
    · rw [if_neg hp, strstr_isSome needle hay, List.infix_cons_iff]
      have : ¬ needle <+: c :: hay := fun h => hp (List.isPrefixOf_iff_prefix.2 h)
      simp [this]

theorem UnWantedSymbol_iff (aSymbol : List Char) : ∀ table : List (List Char),
    UnWantedSymbol table aSymbol = true ↔ ∃ entry ∈ table, aSymbol <:+: entry
  | [] => by simp [UnWantedSymbol]
  | entry :: rest => by
    unfold UnWantedSymbol
    by_cases h : (strstr entry aSymbol).isSome = true
    · rw [if_pos h]
      simp only [true_iff]
      exact ⟨entry, List.mem_cons_self _ _, (strstr_isSome aSymbol entry).1 h⟩
    · rw [if_neg h, UnWantedSymbol_iff aSymbol rest]
      have hn : ¬ aSymbol <:+: entry := fun hx => h ((strstr_isSome aSymbol entry).2 hx)
      simp [hn]

/-- A successful call that copies an absent DEF record has a non-null
`iReader->iExports`. -/
theorem carried_exports (o : Options) (D : Option (List Symbol)) (E : Option (List Symbol))
    (s : ElfFileSupplied) (h : reconcile o D E = Outcome.ok s)
    (hc : pCarried (D.getD []) E ≠ []) : ∃ l, E = some l := by
  rw [reconcile_eq] at h
  obtain ⟨s4, _, ha, _⟩ := ValidateDefExports_ok o _ _ _ h
  simp only [defPtrs_eq, initial_heap, initial_elf, initial_brk] at ha
  have hcs : ∀ p ∈ pCarried (D.getD []) E, p < (D.getD []).length + (E.getD []).length := by
    intro p hp
    have := (mem_pAbsent.1 (pCarried_sub hp)).1
    omega
  have hne := (absentExports_some _ _ _ ha hcs).2.2.2.2.1 hc
  cases E with
  | none => exact absurd rfl hne
  | some l => exact ⟨l, rfl⟩

theorem pCarried_nodup (D : List Symbol) (E : Option (List Symbol)) : (pCarried D E).Nodup := by
  unfold pCarried rcCarried
  refine (sdiff_sublist _ _ _ _).nodup ((listSort_perm _ _).nodup_iff.2 ?_)
  unfold rcAbsent defPtrs
  exact (List.nodup_range _).filter _

theorem mem_pCarried_of_unmatched {D : List Symbol} {E : Option (List Symbol)} {p : Nat}
    (hp : p ∈ pAbsent D E) (hu : ∀ e ∈ E.getD [], e.name ≠ (heap0 D E p).name) :
    p ∈ pCarried D E := by
  refine mem_sdiff_of_unmatched (fun q => (heap0 D E q).name) (nlt (heap0 D E))
    (nlt_iff (heap0 D E)) _ _ _ (le_refl _) p ((listSort_perm _ _).symm.subset hp) ?_
  intro b hb
  exact hu _ (mem_E_of_elfPtrs ((listSort_perm _ _).subset hb))

theorem unmatched_of_mem_pCarried {D : List Symbol} {E : Option (List Symbol)} {p : Nat}
    (hnd : ((D.filter (fun d => d.absent)).map (fun d => d.name)).Nodup)
    (hp : p ∈ pCarried D E) : ∀ e ∈ E.getD [], e.name ≠ (heap0 D E p).name := by
  have hV : ((pAbsent D E).map (fun q => (heap0 D E q).name)).Nodup := by
    have e : (pAbsent D E).map (heap0 D E) = D.filter (fun d => d.absent) := by
      unfold pAbsent rcAbsent
      conv_rhs => rw [← map_heap0_defPtrs D E]
      rw [List.filter_map]; rfl
    have : (pAbsent D E).map (fun q => (heap0 D E q).name) =
        ((pAbsent D E).map (heap0 D E)).map (fun d => d.name) := by
      rw [List.map_map]; rfl
    rw [this, e]; exact hnd
  intro e he
  obtain ⟨b, hb, hbe⟩ := exists_elfPtr_of_mem (D := D) he
  have := unmatched_of_mem_sdiff (fun q => (heap0 D E q).name) (nlt (heap0 D E))
    (nlt_iff _) _ _ _ (le_refl _)
    (listSort_strict _ _ (nlt_iff _) _ hV)
    (listSort_sorted _ _ (nlt_iff _) _) p hp b ((listSort_perm _ _).symm.subset hb)
  rw [← hbe]
  exact this

/-- The entries of `iSymbols` at fresh addresses are the addresses of the copies
of case 4. -/
theorem filter_fresh {o : Options} {D : List Symbol} {E : Option (List Symbol)}
    {s : ElfFileSupplied} (r : ReconOk o D E s) :
    (s.iSymbols.filter (fun q => decide (D.length + (E.getD []).length ≤ q))).Perm
      (pFresh D E) := by
  refine ((ReconOk_perm r).filter _).trans ?_
  have h1 : (pValid D E).filter (fun q => decide (D.length + (E.getD []).length ≤ q)) = [] := by
    rw [List.filter_eq_nil_iff]
    intro q hq
    have := (mem_pValid.1 hq).1
    simp; omega
  have h2 : (pInter D E).filter (fun q => decide (D.length + (E.getD []).length ≤ q)) = [] := by
    rw [List.filter_eq_nil_iff]
    intro q hq
    have := (mem_pAbsent.1 (pInter_sub hq)).1
    simp; omega
  have h3 : (pAdmitted o D E).filter (fun q => decide (D.length + (E.getD []).length ≤ q))
      = [] := by
    rw [List.filter_eq_nil_iff]
    intro q hq
    have := (mem_elfPtrs.1 (pAdmitted_sub hq).1).2
    simp; omega
  have h4 : (pFresh D E).filter (fun q => decide (D.length + (E.getD []).length ≤ q))
      = pFresh D E := by
    rw [List.filter_eq_self]
    intro q hq
    have := (mem_pFresh.1 hq).1
    simpa using this
  simp only [pSymbols, List.filter_append, h1, h2, h3, h4, List.nil_append]
  exact List.Perm.refl _

/-- The copy of case 4 at the `i`-th fresh address is the copy of the `i`-th
absent DEF record that case 4 finds. -/
theorem fresh_copy {o : Options} {D : List Symbol} {E : Option (List Symbol)}
    {s : ElfFileSupplied} (r : ReconOk o D E s) (i : Nat) (hi : i < (pCarried D E).length) :
    ∃ d, D[(pCarried D E).get ⟨i, hi⟩]? = some d ∧ d.absent = true ∧
      (s.heap (D.length + (E.getD []).length + i)).name = d.name ∧
      (s.heap (D.length + (E.getD []).length + i)).ordinal = d.ordinal ∧
      (s.heap (D.length + (E.getD []).length + i)).absent = true ∧
      (s.heap (D.length + (E.getD []).length + i)).kind = SymbolType.SymbolTypeCode := by
  have hp := List.get_mem (pCarried D E) i hi
  obtain ⟨hlt, habs⟩ := mem_pAbsent.1 (pCarried_sub hp)
  have hk : Kept (heap0 D E ((pCarried D E).get ⟨i, hi⟩))
      (s.heap ((pCarried D E).get ⟨i, hi⟩)) :=
    r.low _ hlt (not_missing_of_absent habs)
  have hf := congrArg (fun l => l[i]?) r.fresh
  simp only [pFresh, List.getElem?_map, List.getElem?_range hi, Option.map_some',
    List.getElem?_eq_getElem hi] at hf
  have hf' : s.heap (D.length + (E.getD []).length + i) =
      (s.heap ((pCarried D E).get ⟨i, hi⟩)).copyWith SymbolType.SymbolTypeCode true := by
    simpa using hf
  have h0 := heap0_lt D E _ hlt
  refine ⟨D.get ⟨_, hlt⟩, by simp [List.getElem?_eq_getElem hlt], by rw [← h0]; exact habs,
    ?_, ?_, ?_, ?_⟩
  · rw [hf', ← h0]; exact hk.1
  · rw [hf', ← h0]; exact hk.2.1
  · rw [hf']; rfl
  · rw [hf']; rfl

/-- The decoder gives back a bitmap from its group bytes and a meta-bitmap that
has the bit 1 exactly at the bytes other than `0xff`. -/
theorem decodeFrom_eq (M : List Nat) : ∀ (B : List Nat) (j : Nat) (rest : List Nat),
    (∀ k, k < B.length → bitAt M (j + k) = (B.getD k 0xff != 0xff)) →
    decodeFrom M B.length j (groups B ++ rest) = B
  | [], _, _, _ => rfl
  | b :: B, j, rest, h => by
    have h0 := h 0 (by simp)
    simp only [Nat.add_zero, List.getD_cons_zero] at h0
    have ih := decodeFrom_eq M B (j + 1) rest (fun k hk => by
      have := h (k + 1) (by simp only [List.length_cons]; omega)
      rw [List.getD_cons_succ] at this
      rw [← this]
      congr 1
      omega)
    simp only [List.length_cons, decodeFrom, h0]
    by_cases hb : b = 0xff
    · subst hb
      rw [groups_cons_eq _ _ rfl]
      simp only [bne_self_eq_false, Bool.false_eq_true, if_false]
      rw [ih]
    · rw [groups_cons_ne _ _ hb]
      have : (b != 0xff) = true := by simpa using hb
      simp only [this, if_true, List.cons_append, List.headD_cons, List.tail_cons]
      rw [ih]

/-- The decoder gives back the bitmap from a description that holds the
meta-bitmap, the group bytes and any bytes after them. -/
theorem decodeSparse_eq (B M rest : List Nat) (hM : M.length = (B.length + 7) / 8)
    (hbit : ∀ j, j < 8 * M.length → bitAt M j = (B.getD j 0xff != 0xff)) :
    decodeSparse (M ++ groups B ++ rest) B.length = B := by
  unfold decodeSparse
  rw [List.append_assoc, ← hM, List.take_left, List.drop_left]
  apply decodeFrom_eq
  intro k hk
  rw [Nat.zero_add]
  exact hbit k (by omega)

/-! ## The claims -/

/-- Claim C1 (ordinal stability). After a successful reconciliation by
`ValidateDefExports` every DEF symbol, absent or not, is represented in the
output list `iSymbols` by an entry with its name and its ordinal: no DEF ordinal
is dropped or renumbered. The names of the DEF list need not even be distinct. -/
theorem C1_ordinal_stability (o : Options) (D : List Symbol) (E : Option (List Symbol))
    (s : ElfFileSupplied) (h : reconcile o (some D) E = Outcome.ok s) :
    ∀ d ∈ D, ∃ x ∈ s.O, x.name = d.name ∧ x.ordinal = d.ordinal := by
  intro d hd
  obtain ⟨x, hx, h1, h2, _, _⟩ := def_represented o (some D) E s h d hd
  exact ⟨x, hx, h1, h2⟩

/-- Witness of C1: the DEF `a @ 1`, `b @ 2 ABSENT` against the ELF exports `a`,
`c`, frozen. -/
theorem C1_ordinal_stability_witness :
    ∃ s, reconcile frozenOptions (some [defSymbol "a" 1, absentSymbol "b" 2])
        (some [elfSymbol "a", elfSymbol "c"]) = Outcome.ok s ∧
      ∀ d ∈ [defSymbol "a" 1, absentSymbol "b" 2],
        ∃ x ∈ s.O, x.name = d.name ∧ x.ordinal = d.ordinal :=
  ⟨_, rfl, C1_ordinal_stability frozenOptions [defSymbol "a" 1, absentSymbol "b" 2]
    (some [elfSymbol "a", elfSymbol "c"]) _ rfl⟩

/-- Claim C2 (amended). For every successful reconciliation by
`ValidateDefExports` whose DEF input has pairwise distinct ordinals, and in
which the greatest DEF ordinal plus the number of ELF exports stays below
`2^32`, no two entries of the output list carry the same ordinal, absent and
missing entries included. -/
theorem C2_ordinals_unique (o : Options) (D : List Symbol) (E : Option (List Symbol))
    (s : ElfFileSupplied) (hD : (D.map (fun d => d.ordinal)).Nodup)
    (hM : maxDefOrdinal D + (E.getD []).length < 2 ^ 32)
    (h : reconcile o (some D) E = Outcome.ok s) :
    (s.O.map (fun x => x.ordinal)).Nodup := by
  have r : ReconOk o D E s := reconcile_ok o (some D) E s h
  have hk : maxDefOrdinal D + (pAdmitted o D E).length < 2 ^ 32 := by
    have := pAdmitted_length_le o D E
    omega
  rw [(ordinal_census r).nodup_iff, List.nodup_append]
  refine ⟨hD, (newOrdinals_sorted _ _ hk).imp (fun h => Nat.ne_of_lt h), ?_⟩
  intro x hx hx'
  obtain ⟨d, hd, rfl⟩ := List.mem_map.1 hx
  have := le_maxDefOrdinal hd
  have := mem_newOrdinals hk hx'
  omega

/-- Witness of C2 (amended): the DEF `a @ 1`, `b @ 2 ABSENT` against the ELF
exports `a`, `c`. -/
theorem C2_ordinals_unique_witness :
    ∃ s, reconcile frozenOptions (some [defSymbol "a" 1, absentSymbol "b" 2])
        (some [elfSymbol "a", elfSymbol "c"]) = Outcome.ok s ∧
      (s.O.map (fun x => x.ordinal)).Nodup :=
  ⟨_, rfl, C2_ordinals_unique frozenOptions [defSymbol "a" 1, absentSymbol "b" 2]
    (some [elfSymbol "a", elfSymbol "c"]) _ (by decide) (by decide) rfl⟩

/-- Counterexample to C2 as stated: the DEF `a @ 1`, `b @ 4294967295` against
the ELF exports `a`, `b`, `c`, `d`. Ordinals and names are pairwise distinct, the
call succeeds, the counter `aMaxOrdinal` wraps and `d` gets the ordinal 1 of
`a`. -/
theorem C2_counterexample :
    ∃ s, reconcile frozenOptions (some [defSymbol "a" 1, defSymbol "b" 4294967295])
        (some [elfSymbol "a", elfSymbol "b", elfSymbol "c", elfSymbol "d"]) = Outcome.ok s ∧
      ([defSymbol "a" 1, defSymbol "b" 4294967295].map (fun d => d.ordinal)).Nodup ∧
      ([defSymbol "a" 1, defSymbol "b" 4294967295].map (fun d => d.name)).Nodup ∧
      ([elfSymbol "a", elfSymbol "b", elfSymbol "c", elfSymbol "d"].map (fun d => d.name)).Nodup ∧
      ¬ (s.O.map (fun x => x.ordinal)).Nodup :=
  ⟨_, rfl, by decide, by decide, by decide, by decide⟩

/-- Claim C3 (amended). With `Unfrozen` set `ValidateDefExports` never throws
`SymbolMissingFromElfError`. When the non-absent DEF symbols have pairwise
distinct names, it throws the error exactly when `Unfrozen` is false and some
non-absent DEF symbol has a name that no ELF export has, and the list in the
error is then the list of these names, each once, in ascending order of
`strcmp`. -/
theorem C3_missing_error (o : Options) (D : List Symbol) (E : Option (List Symbol)) :
    (o.Unfrozen = true →
      ∀ names s, reconcile o (some D) E ≠ Outcome.SymbolMissingFromElfError names s) ∧
    (((D.filter (fun d => !d.absent)).map (fun d => d.name)).Nodup →
      ((∃ names s, reconcile o (some D) E = Outcome.SymbolMissingFromElfError names s) ↔
        (o.Unfrozen = false ∧
          ∃ d ∈ D, d.absent = false ∧ ∀ e ∈ E.getD [], e.name ≠ d.name)) ∧
      (∀ names s, reconcile o (some D) E = Outcome.SymbolMissingFromElfError names s →
        names.Pairwise (fun a b => strcmp a b < 0) ∧
        ∀ n, n ∈ names ↔ ∃ d ∈ D, d.absent = false ∧ d.name = n ∧
          ∀ e ∈ E.getD [], e.name ≠ n)) := by
  refine ⟨fun hu names s h => ?_, fun hnd => ⟨⟨?_, ?_⟩, ?_⟩⟩
  · have := (reconcile_thrown o (some D) E names s h).1
    rw [hu] at this; cases this
  · rintro ⟨names, s, h⟩
    obtain ⟨hfr, hm, _, _⟩ := reconcile_thrown o (some D) E names s h
    obtain ⟨p, hp⟩ := List.exists_mem_of_ne_nil _ hm
    have hp' : p ∈ pMissing D E := hp
    obtain ⟨hv, hu⟩ := (mem_pMissing_iff hnd).1 hp'
    obtain ⟨hlt, hab⟩ := mem_pValid.1 hv
    exact ⟨hfr, heap0 D E p, mem_D_of_lt D E p hlt, hab, exportsName_eq_false.1 hu⟩
  · rintro ⟨hfr, d, hd, hab, hu⟩
    obtain ⟨p, hp, rfl⟩ := exists_ptr_of_mem E hd
    exact reconcile_throws o (some D) E hfr
      (List.ne_nil_of_mem (mem_pMissing_of_unmatched (mem_pValid.2 ⟨hp, hab⟩) hu))
  · intro names s h
    obtain ⟨_, _, hn, _⟩ := reconcile_thrown o (some D) E names s h
    have hn' : names = (pMissing D E).map (fun p => (heap0 D E p).name) := hn
    rw [hn']
    refine ⟨pMissing_names_sorted hnd, fun n => ?_⟩
    simp only [List.mem_map]
    constructor
    · rintro ⟨p, hp, rfl⟩
      obtain ⟨hv, hu⟩ := (mem_pMissing_iff hnd).1 hp
      obtain ⟨hlt, hab⟩ := mem_pValid.1 hv
      exact ⟨heap0 D E p, mem_D_of_lt D E p hlt, hab, rfl, exportsName_eq_false.1 hu⟩
    · rintro ⟨d, hd, hab, rfl, hu⟩
      obtain ⟨p, hp, rfl⟩ := exists_ptr_of_mem E hd
      exact ⟨p, mem_pMissing_of_unmatched (mem_pValid.2 ⟨hp, hab⟩) hu, rfl⟩

/-- Witness of C3 (amended): the DEF `a @ 1`, `b @ 2` against the ELF export `a`,
frozen: the error is thrown. -/
theorem C3_missing_error_witness :
    ∃ names s, reconcile frozenOptions (some [defSymbol "a" 1, defSymbol "b" 2])
      (some [elfSymbol "a"]) = Outcome.SymbolMissingFromElfError names s :=
  (((C3_missing_error frozenOptions [defSymbol "a" 1, defSymbol "b" 2]
    (some [elfSymbol "a"])).2 (by decide)).1).2 ⟨rfl, defSymbol "b" 2, by decide⟩

/-- Counterexample to C3 as stated: the DEF `a @ 1`, `a @ 2` against the ELF
export `a`, frozen. Every DEF name is exported by the ELF and the error is
thrown all the same, with the name `a`. -/
theorem C3_counterexample :
    (∃ s, reconcile frozenOptions (some [defSymbol "a" 1, defSymbol "a" 2])
      (some [elfSymbol "a"]) = Outcome.SymbolMissingFromElfError ["a".toList] s) ∧
    ¬ (frozenOptions.Unfrozen = false ∧
      ∃ d ∈ [defSymbol "a" 1, defSymbol "a" 2], d.absent = false ∧
        ∀ e ∈ [elfSymbol "a"], e.name ≠ d.name) :=
  ⟨⟨_, rfl⟩, by decide⟩

/-- Claim C6 (amended). In frozen mode a successful `ValidateDefExports` has found
nothing missing, and it admits new symbols as the unfrozen mode does: every
non-absent DEF symbol has a name that the ELF exports, and the call with
`Unfrozen` set succeeds with the same object, new symbols and their ordinals
included. -/
theorem C6_frozen_success (o : Options) (D : List Symbol) (E : Option (List Symbol))
    (s : ElfFileSupplied) (hfr : o.Unfrozen = false)
    (h : reconcile o (some D) E = Outcome.ok s) :
    reconcile { o with Unfrozen := true } (some D) E = Outcome.ok s ∧
    ∀ d ∈ D, d.absent = false → ∃ e ∈ E.getD [], e.name = d.name := by
  refine ⟨reconcile_unfrozen o true (some D) E s h hfr, fun d hd hab => ?_⟩
  have r : ReconOk o D E s := reconcile_ok o (some D) E s h
  have hm : pMissing D E = [] := by
    rcases r.frozen with hm | hu
    · exact hm
    · rw [hfr] at hu; cases hu
  obtain ⟨p, hp, rfl⟩ := exists_ptr_of_mem E hd
  by_contra hne
  have : p ∈ pMissing D E :=
    mem_pMissing_of_unmatched (mem_pValid.2 ⟨hp, hab⟩)
      (fun e he hn => hne ⟨e, he, hn⟩)
  rw [hm] at this
  cases this

/-- Witness of C6 (amended): the DEF `a @ 1` against the ELF exports `a`, `c`,
frozen. -/
theorem C6_frozen_success_witness :
    ∃ s, reconcile frozenOptions (some [defSymbol "a" 1])
        (some [elfSymbol "a", elfSymbol "c"]) = Outcome.ok s ∧
      reconcile { frozenOptions with Unfrozen := true } (some [defSymbol "a" 1])
        (some [elfSymbol "a", elfSymbol "c"]) = Outcome.ok s :=
  ⟨_, rfl, (C6_frozen_success frozenOptions [defSymbol "a" 1]
    (some [elfSymbol "a", elfSymbol "c"]) _ rfl rfl).1⟩

/-- Counterexample to C6 as stated: the DEF `a @ 1` against the ELF exports `a`,
`c`, frozen. The call succeeds and the output list holds `c` with the status
`New` and the ordinal 2, above the greatest DEF ordinal 1. -/
theorem C6_counterexample :
    ∃ s, reconcile frozenOptions (some [defSymbol "a" 1])
        (some [elfSymbol "a", elfSymbol "c"]) = Outcome.ok s ∧
      frozenOptions.Unfrozen = false ∧
      ∃ x ∈ s.O, x.name = "c".toList ∧ x.status = SymbolStatus.New ∧
        maxDefOrdinal [defSymbol "a" 1] < x.ordinal :=
  ⟨_, rfl, rfl, by decide⟩

/-- Claim C7 (amended). After a successful run of `ValidateDefExports` the output
list is sorted by ascending ordinal when the DEF input has an absent symbol (the
sort belongs to case 4), and also when the DEF records are all present, listed
in ascending ordinal order, and the greatest DEF ordinal plus the number of ELF
exports stays below `2^32`. -/
theorem C7_sorted_by_ordinal (o : Options) (D : List Symbol) (E : Option (List Symbol))
    (s : ElfFileSupplied)
    (hD : (∃ d ∈ D, d.absent = true) ∨
      ((∀ d ∈ D, d.absent = false) ∧ (D.map (fun d => d.ordinal)).Pairwise (· ≤ ·) ∧
        maxDefOrdinal D + (E.getD []).length < 2 ^ 32))
    (h : reconcile o (some D) E = Outcome.ok s) :
    (s.O.map (fun x => x.ordinal)).Pairwise (· ≤ ·) := by
  have r : ReconOk o D E s := reconcile_ok o (some D) E s h
  rw [O_ordinals]
  rcases hD with ⟨d, hd, hab⟩ | ⟨hall, hsorted, hM⟩
  · rw [r.iSymbols, if_neg (pAbsent_ne_nil hd hab), List.pairwise_map]
    exact listSort_sorted (fun p => (s.heap p).ordinal) (olt s.heap) (olt_iff s.heap) _
  · have hA : pAbsent D E = [] := pAbsent_eq_nil hall
    obtain ⟨hi, hc⟩ := pInter_pCarried_nil hA
    have hf : pFresh D E = [] := by simp [pFresh, hc]
    have hk : maxDefOrdinal D + (pAdmitted o D E).length < 2 ^ 32 := by
      have := pAdmitted_length_le o D E
      omega
    rw [r.iSymbols, if_pos hA]
    simp only [pSymbols, hi, hf, List.append_nil, List.map_append]
    rw [map_ordinal_admitted r, pValid_eq_defPtrs hall,
      map_ordinal_low r (defPtrs D) (fun p hp => mem_defPtrs.1 hp)]
    have hDm : (defPtrs D).map (fun p => (heap0 D E p).ordinal) = D.map (fun d => d.ordinal) := by
      conv_rhs => rw [← map_heap0_defPtrs D E]
      rw [List.map_map]; rfl
    rw [hDm, List.pairwise_append]
    refine ⟨hsorted, (newOrdinals_sorted _ _ hk).imp (fun h => Nat.le_of_lt h), ?_⟩
    intro x hx y hy
    obtain ⟨d, hd, rfl⟩ := List.mem_map.1 hx
    have := le_maxDefOrdinal hd
    have := mem_newOrdinals hk hy
    omega

/-- Witness of C7 (amended): the DEF `b @ 2 ABSENT`, `a @ 1`, listed out of
order, against the ELF exports `a`, `c`. -/
theorem C7_sorted_by_ordinal_witness :
    ∃ s, reconcile frozenOptions (some [absentSymbol "b" 2, defSymbol "a" 1])
        (some [elfSymbol "a", elfSymbol "c"]) = Outcome.ok s ∧
      (s.O.map (fun x => x.ordinal)).Pairwise (· ≤ ·) :=
  ⟨_, rfl, C7_sorted_by_ordinal frozenOptions [absentSymbol "b" 2, defSymbol "a" 1]
    (some [elfSymbol "a", elfSymbol "c"]) _ (Or.inl (by decide)) rfl⟩

/-- Counterexample to C7 as stated: the DEF `b @ 2`, `a @ 1`, without absent
symbol, against the ELF exports `a`, `b`. The call succeeds and leaves the
output list in DEF order, `b @ 2` before `a @ 1`. -/
theorem C7_counterexample :
    ∃ s, reconcile frozenOptions (some [defSymbol "b" 2, defSymbol "a" 1])
        (some [elfSymbol "a", elfSymbol "b"]) = Outcome.ok s ∧
      s.O.map (fun x => x.ordinal) = [2, 1] ∧
      ¬ (s.O.map (fun x => x.ordinal)).Pairwise (· ≤ ·) :=
  ⟨_, rfl, by decide, by decide⟩

/-- Claim C8 (amended). After a successful reconciliation every DEF symbol with
`absent = true` has its ordinal in the output list, in an entry of its name whose
absent flag is set, whether the ELF exports the name or not. -/
theorem C8_absent_ordinal_kept (o : Options) (D : List Symbol) (E : Option (List Symbol))
    (s : ElfFileSupplied) (h : reconcile o (some D) E = Outcome.ok s) :
    ∀ d ∈ D, d.absent = true →
      ∃ x ∈ s.O, x.ordinal = d.ordinal ∧ x.name = d.name ∧ x.absent = true := by
  intro d hd hab
  obtain ⟨x, hx, h1, h2, h3, _⟩ := def_represented o (some D) E s h d hd
  exact ⟨x, hx, h2, h1, h3.trans hab⟩

/-- Witness of C8 (amended): the DEF `a @ 1`, `b @ 2 ABSENT` against the ELF
export `a`. -/
theorem C8_absent_ordinal_kept_witness :
    ∃ s, reconcile frozenOptions (some [defSymbol "a" 1, absentSymbol "b" 2])
        (some [elfSymbol "a"]) = Outcome.ok s ∧
      ∀ d ∈ [defSymbol "a" 1, absentSymbol "b" 2], d.absent = true →
        ∃ x ∈ s.O, x.ordinal = d.ordinal ∧ x.name = d.name ∧ x.absent = true :=
  ⟨_, rfl, C8_absent_ordinal_kept frozenOptions [defSymbol "a" 1, absentSymbol "b" 2]
    (some [elfSymbol "a"]) _ rfl⟩

/-- Counterexample to C8 as stated: the DEF `b @ 2 ABSENT` against an ELF that
exports a non-absent `b`. The call succeeds and the output list is the one DEF
symbol `b @ 2`, still absent: no entry holds the ordinal 2 with `absent = false`.
The ELF export `b` is not in the list: the comparator has set its absent flag
and case 3 skips it. -/
theorem C8_counterexample :
    ∃ s, reconcile frozenOptions (some [absentSymbol "b" 2]) (some [elfSymbol "b"]) =
        Outcome.ok s ∧
      (∃ e ∈ [elfSymbol "b"], e.name = (absentSymbol "b" 2).name ∧ e.absent = false) ∧
      s.O = [absentSymbol "b" 2] ∧ s.iSymbols = [0] ∧
      ¬ ∃ x ∈ s.O, x.ordinal = (absentSymbol "b" 2).ordinal ∧ x.absent = false :=
  ⟨_, rfl, by decide, by decide, by decide, by decide⟩

/-- Claim C9 (amended). When every DEF record and every ELF export has kind data
exactly for the names beginning with `_ZTV`, `_ZTI` or `_ZTS`, so has every
symbol of the output list of a successful reconciliation, but for the copies
that case 4 makes of the absent DEF symbols: these are code symbols whatever
their name. In `iSymbols` the DEF and ELF objects are the addresses below
`|D| + |E|`, the copies of case 4 the addresses from there on. -/
theorem C9_kind_by_name (o : Options) (D : List Symbol) (E : Option (List Symbol))
    (s : ElfFileSupplied)
    (hk : ∀ x ∈ D ++ E.getD [], x.kind = SymbolTypeF x.name)
    (h : reconcile o (some D) E = Outcome.ok s) :
    (∀ p ∈ s.iSymbols,
      (p < D.length + (E.getD []).length →
        ((s.heap p).kind = SymbolType.SymbolTypeData ↔
          ((s.heap p).name.take 4 = "_ZTV".toList ∨ (s.heap p).name.take 4 = "_ZTI".toList ∨
            (s.heap p).name.take 4 = "_ZTS".toList))) ∧
      (D.length + (E.getD []).length ≤ p →
        (s.heap p).kind = SymbolType.SymbolTypeCode ∧ (s.heap p).absent = true ∧
          ∃ d ∈ D, d.absent = true ∧ d.name = (s.heap p).name ∧
            d.ordinal = (s.heap p).ordinal)) ∧
    (∀ x ∈ s.O,
      (x.kind = SymbolType.SymbolTypeData ↔
        (x.name.take 4 = "_ZTV".toList ∨ x.name.take 4 = "_ZTI".toList ∨
          x.name.take 4 = "_ZTS".toList)) ∨
      (x.kind = SymbolType.SymbolTypeCode ∧ x.absent = true ∧
        ∃ d ∈ D, d.absent = true ∧ d.name = x.name ∧ d.ordinal = x.ordinal)) := by
  have r : ReconOk o D E s := reconcile_ok o (some D) E s h
  have hlow : ∀ p, p < D.length + (E.getD []).length →
      ((s.heap p).kind = SymbolType.SymbolTypeData ↔
        ((s.heap p).name.take 4 = "_ZTV".toList ∨ (s.heap p).name.take 4 = "_ZTI".toList ∨
          (s.heap p).name.take 4 = "_ZTS".toList)) := by
    intro p hlt
    rw [r.kinds (heap0_kindOK D E hk) p hlt]
    exact SymbolTypeF_eq_data _
  refine ⟨fun p hp => ⟨hlow p, fun hge => ?_⟩, fun x hx => ?_⟩
  · rcases lt_of_mem_pSymbols ((ReconOk_perm r).subset hp) with hlt | hf
    · omega
    · exact fresh_entry o D E s r p hf
  · obtain ⟨p, hp, rfl⟩ := List.mem_map.1 hx
    rcases lt_of_mem_pSymbols ((ReconOk_perm r).subset hp) with hlt | hf
    · exact Or.inl (hlow p hlt)
    · exact Or.inr (fresh_entry o D E s r p hf)

/-- Witness of C9 (amended): the DEF `a @ 1`, `_ZTV1A @ 2 ABSENT` against the
ELF export `a`. -/
theorem C9_kind_by_name_witness :
    ∃ s, reconcile frozenOptions
        (some [defSymbol "a" 1,
          ⟨"_ZTV1A".toList, 2, SymbolType.SymbolTypeData, true, SymbolStatus.Matching, 0, []⟩])
        (some [elfSymbol "a"]) = Outcome.ok s ∧
      ∀ x ∈ s.O,
        (x.kind = SymbolType.SymbolTypeData ↔
          (x.name.take 4 = "_ZTV".toList ∨ x.name.take 4 = "_ZTI".toList ∨
            x.name.take 4 = "_ZTS".toList)) ∨
        (x.kind = SymbolType.SymbolTypeCode ∧ x.absent = true ∧
          ∃ d ∈ [defSymbol "a" 1,
            (⟨"_ZTV1A".toList, 2, SymbolType.SymbolTypeData, true, SymbolStatus.Matching, 0,
              []⟩ : Symbol)],
            d.absent = true ∧ d.name = x.name ∧ d.ordinal = x.ordinal) :=
  ⟨_, rfl, (C9_kind_by_name frozenOptions
    [defSymbol "a" 1,
      ⟨"_ZTV1A".toList, 2, SymbolType.SymbolTypeData, true, SymbolStatus.Matching, 0, []⟩]
    (some [elfSymbol "a"]) _ (by decide) rfl).2⟩

/-- Counterexample to C9 as stated: the DEF `_ZTV1A @ 1 ABSENT`, a data symbol,
against an ELF without exports. The call succeeds and its output list holds a
symbol whose name begins with `_ZTV` and whose kind is not data. -/
theorem C9_counterexample :
    ∃ s, reconcile frozenOptions
        (some [⟨"_ZTV1A".toList, 1, SymbolType.SymbolTypeData, true, SymbolStatus.Matching, 0,
          []⟩])
        (some []) = Outcome.ok s ∧
      ∃ x ∈ s.O, x.name.take 4 = "_ZTV".toList ∧ x.kind ≠ SymbolType.SymbolTypeData :=
  ⟨_, rfl, by decide⟩

/-- Claim C10. `SymbolTypeF(name)` is `SymbolTypeData` exactly when the first four
characters of the name are `_ZTV`, `_ZTI` or `_ZTS`, and `SymbolTypeCode` for
every other name, among them the names of fewer than four characters and the
empty name. -/
theorem C10_SymbolTypeF (aName : List Char) :
    (SymbolTypeF aName = SymbolType.SymbolTypeData ↔
      (aName.take 4 = "_ZTV".toList ∨ aName.take 4 = "_ZTI".toList ∨
        aName.take 4 = "_ZTS".toList)) ∧
    (SymbolTypeF aName = SymbolType.SymbolTypeCode ↔
      ¬ (aName.take 4 = "_ZTV".toList ∨ aName.take 4 = "_ZTI".toList ∨
        aName.take 4 = "_ZTS".toList)) ∧
    (aName.length < 4 → SymbolTypeF aName = SymbolType.SymbolTypeCode) ∧
    SymbolTypeF [] = SymbolType.SymbolTypeCode := by
  have hd := SymbolTypeF_eq_data aName
  have hc : SymbolTypeF aName = SymbolType.SymbolTypeCode ↔
      ¬ (aName.take 4 = "_ZTV".toList ∨ aName.take 4 = "_ZTI".toList ∨
        aName.take 4 = "_ZTS".toList) := by
    rw [← hd]
    cases SymbolTypeF aName <;> simp
  refine ⟨hd, hc, fun hlen => hc.2 ?_, by decide⟩
  have hl : (aName.take 4).length < 4 := by
    rw [List.length_take]; omega
  rintro (h | h | h) <;> rw [h] at hl <;> exact absurd hl (by decide)

/-- Witness of C10: the name `_ZT`, of three characters, is a code symbol. -/
theorem C10_SymbolTypeF_witness :
    SymbolTypeF "_ZT".toList = SymbolType.SymbolTypeCode :=
  (C10_SymbolTypeF "_ZT".toList).2.2.1 (by decide)

/-- Claim C11. For an export table of `N` slots and the sentinel
`(EntryPointOffset + ROBase) mod 2^32`, `CreateExportBitMap` leaves a bitmap of
`ceil(N/8)` bytes in which, for `i < N`, bit `i mod 8` of byte `i div 8` is 0
exactly when slot `i` holds the sentinel, and in which the bits from `N` on are
1; `iNumAbsentExports` is the number of zero bits, which is the number of
slots that hold the sentinel. Two slots of which only the second holds the
sentinel give the one byte `0xFD`. -/
theorem C11_CreateExportBitMap (self : ExportMembers) (EntryPointOffset GetROBase : Nat) :
    (∃ B, (CreateExportBitMap self EntryPointOffset GetROBase).iExportBitMap = some B ∧
      B.length = (self.GetNumExports + 7) / 8 ∧
      (∀ b ∈ B, b < 256) ∧
      (∀ (i : Nat) (hi : i < self.iExportTable.slots.length),
        ((B.getD (i / 8) 0).testBit (i % 8) = false ↔
          self.iExportTable.slots.get ⟨i, hi⟩ = (EntryPointOffset + GetROBase) % 2 ^ 32)) ∧
      (∀ i, self.GetNumExports ≤ i → i < 8 * B.length →
        (B.getD (i / 8) 0).testBit (i % 8) = true) ∧
      (CreateExportBitMap self EntryPointOffset GetROBase).iNumAbsentExports =
        ((zeroBits B : Nat) : Int) ∧
      zeroBits B = (self.iExportTable.slots.filter
        (fun e => e == (EntryPointOffset + GetROBase) % 2 ^ 32)).length) ∧
    (∀ a header, a ≠ (EntryPointOffset + GetROBase) % 2 ^ 32 →
      (CreateExportBitMap
        { self with iExportTable := ⟨header, [a, (EntryPointOffset + GetROBase) % 2 ^ 32]⟩ }
        EntryPointOffset GetROBase).iExportBitMap = some [0xFD]) := by
  constructor
  · obtain ⟨B, h1, h2, h3, h4, h5, _⟩ := CreateExportBitMap_spec self EntryPointOffset GetROBase
    have hz := zeroBits_eq B self.iExportTable.slots _ (by omega) h3
    refine ⟨B, h1, h2, h4, fun i hi => ?_, fun i hi1 hi2 => ?_, by rw [h5, hz], hz⟩
    · have hb := h3 i
      unfold bitAt at hb
      rw [hb]
      have : i < 8 * B.length := by omega
      simp [this, List.getElem?_eq_getElem hi]
    · have hb := h3 i
      unfold bitAt at hb
      rw [hb]
      have hn : self.iExportTable.slots[i]? = none :=
        List.getElem?_eq_none (by
          simpa [ExportMembers.GetNumExports, E32ExportTable.GetNumExports] using hi1)
      simp [hi2, hn]
  · intro a header ha
    rw [CreateExportBitMap_eq]
    generalize (EntryPointOffset + GetROBase) % 2 ^ 32 = s at ha
    show some (markAbsentExports s [a, s] 0 (List.replicate ((2 + 7) / 8) 0xff, 0)).1
      = some [0xFD]
    unfold markAbsentExports
    rw [if_neg ha]
    unfold markAbsentExports
    rw [if_pos rfl]
    unfold markAbsentExports
    decide

/-- Witness of C11: the table of scenario S4 gives the bitmap `0xFD` and one
absent export. -/
theorem C11_CreateExportBitMap_witness :
    (CreateExportBitMap tableS4 0 0x8000).iExportBitMap = some [0xFD] ∧
    (CreateExportBitMap tableS4 0 0x8000).iNumAbsentExports = 1 ∧
    (CreateExportBitMap { tableS4 with iExportTable := ⟨0, [0x8010, (0 + 0x8000) % 2 ^ 32]⟩ }
      0 0x8000).iExportBitMap = some [0xFD] :=
  ⟨by decide, by decide, (C11_CreateExportBitMap tableS4 0 0x8000).2 0x8010 0 (by decide)⟩

/-- Claim C12 (amended). For a bitmap `B` with an absent slot, the recorded type
is sparse-8 exactly when `ceil(len(B)/8)` plus the number of bytes of `B` other
than `0xFF` is less than `len(B)`, and the full bitmap otherwise; a bitmap
without `0xFF` byte is recorded as a full bitmap. The size of the chosen
encoding is the smaller of the two sizes; the recorded size is that size modulo
`2^16` (`iExportDescSize` is a `PLUINT16`), hence that size when it is below
65536. -/
theorem C12_descriptor_choice (self : ExportMembers) (sz : Nat) (storage : Nat → Nat)
    (B : List Nat) (hB : self.iExportBitMap = some B)
    (hlen : B.length = (self.GetNumExports + 7) / 8) (habs : self.iNumAbsentExports ≠ 0) :
    ∃ r, AllocateE32ImageHeader self sz storage = some r ∧
      (r.self.GetExportDescType = KImageHdr_ExpD_SparseBitmap8 ↔
        (B.length + 7) / 8 + (B.filter (fun b => b != 0xff)).length < B.length) ∧
      (r.self.GetExportDescType = KImageHdr_ExpD_FullBitmap ↔
        ¬ (B.length + 7) / 8 + (B.filter (fun b => b != 0xff)).length < B.length) ∧
      ((∀ b ∈ B, b ≠ 0xff) → r.self.GetExportDescType = KImageHdr_ExpD_FullBitmap) ∧
      encodedSize B = min B.length ((B.length + 7) / 8 + (B.filter (fun b => b != 0xff)).length) ∧
      r.self.GetExportDescSize = encodedSize B % 2 ^ 16 ∧
      (encodedSize B < 2 ^ 16 → r.self.GetExportDescSize = encodedSize B) := by
  obtain ⟨r, hr, ht, hsz⟩ := AllocateE32ImageHeader_desc self sz storage B hB hlen habs
  have hss : sparseSize B = (B.length + 7) / 8 + (B.filter (fun b => b != 0xff)).length := rfl
  refine ⟨r, hr, ?_, ?_, ?_, ?_, hsz, fun h => ?_⟩
  · show r.self.iExportDescType = _ ↔ _
    rw [ht, ← hss]
    by_cases hs : sparseSize B < B.length
    · simp [hs]
    · simp [hs, KImageHdr_ExpD_FullBitmap, KImageHdr_ExpD_SparseBitmap8]
  · show r.self.iExportDescType = _ ↔ _
    rw [ht, ← hss]
    by_cases hs : sparseSize B < B.length
    · simp [hs, KImageHdr_ExpD_FullBitmap, KImageHdr_ExpD_SparseBitmap8]
    · simp [hs]
  · intro hno
    show r.self.iExportDescType = _
    rw [ht]
    have hg : ¬ sparseSize B < B.length := by
      unfold sparseSize
      rw [groups_eq_self B hno]
      omega
    rw [if_neg hg]
  · rw [← hss]; exact encodedSize_eq_min B
  · show r.self.iExportDescSize = _
    rw [hsz, Nat.mod_eq_of_lt h]

/-- Witness of C12 (amended): the 64 slots of scenario S5 are recorded as sparse-8
of size 5. -/
theorem C12_descriptor_choice_witness :
    ∃ r, AllocateE32ImageHeader (CreateExportBitMap tableS5 0 0x8000) 100 (fun _ => 0) = some r ∧
      r.self.GetExportDescType = KImageHdr_ExpD_SparseBitmap8 ∧ r.self.GetExportDescSize = 5 := by
  obtain ⟨r, hr, h1, _, _, _, h5, _⟩ := C12_descriptor_choice (CreateExportBitMap tableS5 0 0x8000)
    100 (fun _ => 0) [0xFE, 0xFE, 0xFE, 0xFE, 0xFF, 0xFF, 0xFF, 0xFF] (by decide) (by decide)
    (by decide)
  exact ⟨r, hr, h1.2 (by decide), h5⟩

/-- Counterexample to C12 as stated: for 524288 slots that all hold the entry
point the bitmap has 65536 zero bytes, the chosen encoding is the full bitmap of
65536 bytes, and the recorded size is 0. -/
theorem C12_counterexample :
    ∃ r, AllocateE32ImageHeader
        (CreateExportBitMap (withSlots (List.replicate (8 * 65536) 0x8000)) 0 0x8000) 100
          (fun _ => 0) = some r ∧
      (CreateExportBitMap (withSlots (List.replicate (8 * 65536) 0x8000)) 0 0x8000).iExportBitMap =
        some (List.replicate 65536 0) ∧
      r.self.GetExportDescType = KImageHdr_ExpD_FullBitmap ∧
      encodedSize (List.replicate 65536 0) = 65536 ∧
      r.self.GetExportDescSize = 0 :=
  AllocateE32ImageHeader_allAbsent 65536 (by decide) 100 (fun _ => 0)

/-- Claim C13. When sparse-8 is chosen for the bitmap `B`, the payload is a
meta-bitmap `M` of `ceil(len(B)/8)` bytes in which bit `j mod 8` of byte
`j div 8` is 1 exactly when `B[j]` exists and is not `0xFF`, followed by the
bytes of `B` other than `0xFF` in ascending index order: `ceil(len(B)/8)` plus
their number bytes in all. The number of exports is the value of the `int`
`nexp`. -/
theorem C13_sparse_payload (self : ExportMembers) (sz : Nat) (storage : Nat → Nat)
    (B : List Nat) (hB : self.iExportBitMap = some B)
    (hlen : B.length = (self.GetNumExports + 7) / 8) (hint : self.GetNumExports + 7 < 2 ^ 31)
    (habs : self.iNumAbsentExports ≠ 0)
    (hs : (B.length + 7) / 8 + (B.filter (fun b => b != 0xff)).length < B.length) :
    ∃ r M, AllocateE32ImageHeader self sz storage = some r ∧
      r.self.GetExportDescType = KImageHdr_ExpD_SparseBitmap8 ∧
      r.aHdr.iExportDesc.take ((B.length + 7) / 8 + (B.filter (fun b => b != 0xff)).length) =
        M ++ B.filter (fun b => b != 0xff) ∧
      M.length = (B.length + 7) / 8 ∧
      (∀ m ∈ M, m < 256) ∧
      (∀ j, j < 8 * M.length →
        ((M.getD (j / 8) 0).testBit (j % 8) = true ↔ ∃ b, B[j]? = some b ∧ b ≠ 0xff)) ∧
      r.self.GetExportDescSize =
        ((B.length + 7) / 8 + (B.filter (fun b => b != 0xff)).length) % 2 ^ 16 := by
  have hs' : sparseSize B < B.length := hs
  have hr := AllocateE32ImageHeader_sparse self sz storage B hB hlen habs hs'
  have hE := roundExtraSpace_extra_space (sparseSize B) (sparseSize_pos B hs')
    (sparseSize_lt B _ hlen hint).1
  obtain ⟨M, hw, hM1, hM2, hM3⟩ := writeSparse_zeros B (roundExtraSpace (extra_space (sparseSize B)))
    (by rw [hE]; omega)
  refine ⟨_, M, hr, rfl, ?_, hM1, hM2, fun j hj => ?_, rfl⟩
  · show List.take (sparseSize B) (writeSparse _ _ _ _) = M ++ groups B
    rw [hw]
    have : sparseSize B = (M ++ groups B).length := by
      rw [List.length_append, hM1]; rfl
    rw [this, List.take_left]
  · have := hM3 j hj
    unfold bitAt at this
    rw [this]
    by_cases hjl : j < B.length
    · rw [List.getD_eq_getElem _ _ hjl, List.getElem?_eq_getElem hjl]
      simp
    · rw [List.getD_eq_default _ _ (by omega), List.getElem?_eq_none (by omega)]
      simp

/-- Witness of C13: the 64 slots of scenario S5, of which the slots 0, 8, 16 and
24 are absent, give the meta byte `0x0F` followed by four bytes `0xFE`, size 5,
type 2. -/
theorem C13_sparse_payload_witness :
    (AllocateE32ImageHeader (CreateExportBitMap tableS5 0 0x8000) 100 (fun _ => 0)).map
        (fun r => (r.aHdr.iExportDesc.take 5, r.self.GetExportDescSize, r.self.GetExportDescType))
      = some ([0x0F, 0xFE, 0xFE, 0xFE, 0xFE], 5, 2) ∧
    ∃ r M, AllocateE32ImageHeader (CreateExportBitMap tableS5 0 0x8000) 100 (fun _ => 0) = some r ∧
      r.self.GetExportDescType = KImageHdr_ExpD_SparseBitmap8 ∧
      r.aHdr.iExportDesc.take 5 = M ++ [0xFE, 0xFE, 0xFE, 0xFE] ∧ M.length = 1 :=
  ⟨by decide, by
    obtain ⟨r, M, h1, h2, h3, h4, _⟩ := C13_sparse_payload (CreateExportBitMap tableS5 0 0x8000)
      100 (fun _ => 0) [0xFE, 0xFE, 0xFE, 0xFE, 0xFF, 0xFF, 0xFF, 0xFF] (by decide) (by decide)
      (by decide) (by decide) (by decide)
    exact ⟨r, M, h1, h2, h3, h4⟩⟩

/-- Claim C14 (amended). When none of the `N` slots of the export table is
absent, for `N >= 1` as for `N = 0`, `CreateExportBitMap` leaves a bitmap of
`ceil(N/8)` bytes `0xFF` and `iNumAbsentExports = 0`, and
`AllocateE32ImageHeader` returns a plain header at once: it calls
`SetExtendedE32ImageHeaderSize` for no size and records nothing, so that
`GetExportDescType()` and `GetExportDescSize()` are what they were before, the
values 0 and 0 in the object that the constructor leaves. -/
theorem C14_no_absent (self : ExportMembers) (EntryPointOffset GetROBase sz : Nat)
    (storage : Nat → Nat)
    (hnone : ∀ a ∈ self.iExportTable.slots, a ≠ (EntryPointOffset + GetROBase) % 2 ^ 32) :
    (CreateExportBitMap self EntryPointOffset GetROBase).iExportBitMap =
      some (List.replicate ((self.GetNumExports + 7) / 8) 0xff) ∧
    (CreateExportBitMap self EntryPointOffset GetROBase).iNumAbsentExports = 0 ∧
    (∃ r, AllocateE32ImageHeader (CreateExportBitMap self EntryPointOffset GetROBase) sz storage
        = some r ∧
      r.aExtendedHeaderSize = none ∧ r.aHdr.iExportDesc = [storage 0] ∧
      r.self.GetExportDescType = self.GetExportDescType ∧
      r.self.GetExportDescSize = self.GetExportDescSize) ∧
    ExportMembers.constructed.GetExportDescType = 0 ∧
    ExportMembers.constructed.GetExportDescSize = 0 := by
  have hc := CreateExportBitMap_eq self EntryPointOffset GetROBase
  rw [markAbsentExports_none _ _ _ _ hnone] at hc
  have h0 : (CreateExportBitMap self EntryPointOffset GetROBase).iNumAbsentExports = 0 := by
    rw [hc]
  refine ⟨by rw [hc]; rfl, h0, ⟨⟨CreateExportBitMap self EntryPointOffset GetROBase,
    ⟨[storage 0]⟩, none⟩, ?_, rfl, rfl, by rw [hc]; rfl, by rw [hc]; rfl⟩, rfl, rfl⟩
  unfold AllocateE32ImageHeader
  rw [if_pos h0]

/-- Witness of C14 (amended): the two slots of scenario S1. -/
theorem C14_no_absent_witness :
    (CreateExportBitMap tableS1 0 0x8000).iExportBitMap = some [0xFF] ∧
    ∃ r, AllocateE32ImageHeader (CreateExportBitMap tableS1 0 0x8000) 100 (fun _ => 0) = some r ∧
      r.self.GetExportDescType = 0 ∧ r.self.GetExportDescSize = 0 := by
  obtain ⟨h1, _, ⟨r, h3, _, _, h6, h7⟩, _⟩ :=
    C14_no_absent tableS1 0 0x8000 100 (fun _ => 0) (by decide)
  exact ⟨h1, r, h3, h6, h7⟩

/-- Counterexample to C14 as stated: for the two slots of scenario S1, none of
them absent, the recorded type is 0, not the tag 1 of a full bitmap, and the
recorded size is 0, not 1. -/
theorem C14_counterexample :
    ∃ r, AllocateE32ImageHeader (CreateExportBitMap tableS1 0 0x8000) 100 (fun _ => 0) = some r ∧
      r.self.GetExportDescType = 0 ∧ r.self.GetExportDescType ≠ KImageHdr_ExpD_FullBitmap ∧
      r.self.GetExportDescSize = 0 ∧ (tableS1.GetNumExports + 7) / 8 = 1 :=
  ⟨_, rfl, by decide, by decide, by decide, by decide⟩

/-- Claim C15. With an empty DEF (a null list or a list without record) and an
ELF without exports (`iReader->iExports` is null), named symbol lookup being
off, `ValidateDefExports` leaves `O` empty, `CreateExports` builds no table and
no bitmap, so that `iNumAbsentExports` is still -1 and `N = 0`, and
`AllocateE32ImageHeader` records the type full bitmap with the size 0: the
32-bit value `extra_space = memsz - 1` wraps to `2^32 - 1` for `memsz = 0` and
is rounded to 0, and the extended header size is the size of the plain
header. -/
theorem C15_empty (o : Options) (aTable : E32ExportTable)
    (EntryPointOffset GetROBase sizeofE32ImageHeaderV : Nat) (storage : Nat → Nat) :
    (∀ D : Option (List Symbol), D = none ∨ D = some [] →
      ∃ s, reconcile o D none = Outcome.ok s ∧ s.O = [] ∧
        CreateExports s.iExports false aTable EntryPointOffset GetROBase
          ExportMembers.constructed = ExportMembers.constructed) ∧
    ExportMembers.constructed.iNumAbsentExports = -1 ∧
    ExportMembers.constructed.iExportBitMap = none ∧
    ExportMembers.constructed.GetNumExports = 0 ∧
    (∃ r, AllocateE32ImageHeader ExportMembers.constructed sizeofE32ImageHeaderV storage
        = some r ∧
      r.self.GetExportDescType = KImageHdr_ExpD_FullBitmap ∧
      r.self.GetExportDescSize = 0 ∧
      r.aExtendedHeaderSize = some sizeofE32ImageHeaderV) ∧
    extra_space 0 = 2 ^ 32 - 1 ∧ roundExtraSpace (extra_space 0) = 0 := by
  refine ⟨fun D hD => ?_, rfl, rfl, rfl, ⟨_, rfl, rfl, rfl, rfl⟩, by decide, by decide⟩
  rcases hD with rfl | rfl
  · exact ⟨_, rfl, rfl, rfl⟩
  · exact ⟨_, rfl, rfl, rfl⟩

/-- Witness of C15: a DEF without record, frozen. -/
theorem C15_empty_witness :
    ∃ s, reconcile frozenOptions (some []) none = Outcome.ok s ∧ s.O = [] ∧
      CreateExports s.iExports false E32ExportTable.empty 0 0x8000 ExportMembers.constructed
        = ExportMembers.constructed :=
  (C15_empty frozenOptions E32ExportTable.empty 0 0x8000 100 (fun _ => 0)).1 (some [])
    (Or.inr rfl)

/-- Claim C16. For a bitmap whose chosen encoding has the size `s >= 1`, the
final value `e` of `extra_space` is the least multiple of 4 from `s - 1` on,
the description of the returned header has `1 + e` bytes, which is at least
`s`, and the extended header size is `sizeof(E32ImageHeaderV) + e`. The number
of exports is the value of the `int` `nexp`. -/
theorem C16_padding (self : ExportMembers) (sz : Nat) (storage : Nat → Nat)
    (B : List Nat) (hB : self.iExportBitMap = some B)
    (hlen : B.length = (self.GetNumExports + 7) / 8) (hint : self.GetNumExports + 7 < 2 ^ 31)
    (habs : self.iNumAbsentExports ≠ 0) (hs : 1 ≤ encodedSize B) :
    ∃ r e, AllocateE32ImageHeader self sz storage = some r ∧
      e % 4 = 0 ∧ encodedSize B - 1 ≤ e ∧ (∀ m, m % 4 = 0 → encodedSize B - 1 ≤ m → e ≤ m) ∧
      r.aHdr.iExportDesc.length = 1 + e ∧ encodedSize B ≤ 1 + e ∧
      r.aExtendedHeaderSize = some (sz + e) := by
  obtain ⟨b1, b2⟩ := sparseSize_lt B _ hlen hint
  by_cases hc : sparseSize B < B.length
  · have hr := AllocateE32ImageHeader_sparse self sz storage B hB hlen habs hc
    have hE := roundExtraSpace_extra_space (sparseSize B) (sparseSize_pos B hc) b1
    have he : encodedSize B = sparseSize B := by unfold encodedSize; rw [if_pos hc]
    have hfit : (B.length + 7) / 8 + (groups B).length ≤
        (List.replicate (roundExtraSpace (extra_space (sparseSize B)) + 1) 0).length := by
      rw [List.length_replicate, hE]
      show sparseSize B ≤ _
      omega
    have hl := (writeSparse_spec B 0 ((B.length + 7) / 8)
      (List.replicate (roundExtraSpace (extra_space (sparseSize B)) + 1) 0) (by omega) hfit).1
    refine ⟨_, (sparseSize B + 2) / 4 * 4, hr, by omega, by omega, fun m h1 h2 => by omega,
      ?_, by omega, ?_⟩
    · show (writeSparse _ _ _ _).length = _
      rw [hl, List.length_replicate, hE]; omega
    · show some (sz + roundExtraSpace (extra_space (sparseSize B))) = _
      rw [hE]
  · have hr := AllocateE32ImageHeader_full self sz storage B hB hlen habs hc
    have he : encodedSize B = B.length := by unfold encodedSize; rw [if_neg hc]
    rw [he] at hs
    have hE := roundExtraSpace_extra_space B.length hs b2
    refine ⟨_, (B.length + 2) / 4 * 4, hr, by omega, by omega, fun m h1 h2 => by omega,
      ?_, by omega, ?_⟩
    · show (B ++ List.drop _ (List.map storage (List.range _))).length = _
      rw [List.length_append, List.length_drop, List.length_map, List.length_range, hE]
      omega
    · show some (sz + roundExtraSpace (extra_space B.length)) = _
      rw [hE]

/-- Witness of C16: the bitmap `0xFE 0xFF` of 9 slots is encoded in 2 bytes, the
description has 5 bytes and the header 104 bytes for a plain header of 100. -/
theorem C16_padding_witness :
    ∃ r e, AllocateE32ImageHeader (CreateExportBitMap table9 0 0x8000) 100 (fun _ => 0) = some r ∧
      e % 4 = 0 ∧ encodedSize [0xFE, 0xFF] - 1 ≤ e ∧
      (∀ m, m % 4 = 0 → encodedSize [0xFE, 0xFF] - 1 ≤ m → e ≤ m) ∧
      r.aHdr.iExportDesc.length = 1 + e ∧ encodedSize [0xFE, 0xFF] ≤ 1 + e ∧
      r.aExtendedHeaderSize = some (100 + e) :=
  C16_padding (CreateExportBitMap table9 0 0x8000) 100 (fun _ => 0) [0xFE, 0xFF] (by decide)
    (by decide) (by decide) (by decide) (by decide)

/-- Claim C17, as the code behaves. In the sparse-8 encoding every byte of the
description that lies after the encoded payload is zero, whatever the storage
held: the region is cleared before the payload is written. In the full encoding
the bitmap is copied into storage that is not cleared, and the bytes after the
payload are those that the storage held, where section 6 of the specification
has the pad filled with zero. The number of exports is the value of the `int`
`nexp`. -/
theorem C17_pad (self : ExportMembers) (sz : Nat) (storage : Nat → Nat)
    (B : List Nat) (hB : self.iExportBitMap = some B)
    (hlen : B.length = (self.GetNumExports + 7) / 8) (hint : self.GetNumExports + 7 < 2 ^ 31)
    (habs : self.iNumAbsentExports ≠ 0) :
    ∃ r, AllocateE32ImageHeader self sz storage = some r ∧
      (r.self.GetExportDescType = KImageHdr_ExpD_SparseBitmap8 →
        ∀ k, encodedSize B ≤ k → k < r.aHdr.iExportDesc.length →
          r.aHdr.iExportDesc[k]? = some 0) ∧
      (r.self.GetExportDescType = KImageHdr_ExpD_FullBitmap →
        r.aHdr.iExportDesc.take (encodedSize B) = B ∧
        ∀ k, encodedSize B ≤ k → k < r.aHdr.iExportDesc.length →
          r.aHdr.iExportDesc[k]? = some (storage k)) := by
  obtain ⟨b1, b2⟩ := sparseSize_lt B _ hlen hint
  by_cases hc : sparseSize B < B.length
  · have hr := AllocateE32ImageHeader_sparse self sz storage B hB hlen habs hc
    have hE := roundExtraSpace_extra_space (sparseSize B) (sparseSize_pos B hc) b1
    have he : encodedSize B = sparseSize B := by unfold encodedSize; rw [if_pos hc]
    obtain ⟨M, hw, hM1, _, _⟩ := writeSparse_zeros B
      (roundExtraSpace (extra_space (sparseSize B))) (by rw [hE]; omega)
    refine ⟨_, hr, fun _ k hk1 hk2 => ?_, fun h => ?_⟩
    · have hk2' : k < (writeSparse B 0 ((B.length + 7) / 8)
          (List.replicate (roundExtraSpace (extra_space (sparseSize B)) + 1) 0)).length := hk2
      show (writeSparse B 0 ((B.length + 7) / 8) (List.replicate _ 0))[k]? = some 0
      rw [hw] at hk2' ⊢
      have hl : (M ++ groups B).length = sparseSize B := by
        rw [List.length_append, hM1]; rfl
      rw [List.length_append, hl, List.length_replicate] at hk2'
      rw [List.getElem?_append_right (by rw [hl]; omega), List.getElem?_replicate,
        if_pos (by rw [hl]; omega)]
    · exact absurd (show KImageHdr_ExpD_SparseBitmap8 = KImageHdr_ExpD_FullBitmap from h)
        (by decide)
  · have hr := AllocateE32ImageHeader_full self sz storage B hB hlen habs hc
    have he : encodedSize B = B.length := by unfold encodedSize; rw [if_neg hc]
    refine ⟨_, hr, fun h => absurd
      (show KImageHdr_ExpD_FullBitmap = KImageHdr_ExpD_SparseBitmap8 from h) (by decide),
      fun _ => ⟨?_, fun k hk1 hk2 => ?_⟩⟩
    · show List.take (encodedSize B) (B ++ _) = B
      rw [he, List.take_left]
    · have hk2' : k < (B ++ List.drop B.length (List.map storage
          (List.range (roundExtraSpace (extra_space B.length) + 1)))).length := hk2
      show (B ++ List.drop B.length (List.map storage (List.range _)))[k]? = _
      rw [List.length_append, List.length_drop, List.length_map, List.length_range] at hk2'
      rw [he] at hk1
      rw [List.getElem?_append_right hk1, List.getElem?_drop, List.getElem?_map,
        List.getElem?_range (by omega)]
      simp only [Option.map_some']
      congr 2
      omega

/-- Witness of C17: 64 slots of which the slots 0, 8 and 16 are absent
give a sparse description of 5 bytes, of which the last one, after the payload
of 4 bytes, is zero whatever the storage held. -/
theorem C17_pad_witness :
    ∃ r, AllocateE32ImageHeader (CreateExportBitMap table64 0 0x8000) 100 (fun _ => 0xAA) = some r ∧
      r.aHdr.iExportDesc = [0x07, 0xFE, 0xFE, 0xFE, 0] ∧
      ∀ k, encodedSize [0xFE, 0xFE, 0xFE, 0xFF, 0xFF, 0xFF, 0xFF, 0xFF] ≤ k →
        k < r.aHdr.iExportDesc.length → r.aHdr.iExportDesc[k]? = some 0 := by
  obtain ⟨r, h1, h2, _⟩ := C17_pad (CreateExportBitMap table64 0 0x8000) 100 (fun _ => 0xAA)
    [0xFE, 0xFE, 0xFE, 0xFF, 0xFF, 0xFF, 0xFF, 0xFF] (by decide) (by decide) (by decide)
    (by decide)
  have hr : (AllocateE32ImageHeader (CreateExportBitMap table64 0 0x8000) 100 (fun _ => 0xAA)).map
      (fun r => (r.aHdr.iExportDesc, r.self.GetExportDescType)) =
      some ([0x07, 0xFE, 0xFE, 0xFE, 0], KImageHdr_ExpD_SparseBitmap8) := by decide
  rw [h1] at hr
  simp only [Option.map_some', Option.some.injEq, Prod.mk.injEq] at hr
  exact ⟨r, h1, hr.1, h2 hr.2⟩

/-- Failing input of C17: for 9 slots of which the first is absent the full
bitmap `0xFE 0xFF` is chosen, the description has 5 bytes, and the 3 bytes after
the payload are the bytes `0xAA` that the storage held, not zero. -/
theorem C17_counterexample :
    ∃ r, AllocateE32ImageHeader (CreateExportBitMap table9 0 0x8000) 100 (fun _ => 0xAA) = some r ∧
      r.self.GetExportDescType = KImageHdr_ExpD_FullBitmap ∧
      r.self.GetExportDescSize = 2 ∧
      r.aHdr.iExportDesc = [0xFE, 0xFF, 0xAA, 0xAA, 0xAA] :=
  ⟨_, rfl, by decide, by decide, by decide⟩

/-- Claim C19 (amended). `UnWantedSymbol(name)` returns true exactly when `name`
is contained, as a contiguous substring, in at least one entry of the table
`Unwantedruntimesymbols` (the call is `strstr(entry, name)`). So every
contiguous fragment of an entry is unwanted, the empty name included when the
table has an entry, and a name that extends an entry with extra characters is
unwanted only if it is itself contained in an entry: a name longer than every
entry is not unwanted, and against a table of one entry no name that extends the
entry is. -/
theorem C19_UnWantedSymbol (table : List (List Char)) (name : List Char) :
    (UnWantedSymbol table name = true ↔ ∃ entry ∈ table, name <:+: entry) ∧
    (∀ entry ∈ table, ∀ a c : List Char, entry = a ++ name ++ c →
      UnWantedSymbol table name = true) ∧
    (table ≠ [] → UnWantedSymbol table [] = true) ∧
    ((∀ entry ∈ table, entry.length < name.length) → UnWantedSymbol table name = false) ∧
    (∀ entry x : List Char, x ≠ [] → UnWantedSymbol [entry] (entry ++ x) = false) := by
  refine ⟨UnWantedSymbol_iff name table, ?_, ?_, ?_, ?_⟩
  · intro entry he a c hac
    exact (UnWantedSymbol_iff name table).2 ⟨entry, he, ⟨a, c, hac.symm⟩⟩
  · intro hne
    cases table with
    | nil => exact absurd rfl hne
    | cons entry rest =>
      exact (UnWantedSymbol_iff [] _).2 ⟨entry, List.mem_cons_self _ _, List.nil_infix⟩
  · intro hlen
    cases hu : UnWantedSymbol table name with
    | false => rfl
    | true =>
      obtain ⟨entry, he, hi⟩ := (UnWantedSymbol_iff name table).1 hu
      have := hi.length_le
      have := hlen entry he
      omega
  · intro entry0 x hx
    cases hu : UnWantedSymbol [entry0] (entry0 ++ x) with
    | false => rfl
    | true =>
      obtain ⟨entry, he, hi⟩ := (UnWantedSymbol_iff _ _).1 hu
      rw [List.mem_singleton] at he
      subst he
      have h1 := hi.length_le
      rw [List.length_append] at h1
      have h2 : 0 < x.length := List.length_pos.2 hx
      omega

/-- Witness of C19 (amended): with the table entry `__cxa_pure_virtual`, the
fragment `pure` and the empty name are unwanted and the longer name
`__cxa_pure_virtual_x` is not. -/
theorem C19_UnWantedSymbol_witness :
    UnWantedSymbol ["__cxa_pure_virtual".toList] "pure".toList = true ∧
    UnWantedSymbol ["__cxa_pure_virtual".toList] [] = true ∧
    UnWantedSymbol ["__cxa_pure_virtual".toList] ("__cxa_pure_virtual".toList ++ "_x".toList)
      = false :=
  ⟨(C19_UnWantedSymbol ["__cxa_pure_virtual".toList] "pure".toList).2.1
      "__cxa_pure_virtual".toList (List.mem_singleton.2 rfl) "__cxa_".toList "_virtual".toList rfl,
    (C19_UnWantedSymbol ["__cxa_pure_virtual".toList] []).2.2.1 (by decide),
    (C19_UnWantedSymbol ["__cxa_pure_virtual".toList] []).2.2.2.2 "__cxa_pure_virtual".toList
      "_x".toList (by decide)⟩

/-- Counterexample to C19 as stated: with the table entry `__cxa_pure_virtual`,
the name `__cxa_pure_virtual_x`, which contains the entry, is not unwanted, and
the proper fragment `cxa` and the empty name, which contain no entry, are. -/
theorem C19_counterexample :
    UnWantedSymbol ["__cxa_pure_virtual".toList] "__cxa_pure_virtual_x".toList = false ∧
    "__cxa_pure_virtual".toList <:+: "__cxa_pure_virtual_x".toList ∧
    UnWantedSymbol ["__cxa_pure_virtual".toList] "cxa".toList = true ∧
    ¬ "__cxa_pure_virtual".toList <:+: "cxa".toList ∧
    UnWantedSymbol ["__cxa_pure_virtual".toList] [] = true ∧
    ¬ "__cxa_pure_virtual".toList <:+: [] :=
  ⟨by decide, ⟨[], "_x".toList, rfl⟩, by decide,
    fun h => absurd h.length_le (by decide), by decide,
    fun h => absurd h.length_le (by decide)⟩

/-- Claim C20 (amended). After a successful `ValidateDefExports` there is a list
`C` of absent DEF records (addresses in `D`, each once) such that the entries of
`iSymbols` at fresh addresses are one copy for each record of `C`, with the name
and the ordinal of the record, absent and of kind code, the same object being in
the ELF export view. Every absent DEF record whose name the ELF does not export
is in `C`; when the absent DEF records have pairwise distinct names, `C` holds no
record whose name the ELF exports. -/
theorem C20_carry_over (o : Options) (D : List Symbol) (E : Option (List Symbol))
    (s : ElfFileSupplied) (h : reconcile o (some D) E = Outcome.ok s) :
    ∃ C : List Nat, C.Nodup ∧
      (∀ p ∈ C, ∃ d, D[p]? = some d ∧ d.absent = true) ∧
      (∀ p d, D[p]? = some d → d.absent = true →
        (∀ e ∈ E.getD [], e.name ≠ d.name) → p ∈ C) ∧
      (((D.filter (fun d => d.absent)).map (fun d => d.name)).Nodup →
        ∀ p ∈ C, ∀ d, D[p]? = some d → ∀ e ∈ E.getD [], e.name ≠ d.name) ∧
      (s.iSymbols.filter (fun q => decide (D.length + (E.getD []).length ≤ q))).Perm
        ((List.range C.length).map (fun i => D.length + (E.getD []).length + i)) ∧
      ∀ (i : Nat) (hi : i < C.length),
        (∃ d, D[C.get ⟨i, hi⟩]? = some d ∧ d.absent = true ∧
          (s.heap (D.length + (E.getD []).length + i)).name = d.name ∧
          (s.heap (D.length + (E.getD []).length + i)).ordinal = d.ordinal ∧
          (s.heap (D.length + (E.getD []).length + i)).absent = true ∧
          (s.heap (D.length + (E.getD []).length + i)).kind = SymbolType.SymbolTypeCode) ∧
        ∃ e, s.iExports = some e ∧ D.length + (E.getD []).length + i ∈ e.iElfExports := by
  have r : ReconOk o D E s := reconcile_ok o (some D) E s h
  refine ⟨pCarried D E, pCarried_nodup D E, fun p hp => ?_, fun p d hd ha hu => ?_,
    fun hnd p hp d hd => ?_, filter_fresh r, fun i hi => ⟨fresh_copy r i hi, ?_⟩⟩
  · obtain ⟨hlt, habs⟩ := mem_pAbsent.1 (pCarried_sub hp)
    exact ⟨D.get ⟨p, hlt⟩, by simp [List.getElem?_eq_getElem hlt],
      by rw [← heap0_lt D E p hlt]; exact habs⟩
  · obtain ⟨hlt, hd'⟩ := List.getElem?_eq_some_iff.1 hd
    have h0 : heap0 D E p = d := by rw [heap0_lt D E p hlt]; exact hd'
    exact mem_pCarried_of_unmatched (mem_pAbsent.2 ⟨hlt, by rw [h0]; exact ha⟩)
      (by rw [h0]; exact hu)
  · obtain ⟨hlt, hd'⟩ := List.getElem?_eq_some_iff.1 hd
    have h0 : heap0 D E p = d := by rw [heap0_lt D E p hlt]; exact hd'
    have := unmatched_of_mem_pCarried hnd hp
    rw [h0] at this
    exact this
  · have hne : pCarried D E ≠ [] := fun e => by rw [e] at hi; exact absurd hi (by simp)
    obtain ⟨l, rfl⟩ := carried_exports o (some D) E s h hne
    have hx := r.exports
    refine ⟨_, hx, ?_⟩
    simp only [initial, Option.map_some']
    rw [List.mem_filter]
    have hq : D.length + l.length + i ∈ pFresh D (some l) :=
      mem_pFresh.2 ⟨by simp, by simp; exact hi⟩
    refine ⟨List.mem_append_right _ (by simpa using hq), ?_⟩
    have : D.length + ((some l).getD []).length + i ∉ pRejected o D (some l) := fun hx => by
      have := (mem_elfPtrs.1 (pRejected_sub hx).1).2
      omega
    simpa using this

/-- Witness of C20 (amended), scenario S4: DEF `a @ 1`, `b @ 2 ABSENT` against
the ELF export `a` gives `O = [a @ 1, b @ 2 ABSENT]`, the second entry being a
fresh copy, at the address 3. -/
theorem C20_carry_over_witness :
    ∃ s, reconcile frozenOptions (some [defSymbol "a" 1, absentSymbol "b" 2])
        (some [elfSymbol "a"]) = Outcome.ok s ∧
      s.O = [defSymbol "a" 1, absentSymbol "b" 2] ∧ s.iSymbols = [0, 3] ∧
      ∃ C : List Nat, C.Nodup ∧
        (s.iSymbols.filter (fun q => decide (2 + 1 ≤ q))).Perm
          ((List.range C.length).map (fun i => 2 + 1 + i)) := by
  refine ⟨_, rfl, by decide, by decide, ?_⟩
  obtain ⟨C, h1, _, _, _, h5, _⟩ := C20_carry_over frozenOptions
    [defSymbol "a" 1, absentSymbol "b" 2] (some [elfSymbol "a"]) _ rfl
  exact ⟨C, h1, h5⟩

/-- Counterexample to C20 as stated: DEF `b @ 2 ABSENT`, `b @ 3 ABSENT` against
the ELF export `b`. The ELF exports the name `b`, and case 4 still makes a copy
of `b @ 3`, at the address 3: `O = [b @ 2 ABSENT, b @ 3 ABSENT]`, the first entry
being the DEF record and the second one the copy. -/
theorem C20_counterexample :
    ∃ s, reconcile frozenOptions (some [absentSymbol "b" 2, absentSymbol "b" 3])
        (some [elfSymbol "b"]) = Outcome.ok s ∧
      s.iSymbols = [0, 3] ∧ s.O = [absentSymbol "b" 2, absentSymbol "b" 3] ∧
      s.heap 3 = absentSymbol "b" 3 ∧
      exportsName [elfSymbol "b"] (absentSymbol "b" 3).name = true :=
  ⟨_, rfl, by decide, by decide, by decide, by decide⟩

/-- Claim C21. The sparse-8 encoding is lossless: when sparse-8 is chosen for the
bitmap `B`, the decoder that takes byte `j` to be the next unread group byte
when meta bit `j` is 1 and `0xFF` when it is 0 gives `B` back from the payload
(the meta-bitmap followed by the group bytes) and the length of `B`, and also
from the whole description that `AllocateE32ImageHeader` writes. The number of
exports is the value of the `int` `nexp`. -/
theorem C21_sparse_lossless (self : ExportMembers) (sz : Nat) (storage : Nat → Nat)
    (B : List Nat) (hB : self.iExportBitMap = some B)
    (hlen : B.length = (self.GetNumExports + 7) / 8) (hint : self.GetNumExports + 7 < 2 ^ 31)
    (habs : self.iNumAbsentExports ≠ 0)
    (hs : (B.length + 7) / 8 + (B.filter (fun b => b != 0xff)).length < B.length) :
    ∃ r, AllocateE32ImageHeader self sz storage = some r ∧
      r.self.GetExportDescType = KImageHdr_ExpD_SparseBitmap8 ∧
      decodeSparse
        (r.aHdr.iExportDesc.take ((B.length + 7) / 8 + (B.filter (fun b => b != 0xff)).length))
        B.length = B ∧
      decodeSparse r.aHdr.iExportDesc B.length = B := by
  have hs' : sparseSize B < B.length := hs
  have hr := AllocateE32ImageHeader_sparse self sz storage B hB hlen habs hs'
  have hE := roundExtraSpace_extra_space (sparseSize B) (sparseSize_pos B hs')
    (sparseSize_lt B _ hlen hint).1
  obtain ⟨M, hw, hM1, _, hM3⟩ := writeSparse_zeros B (roundExtraSpace (extra_space (sparseSize B)))
    (by rw [hE]; omega)
  refine ⟨_, hr, rfl, ?_, ?_⟩
  · show decodeSparse (List.take (sparseSize B) (writeSparse _ _ _ _)) B.length = B
    rw [hw]
    have : sparseSize B = (M ++ groups B).length := by
      rw [List.length_append, hM1]; rfl
    rw [this, List.take_left]
    have := decodeSparse_eq B M [] hM1 hM3
    rwa [List.append_nil] at this
  · show decodeSparse (writeSparse _ _ _ _) B.length = B
    rw [hw]
    exact decodeSparse_eq B M _ hM1 hM3

/-- Witness of C21: the payload `0x0F 0xFE 0xFE 0xFE 0xFE` of scenario S5 decodes
to the bitmap of 8 bytes that `CreateExportBitMap` left. -/
theorem C21_sparse_lossless_witness :
    decodeSparse [0x0F, 0xFE, 0xFE, 0xFE, 0xFE] 8 =
      [0xFE, 0xFE, 0xFE, 0xFE, 0xFF, 0xFF, 0xFF, 0xFF] ∧
    ∃ r, AllocateE32ImageHeader (CreateExportBitMap tableS5 0 0x8000) 100 (fun _ => 0) = some r ∧
      r.self.GetExportDescType = KImageHdr_ExpD_SparseBitmap8 ∧
      decodeSparse (r.aHdr.iExportDesc.take 5) 8 =
        [0xFE, 0xFE, 0xFE, 0xFE, 0xFF, 0xFF, 0xFF, 0xFF] ∧
      decodeSparse r.aHdr.iExportDesc 8 = [0xFE, 0xFE, 0xFE, 0xFE, 0xFF, 0xFF, 0xFF, 0xFF] :=
  ⟨by decide,
    C21_sparse_lossless (CreateExportBitMap tableS5 0 0x8000) 100 (fun _ => 0)
      [0xFE, 0xFE, 0xFE, 0xFE, 0xFF, 0xFF, 0xFF, 0xFF] (by decide) (by decide) (by decide)
      (by decide) (by decide)⟩

end Elf2e32
